import Mathlib

/-!
Verification development for the unified OpenRouter code reviewer
(`openrouter-unified-review.mjs`).

We give a shallow embedding of the script's pure core — secret redaction,
batching, diff-position mapping, static rule scanning, JSON extraction and
finding merging — and prove the specification's claims about it.

Strings are modelled by Lean `String` (a sequence of characters); where the
JavaScript source manipulates character indices and lengths we use the
character-level operations, and regular expressions are embedded as
deterministic matchers implementing the source patterns' semantics.
-/

namespace CodexReviewer

/-! ### Character class helpers (JS regex semantics) -/

/-- JS regex word character: `[A-Za-z0-9_]` (used by `\b`). -/
def isWordChar (c : Char) : Bool :=
  (('A' ≤ c && c ≤ 'Z') || ('a' ≤ c && c ≤ 'z') || ('0' ≤ c && c ≤ '9') || c = '_')

/-- `[0-9]` -/
def isDigit (c : Char) : Bool := '0' ≤ c && c ≤ '9'

/-- `[0-9A-Z]` -/
def isUpperAlnum (c : Char) : Bool := isDigit c || ('A' ≤ c && c ≤ 'Z')

/-- `[A-Za-z0-9]` -/
def isAlnum (c : Char) : Bool :=
  isDigit c || ('A' ≤ c && c ≤ 'Z') || ('a' ≤ c && c ≤ 'z')

/-- `[A-Za-z0-9_-]` (the generic-assignment value class). -/
def isValueChar (c : Char) : Bool := isAlnum c || c = '_' || c = '-'

/-- `[A-Za-z0-9/+]` (the aws secret value class). -/
def isAwsValChar (c : Char) : Bool := isAlnum c || c = '/' || c = '+'

/-- JS `\s` (whitespace class, the members relevant to this development). -/
def isJsWs (c : Char) : Bool :=
  c = ' ' || c = '\t' || c = '\n' || c = '\r' ||
  c = (Char.ofNat 11) || c = (Char.ofNat 12) || c = (Char.ofNat 0xa0) ||
  c = (Char.ofNat 0xfeff)

/-- `\b` between an optional previous character and a next character class:
there is a word boundary before position `p` iff exactly one of
(char before `p`), (char at `p`) is a word character.  `none` stands for
start/end of input (treated as non-word). -/
def boundaryOk (prev : Option Char) (next : Option Char) : Bool :=
  (match prev with | none => false | some c => isWordChar c) ≠
  (match next with | none => false | some c => isWordChar c)

/-! ### Digit-run parsing (for `parseInt` on `\d+` captures) -/

/-- Split a leading run of decimal digits off a character list. -/
def takeDigits : List Char → (List Char × List Char)
  | [] => ([], [])
  | c :: cs =>
    if isDigit c then
      let (ds, rest) := takeDigits cs
      (c :: ds, rest)
    else ([], c :: cs)

/-- Decimal value of a digit list (the value `parseInt` returns on a
`\d+` capture). -/
def digitsToNat (ds : List Char) : Nat :=
  ds.foldl (fun n c => n * 10 + (c.toNat - '0'.toNat)) 0

/-! ### Hunk-header parsing

`diffPositionForLine` matches `/^@@ -\d+(?:,\d+)? \+(\d+)(?:,(\d+))? @@/`
and `runStaticChecksOnPatch` matches the prefix form
`/^@@ -\d+(?:,\d+)? \+(\d+)/`; both use `parseInt(m[1], 10) || 0` on the
first capture.  The optional `,\d+` group participates iff a comma is
directly followed by a digit (otherwise the regex fails either way at the
following mandatory character). -/

/-- Consume `,\d+` if present (the `(?:,\d+)?` group). -/
def skipCommaDigits : List Char → List Char
  | ',' :: c :: cs => if isDigit c then (takeDigits (c :: cs)).2 else ',' :: c :: cs
  | cs => cs

/-- Parse `/^@@ -\d+(?:,\d+)? \+(\d+)(?:,(\d+))? @@/` returning
`parseInt(m[1],10) || 0`. -/
def parseHunkHeader (L : String) : Option Nat :=
  match L.data with
  | '@' :: '@' :: ' ' :: '-' :: cs =>
    let (ds, rest) := takeDigits cs
    if ds.isEmpty then none else
    match skipCommaDigits rest with
    | ' ' :: '+' :: cs₂ =>
      let (ds₂, rest₂) := takeDigits cs₂
      if ds₂.isEmpty then none else
      match skipCommaDigits rest₂ with
      | ' ' :: '@' :: '@' :: _ => some (digitsToNat ds₂)
      | _ => none
    | _ => none
  | _ => none

/-- Parse `/^@@ -\d+(?:,\d+)? \+(\d+)/` (no trailing ` @@` required),
returning `parseInt(h[1],10) || 0`. -/
def parseHunkPrefix (L : String) : Option Nat :=
  match L.data with
  | '@' :: '@' :: ' ' :: '-' :: cs =>
    let (ds, rest) := takeDigits cs
    if ds.isEmpty then none else
    match skipCommaDigits rest with
    | ' ' :: '+' :: cs₂ =>
      let (ds₂, _) := takeDigits cs₂
      if ds₂.isEmpty then none else some (digitsToNat ds₂)
    | _ => none
  | _ => none

/-! ### String splitting and prefix tests

The source calls `unifiedPatch.split("\n")` and `L.startsWith("+")` /
`L.startsWith("-")` (single-character prefixes).  We embed these at the
character-list level so they evaluate inside the kernel. -/

/-- JS `s.split("\n")` on the character list: split at every newline
(an empty input yields one empty segment, like JS). -/
def splitNl : List Char → List (List Char)
  | [] => [[]]
  | c :: cs =>
    if c = '\n' then [] :: splitNl cs
    else
      match splitNl cs with
      | [] => [[c]]
      | l :: ls => (c :: l) :: ls

/-- `s.split("\n")` as a list of `String`s. -/
def jsSplitLines (s : String) : List String := (splitNl s.data).map String.mk

/-- JS `L.startsWith(c)` for a one-character prefix `c`. -/
def headIs (L : String) (c : Char) : Bool := L.data.head? == some c

/-! ### Diff Position Mapper (`diffPositionForLine`, part_001 lines 280–302) -/

/-- The loop body of `diffPositionForLine`: walk the diff lines carrying the
1-based `position` counter (incremented for every line) and the running
new-file line number `newLine`. -/
def diffPosGo (target : Nat) : List String → Nat → Nat → Option Nat
  | [], _, _ => none
  | L :: rest, position, newLine =>
    let position := position + 1
    match parseHunkHeader L with
    | some c => diffPosGo target rest position c
    | none =>
      if headIs L '+' then
        if newLine = target then some position
        else diffPosGo target rest position (newLine + 1)
      else if headIs L '-' then
        -- removed line: doesn't advance newLine
        diffPosGo target rest position newLine
      else
        if newLine = target then some position
        else diffPosGo target rest position (newLine + 1)

/-- `diffPositionForLine(unifiedPatch, targetNewLine)`: map a new-file line
number to the 1-based diff position, or `none` (JS `null`). -/
def diffPositionForLine (unifiedPatch : String) (targetNewLine : Nat) : Option Nat :=
  diffPosGo targetNewLine (jsSplitLines unifiedPatch) 0 0

/-! ### Chunker (`batchPRFiles`, part_001 lines 258–277, and
`batchesFromFiles`, part_001 lines 482–497)

Both functions run the identical accumulator loop — append the formatted
unit if it fits, otherwise flush the buffer and start a new one — differing
only in the per-unit formatter and the cap, so the loop is embedded once as
`buildBatches`. -/

/-- A changed file of a pull request: `{ filename, patch }`; `patch` is
absent for binary/too-large files. -/
structure PRFile where
  filename : String
  patch : Option String
deriving DecidableEq

/-- `PR_MAX_BATCH_CHARS = 80_000`. -/
def PR_MAX_BATCH_CHARS : Nat := 80000

/-- `makeUnifiedChunk(filename, patch)`. -/
def makeUnifiedChunk (filename patch : String) : String :=
  "--- a/" ++ filename ++ "\n+++ b/" ++ filename ++ "\n" ++ patch ++ "\n\n"

/-- The formatted chunk of a PR file, or `none` when `!f.patch`
(absent patch, or the empty string, which is falsy in JS). -/
def prChunk (f : PRFile) : Option String :=
  match f.patch with
  | none => none
  | some p => if p = "" then none else some (makeUnifiedChunk f.filename p)

/-- The shared batching loop: `buf` is the accumulator; a chunk that would
push `buf` past `cap` flushes `buf` (if nonempty, mirroring
`if (buf) batches.push(buf)`) and restarts the accumulator at that chunk;
the final nonempty accumulator is flushed at the end. -/
def buildBatches (cap : Nat) : List String → String → List String
  | [], buf => if buf = "" then [] else [buf]
  | chunk :: rest, buf =>
    if buf.length + chunk.length > cap then
      (if buf = "" then [] else [buf]) ++ buildBatches cap rest chunk
    else
      buildBatches cap rest (buf ++ chunk)

/-- `batchPRFiles` with the cap as a parameter. -/
def batchPRFilesWith (cap : Nat) (files : List PRFile) : List String :=
  buildBatches cap (files.filterMap prChunk) ""

/-- `batchPRFiles(files)` (cap fixed at `PR_MAX_BATCH_CHARS`). -/
def batchPRFiles (files : List PRFile) : List String :=
  batchPRFilesWith PR_MAX_BATCH_CHARS files

/-- `MAX_BATCH_CHARS = 100_000` (full-repo mode). -/
def MAX_BATCH_CHARS : Nat := 100000

/-- `MAX_FILE_CHARS = 40_000`. -/
def MAX_FILE_CHARS : Nat := 40000

/-- A file of the full-repository walk: its repository-relative path and the
result of `fs.readFileSync` (`none` when the read threw). -/
structure RepoFile where
  path : String
  content : Option String
deriving DecidableEq

/-- `sliceFileContent(p)`: `none` on read failure or when the content is
blank (`!src.trim()`); otherwise the labeled, possibly truncated file
block. -/
def sliceFileContent (f : RepoFile) : Option String :=
  match f.content with
  | none => none
  | some src =>
    if src.data.all isJsWs then none
    else
      let src := if src.length > MAX_FILE_CHARS
        then String.mk (src.data.take MAX_FILE_CHARS) ++ "\n... [truncated]"
        else src
      some ("\n// ===== FILE: " ++ f.path ++ " =====\n" ++ src)

/-- `batchesFromFiles(files)`. -/
def batchesFromFiles (files : List RepoFile) : List String :=
  buildBatches MAX_BATCH_CHARS (files.filterMap sliceFileContent) ""

/-- The batch count of the batching loop as a function of the chunk
*lengths* only (the flush decisions depend only on lengths). -/
def countLoop (cap : Nat) : List Nat → Nat → Nat
  | [], b => if b = 0 then 0 else 1
  | s :: rest, b =>
    if b + s > cap then (if b = 0 then 0 else 1) + countLoop cap rest s
    else countLoop cap rest (b + s)

/-! ### Findings and the Finding Merger (`mergeFindings`, part_001
lines 117–127)

A finding is a JS object `{ file, line, severity, comment, suggestion }`
whose fields may each be absent.  The merge key is the template literal
`` `${f.file}|${f.line}|${f.severity}|${(f.comment || "").slice(0,100)}` ``
(an absent field stringifies to `"undefined"`; an absent or empty comment
contributes the empty string).  `mergeFindings` itself is untyped in the
source, so the loop is embedded generically in the key function. -/

structure Finding where
  file : Option String
  line : Option Int
  severity : Option String
  comment : Option String
  suggestion : Option String
deriving DecidableEq

/-- `${x}` for an optional string field. -/
def optFieldStr : Option String → String
  | none => "undefined"
  | some s => s

/-- `${x}` for the optional numeric `line` field. -/
def optLineStr : Option Int → String
  | none => "undefined"
  | some i => toString i

/-- The deduplication key
`` `${f.file}|${f.line}|${f.severity}|${(f.comment || "").slice(0,100)}` ``. -/
def findingKey (f : Finding) : String :=
  optFieldStr f.file ++ "|" ++ optLineStr f.line ++ "|" ++
    optFieldStr f.severity ++ "|" ++ String.mk ((f.comment.getD "").data.take 100)

/-- The `mergeFindings` loop, generic in the element type and key
function: `seen` is the set of keys already emitted; a finding whose key
was seen is skipped, otherwise it is emitted and its key recorded. -/
def mergeAuxBy (key : α → String) (seen : List String) : List α → List α
  | [] => []
  | f :: rest =>
    if key f ∈ seen then mergeAuxBy key seen rest
    else f :: mergeAuxBy key (key f :: seen) rest

/-- `mergeFindings(all)` for an arbitrary key function. -/
def mergeFindingsBy (key : α → String) (all : List α) : List α :=
  mergeAuxBy key [] all

/-- `mergeFindings(all)` on findings. -/
def mergeFindings (all : List Finding) : List Finding :=
  mergeFindingsBy findingKey all

/-- The set of seen keys after processing a list (used to split a merge of
a concatenation into its two halves). -/
def seenAfter (key : α → String) (seen : List String) : List α → List String
  | [] => seen
  | f :: rest =>
    if key f ∈ seen then seenAfter key seen rest
    else seenAfter key (key f :: seen) rest

/-- The merge step of `runPRReview` (part_001 lines 397–398): model-batch
findings, in batch order, followed by the static-scan findings. -/
def prMergedFindings (modelFindings staticFindings : List Finding) : List Finding :=
  mergeFindings (modelFindings ++ staticFindings)

/-! ### Static Rule Scanner (`STATIC_RULES`, part_001 lines 305–311, and
`runStaticChecksOnPatch`, lines 312–338)

Each rule regex is embedded as a deterministic matcher; `re.test(code)`
is an anywhere-search `existsMatch`, threading the previous character for
`\b` assertions. -/

/-- Lower-case an ASCII letter (for the `/i` flag). -/
def toLowerChar (c : Char) : Char :=
  if 'A' ≤ c && c ≤ 'Z' then Char.ofNat (c.toNat + 32) else c

/-- Does `cs` start with the literal `lit`, compared case-insensitively? -/
def litMatchCI : List Char → List Char → Option (List Char)
  | [], cs => some cs
  | _, [] => none
  | l :: ls, c :: cs => if toLowerChar c = toLowerChar l then litMatchCI ls cs else none

/-- Does `cs` start with the literal `lit` (case-sensitive)?  Returns the
remainder after the literal. -/
def litMatch : List Char → List Char → Option (List Char)
  | [], cs => some cs
  | _, [] => none
  | l :: ls, c :: cs => if c = l then litMatch ls cs else none

/-- Search `m` at every position of `cs`, threading the previous character
(for `\b` look-behinds); `re.test` semantics. -/
def existsMatch (m : Option Char → List Char → Bool) : Option Char → List Char → Bool
  | _, [] => false
  | prev, c :: cs => m prev (c :: cs) || existsMatch m (some c) cs

/-- `\s*` -/
def dropWs (cs : List Char) : List Char := cs.dropWhile (fun c => isJsWs c)

/-- Matcher for `/=\s*\{?\s*\(\s*\)\s*=>/` at a position. -/
def inlineHandlerAt (_ : Option Char) : List Char → Bool
  | '=' :: rest =>
    let r := dropWs rest
    let r := match r with
      | '{' :: r₂ => dropWs r₂
      | _ => r
    match r with
    | '(' :: r₃ =>
      match dropWs r₃ with
      | ')' :: r₄ =>
        match dropWs r₄ with
        | '=' :: '>' :: _ => true
        | _ => false
      | _ => false
    | _ => false
  | _ => false

/-- Matcher for `/dangerouslySetInnerHTML/` at a position. -/
def dangerousHTMLAt (_ : Option Char) (cs : List Char) : Bool :=
  (litMatch "dangerouslySetInnerHTML".data cs).isSome

/-- Matcher for `/\beval\s*\(/` at a position. -/
def evalCallAt (prev : Option Char) (cs : List Char) : Bool :=
  boundaryOk prev (cs.head?) &&
  (match litMatch "eval".data cs with
   | some rest =>
     match dropWs rest with
     | '(' :: _ => true
     | _ => false
   | none => false)

/-- Matcher for `/\b(md5|sha1)\b/i` at a position. -/
def weakCryptoAt (prev : Option Char) (cs : List Char) : Bool :=
  boundaryOk prev (cs.head?) &&
  (match litMatchCI "md5".data cs with
   | some rest => boundaryOk (some '5') rest.head?
   | none =>
     match litMatchCI "sha1".data cs with
     | some rest => boundaryOk (some '1') rest.head?
     | none => false)

/-- Matcher for `/\bfs\.(readFileSync|writeFileSync|readdirSync|statSync)\b/`
at a position (alternatives tried in source order). -/
def syncIoAt (prev : Option Char) (cs : List Char) : Bool :=
  boundaryOk prev (cs.head?) &&
  (match litMatch "fs.".data cs with
   | some rest =>
     [("readFileSync", 'c'), ("writeFileSync", 'c'),
      ("readdirSync", 'c'), ("statSync", 'c')].any (fun alt =>
       match litMatch alt.1.data rest with
       | some rest₂ => boundaryOk (some alt.2) rest₂.head?
       | none => false)
   | none => false)

/-- A static rule: `{ id, re, severity, msg }` with `re.test` embedded. -/
structure StaticRule where
  id : String
  test : String → Bool
  severity : String
  msg : String

/-- `STATIC_RULES` (rules are data: the walking logic below only calls
`r.test`). -/
def STATIC_RULES : List StaticRule :=
  [⟨"react-inline-handler", fun code => existsMatch inlineHandlerAt none code.data,
    "low", "Inline arrow function in JSX may cause rerenders (extract handler)"⟩,
   ⟨"dangerouslySetInnerHTML", fun code => existsMatch dangerousHTMLAt none code.data,
    "high", "dangerouslySetInnerHTML can introduce XSS; sanitize/escape content"⟩,
   ⟨"no-eval", fun code => existsMatch evalCallAt none code.data,
    "high", "Avoid eval()"⟩,
   ⟨"weak-crypto", fun code => existsMatch weakCryptoAt none code.data,
    "medium", "Weak cryptography detected"⟩,
   ⟨"sync-io", fun code => existsMatch syncIoAt none code.data,
    "medium", "Sync I/O in JS (prefer async)"⟩]

/-- The findings a single added line produces: one per matching rule, in
rule order, at the current new-file line. -/
def lineFindings (filename : String) (newLine : Nat) (code : String) : List Finding :=
  STATIC_RULES.filterMap (fun r =>
    if r.test code then
      some ⟨some filename, some (newLine : Int), some r.severity,
        some (r.msg ++ " (rule: " ++ r.id ++ ")"), none⟩
    else none)

/-- The loop of `runStaticChecksOnPatch`: hunk headers reset the new-file
line counter; an added line is tested (content after the `+` marker) and
then advances the counter; a removed line is skipped without advancing; any
other line advances without being tested. -/
def staticGo (filename : String) : List String → Nat → List Finding
  | [], _ => []
  | L :: rest, newLine =>
    match parseHunkPrefix L with
    | some c => staticGo filename rest c
    | none =>
      if headIs L '+' then
        lineFindings filename newLine (String.mk L.data.tail)
          ++ staticGo filename rest (newLine + 1)
      else if headIs L '-' then
        staticGo filename rest newLine
      else
        staticGo filename rest (newLine + 1)

/-- `runStaticChecksOnPatch(filename, patch)`. -/
def runStaticChecksOnPatch (filename patch : String) : List Finding :=
  staticGo filename (jsSplitLines patch) 0

/-! ### Response Parser (`extractJsonFromText`, part_001 lines 89–99)

`JSON.parse` is embedded as a fueled recursive-descent parser producing a
`JVal`; numeric literals are kept as written.  The fence regex
`` /```(?:json)?\s*([\s\S]*?)```/i `` is embedded as a leftmost scan: at the
first ``` the optional `json` label is consumed if present (its letters
contain no backtick, so this cannot change which closing fence is found),
whitespace is skipped greedily, and the lazy capture runs to the earliest
closing ```. -/

inductive JVal where
  | jnull
  | jbool (b : Bool)
  | jnum (raw : String)
  | jstr (s : String)
  | jarr (xs : List JVal)
  | jobj (fields : List (String × JVal))

/-- JSON whitespace (`space`, `tab`, `newline`, `carriage return`). -/
def isJsonWs (c : Char) : Bool := c = ' ' || c = '\t' || c = '\n' || c = '\r'

def skipJsonWs (cs : List Char) : List Char := cs.dropWhile (fun c => isJsonWs c)

def parseHexDigit (c : Char) : Option Nat :=
  let n := c.toNat
  if n < 48 then none
  else if n ≤ 57 then some (n - 48)
  else if n < 65 then none
  else if n ≤ 70 then some (n - 55)
  else if n < 97 then none
  else if n ≤ 102 then some (n - 87)
  else none

/-- Parse the body of a JSON string after the opening quote, returning the
decoded content and the remainder after the closing quote. -/
def parseStringBody (fuel : Nat) (cs : List Char) : Option (List Char × List Char) :=
  match fuel with
  | 0 => none
  | fuel + 1 =>
    match cs with
    | [] => none
    | '"' :: rest => some ([], rest)
    | '\\' :: e :: rest =>
      let cont (c : Char) (r : List Char) : Option (List Char × List Char) :=
        match parseStringBody fuel r with
        | some (s, r') => some (c :: s, r')
        | none => none
      match e with
      | '"' => cont '"' rest
      | '\\' => cont '\\' rest
      | '/' => cont '/' rest
      | 'b' => cont (Char.ofNat 8) rest
      | 'f' => cont (Char.ofNat 12) rest
      | 'n' => cont '\n' rest
      | 'r' => cont '\r' rest
      | 't' => cont '\t' rest
      | 'u' =>
        match rest with
        | h₁ :: h₂ :: h₃ :: h₄ :: rest' =>
          match parseHexDigit h₁, parseHexDigit h₂, parseHexDigit h₃, parseHexDigit h₄ with
          | some a, some b, some c, some d =>
            cont (Char.ofNat (((a * 16 + b) * 16 + c) * 16 + d)) rest'
          | _, _, _, _ => none
        | _ => none
      | _ => none
    | c :: rest => if c.toNat < 32 then none else
        match parseStringBody fuel rest with
        | some (s, r') => some (c :: s, r')
        | none => none

/-- Parse a JSON number literal, returning its characters and the rest. -/
def parseNumberLit (cs : List Char) : Option (List Char × List Char) :=
  let (sign, cs₁) := match cs with
    | '-' :: r => (['-'], r)
    | _ => ([], cs)
  match cs₁ with
  | '0' :: r => some (sign ++ ['0'], r)
  | c :: _ =>
    if isDigit c && c ≠ '0' then
      let (ds, r) := takeDigits cs₁
      some (sign ++ ds, r)
    else none
  | [] => none

/-- Parse the optional fraction and exponent after the integer part. -/
def parseNumberTail (cs : List Char) : Option (List Char × List Char) :=
  let (frac, cs₁) : List Char × List Char :=
    match cs with
    | '.' :: r =>
      match takeDigits r with
      | ([], _) => ([], cs)          -- not a valid fraction: leave untouched
      | (ds, r') => ('.' :: ds, r')
    | _ => ([], cs)
  if frac.isEmpty && cs₁.head? = some '.' then none
  else
    match cs₁ with
    | e :: r =>
      if e = 'e' || e = 'E' then
        let (sgn, r₁) : List Char × List Char :=
          match r with
          | '+' :: r' => (['+'], r')
          | '-' :: r' => (['-'], r')
          | _ => ([], r)
        match takeDigits r₁ with
        | ([], _) => none
        | (ds, r₂) => some (frac ++ e :: sgn ++ ds, r₂)
      else some (frac, cs₁)
    | [] => some (frac, [])

mutual

/-- Parse one JSON value (leading whitespace allowed). -/
def parseVal (fuel : Nat) (cs : List Char) : Option (JVal × List Char) :=
  match fuel with
  | 0 => none
  | fuel + 1 =>
    match skipJsonWs cs with
    | [] => none
    | '{' :: rest =>
      (match skipJsonWs rest with
       | '}' :: r => some (JVal.jobj [], r)
       | _ =>
         match parseObjItems fuel rest with
         | some (flds, r) => some (JVal.jobj flds, r)
         | none => none)
    | '[' :: rest =>
      (match skipJsonWs rest with
       | ']' :: r => some (JVal.jarr [], r)
       | _ =>
         match parseArrItems fuel rest with
         | some (xs, r) => some (JVal.jarr xs, r)
         | none => none)
    | '"' :: rest =>
      (match parseStringBody (rest.length + 1) rest with
       | some (s, r) => some (JVal.jstr (String.mk s), r)
       | none => none)
    | 't' :: rest =>
      (match litMatch "rue".data rest with
       | some r => some (JVal.jbool true, r)
       | none => none)
    | 'f' :: rest =>
      (match litMatch "alse".data rest with
       | some r => some (JVal.jbool false, r)
       | none => none)
    | 'n' :: rest =>
      (match litMatch "ull".data rest with
       | some r => some (JVal.jnull, r)
       | none => none)
    | cs' =>
      match parseNumberLit cs' with
      | some (intpart, r) =>
        (match parseNumberTail r with
         | some (tail, r') => some (JVal.jnum (String.mk (intpart ++ tail)), r')
         | none => none)
      | none => none

/-- Parse the comma-separated items of a nonempty array body up to `]`. -/
def parseArrItems (fuel : Nat) (cs : List Char) : Option (List JVal × List Char) :=
  match fuel with
  | 0 => none
  | fuel + 1 =>
    match parseVal fuel cs with
    | none => none
    | some (v, r) =>
      match skipJsonWs r with
      | ',' :: r' =>
        (match parseArrItems fuel r' with
         | some (xs, r'') => some (v :: xs, r'')
         | none => none)
      | ']' :: r' => some ([v], r')
      | _ => none

/-- Parse the comma-separated members of a nonempty object body up to `}`. -/
def parseObjItems (fuel : Nat) (cs : List Char) : Option (List (String × JVal) × List Char) :=
  match fuel with
  | 0 => none
  | fuel + 1 =>
    match skipJsonWs cs with
    | '"' :: rest =>
      (match parseStringBody (rest.length + 1) rest with
       | none => none
       | some (k, r) =>
         match skipJsonWs r with
         | ':' :: r₁ =>
           (match parseVal fuel r₁ with
            | none => none
            | some (v, r₂) =>
              match skipJsonWs r₂ with
              | ',' :: r₃ =>
                (match parseObjItems fuel r₃ with
                 | some (flds, r₄) => some ((String.mk k, v) :: flds, r₄)
                 | none => none)
              | '}' :: r₃ => some ([(String.mk k, v)], r₃)
              | _ => none)
         | _ => none)
    | _ => none

end

/-- `JSON.parse(s)`: parse one value and require only trailing whitespace
after it. -/
def jsonParseStr (s : String) : Option JVal :=
  match parseVal (s.length + 8) s.data with
  | some (v, rest) => if (skipJsonWs rest).isEmpty then some v else none
  | none => none

/-- The lazy capture `([\s\S]*?)` up to the earliest closing ``` fence. -/
def fenceClose : List Char → Option (List Char)
  | [] => none
  | '`' :: '`' :: '`' :: _ => some []
  | c :: cs =>
    match fenceClose cs with
    | some cap => some (c :: cap)
    | none => none

/-- Match the fence pattern at one position (which must start with ```). -/
def fenceAt (cs : List Char) : Option (List Char) :=
  match cs with
  | '`' :: '`' :: '`' :: rest =>
    let rest := match litMatchCI "json".data rest with
      | some r => r
      | none => rest
    fenceClose (rest.dropWhile (fun c => isJsWs c))
  | _ => none

/-- `re.exec`: leftmost match of the fence pattern. -/
def fenceExec : List Char → Option (List Char)
  | [] => none
  | c :: cs =>
    match fenceAt (c :: cs) with
    | some cap => some cap
    | none => fenceExec cs

/-- JS `String.prototype.trim`. -/
def jsTrimList (cs : List Char) : List Char :=
  ((cs.dropWhile (fun c => isJsWs c)).reverse.dropWhile (fun c => isJsWs c)).reverse

/-- Index of the last `}` (JS `lastIndexOf`). -/
def lastBraceIdx (cs : List Char) : Option Nat :=
  match cs.reverse.findIdx? (· = '}') with
  | some j => some (cs.length - 1 - j)
  | none => none

/-- The third attempt: parse the slice from the first `{` to the last `}`
inclusive, when the first strictly precedes the last. -/
def tryBraces (s : String) : Option JVal :=
  match s.data.findIdx? (· = '{'), lastBraceIdx s.data with
  | some first, some last =>
    if first < last then
      jsonParseStr (String.mk ((s.data.drop first).take (last + 1 - first)))
    else none
  | _, _ => none

/-- `extractJsonFromText(s)`: whole-text parse, then fenced block, then the
brace-to-brace slice; `none` when all fail (or the input is empty).  Each
failing attempt is swallowed — the function is total and never raises. -/
def extractJsonFromText (s : String) : Option JVal :=
  if s = "" then none
  else
    match jsonParseStr s with
    | some v => some v
    | none =>
      match fenceExec s.data with
      | some cap =>
        (match jsonParseStr (String.mk (jsTrimList cap)) with
         | some v => some v
         | none => tryBraces s)
      | none => tryBraces s

/-! ### Redactor (`SECRET_PATTERNS`, part_001 lines 62–82, and `redact`,
lines 84–86)

Each pattern of `SECRET_PATTERNS` is embedded as a matcher
`Option Char → List Char → Option Nat` giving the length of the match at
the current position (the previous character is threaded for `\b`
look-behinds), and `t.replace(re, "[REDACTED]")` as the left-to-right
global scan `replaceAll`.  Greedy/lazy quantifiers and backtracking are
resolved deterministically where the pattern shape makes the result unique
(noted per matcher). -/

/-- Number of leading characters satisfying `p`. -/
def countWhile (p : Char → Bool) (cs : List Char) : Nat :=
  (cs.takeWhile p).length

/-- The run of leading characters satisfying `p`. -/
def runOf (p : Char → Bool) (cs : List Char) : List Char := cs.takeWhile p

/-- Is this character absent or a non-word character (so that a `\b` after
a word character holds)? -/
def nonWordOrEnd : Option Char → Bool
  | none => true
  | some c => !isWordChar c

/-- Is the previous character absent or non-word (so that a `\b` before a
word character holds)? -/
def nonWordOrStart : Option Char → Bool
  | none => true
  | some c => !isWordChar c

/-- `[A-Z ]* lit` with the star greedy: the longest class run followed by
the literal.  (`lit` starts with `P`, not a class-exit point, so greedy
backtracking yields at most one split; we still implement the full
longest-first search.) -/
def azThenLit (lit : List Char) : List Char → Option Nat
  | [] => if lit.isEmpty then some 0 else none
  | c :: rest =>
    if ('A' ≤ c && c ≤ 'Z') || c = ' ' then
      match azThenLit lit rest with
      | some n => some (n + 1)
      | none => (litMatch lit (c :: rest)).map (fun _ => lit.length)
    else (litMatch lit (c :: rest)).map (fun _ => lit.length)

/-- The END marker `-----END [A-Z ]*PRIVATE KEY-----` at this position. -/
def pemEndAt (cs : List Char) : Option Nat :=
  match litMatch "-----END ".data cs with
  | some rest =>
    (azThenLit "PRIVATE KEY-----".data rest).map (fun n => "-----END ".length + n)
  | none => none

/-- Lazy `[\s\S]*?` up to and including the earliest END marker: offset of
the marker plus its length. -/
def findPemEnd : List Char → Option Nat
  | [] => none
  | c :: rest =>
    match pemEndAt (c :: rest) with
    | some n => some n
    | none => (findPemEnd rest).map (· + 1)

/-- Pattern 1:
`/-----BEGIN [A-Z ]*PRIVATE KEY-----[\s\S]*?-----END [A-Z ]*PRIVATE KEY-----/g`. -/
def matchPemAt (_ : Option Char) (cs : List Char) : Option Nat :=
  match litMatch "-----BEGIN ".data cs with
  | some rest =>
    match azThenLit "PRIVATE KEY-----".data rest with
    | some n₁ =>
      let headLen := "-----BEGIN ".length + n₁
      (findPemEnd (cs.drop headLen)).map (fun n₂ => headLen + n₂)
    | none => none
  | none => none

/-- `\s*[:=]\s*["']?<cls>{min,}["']?` — the shared assignment suffix of
patterns 2 and 6 (value run greedy-maximal; a consumed opening quote that
leaves a too-short value cannot be repaired by backtracking since the quote
is not a value character). -/
def assignSuffix (cls : Char → Bool) (min : Nat) (cs : List Char) : Option Nat :=
  let w₁ := countWhile isJsWs cs
  match cs.drop w₁ with
  | c :: rest =>
    if c = ':' || c = '=' then
      let w₂ := countWhile isJsWs rest
      let afterWs := rest.drop w₂
      let (q₁, afterQ) : Nat × List Char :=
        match afterWs with
        | q :: r => if q = '"' || q = '\'' then (1, r) else (0, afterWs)
        | [] => (0, afterWs)
      let v := countWhile cls afterQ
      if v < min then none
      else
        let afterV := afterQ.drop v
        let q₂ : Nat :=
          match afterV with
          | q :: _ => if q = '"' || q = '\'' then 1 else 0
          | [] => 0
        some (w₁ + 1 + w₂ + q₁ + v + q₂)
    else none
  | [] => none

/-- `api[_\-\s]*key` (case-insensitive; the separator run is greedy and
`k` is not a separator, so the munch is exact). -/
def kwApiKey (cs : List Char) : Option Nat :=
  match litMatchCI "api".data cs with
  | some rest =>
    let m := countWhile (fun c => c = '_' || c = '-' || isJsWs c) rest
    match litMatchCI "key".data (rest.drop m) with
    | some _ => some (3 + m + 3)
    | none => none
  | none => none

/-- Pattern 2:
`/(?:api[_\-\s]*key|secret|token|password|passwd|authorization)\s*[:=]\s*["']?[A-Za-z0-9_-]{12,}["']?/gi`
(alternatives tried in source order; a keyword whose assignment suffix
fails falls through to the next alternative). -/
def matchGenericAt (_ : Option Char) (cs : List Char) : Option Nat :=
  let tryKw (kwLen : Option Nat) : Option Nat :=
    kwLen.bind (fun k => (assignSuffix isValueChar 12 (cs.drop k)).map (· + k))
  tryKw (kwApiKey cs) <|>
  tryKw ((litMatchCI "secret".data cs).map (fun _ => 6)) <|>
  tryKw ((litMatchCI "token".data cs).map (fun _ => 5)) <|>
  tryKw ((litMatchCI "password".data cs).map (fun _ => 8)) <|>
  tryKw ((litMatchCI "passwd".data cs).map (fun _ => 6)) <|>
  tryKw ((litMatchCI "authorization".data cs).map (fun _ => 13))

/-- The largest cut `j` with `min ≤ j ≤ run.length` at which the trailing
`\b` of a `{min,}`-quantified `[A-Za-z0-9_-]` run holds: the character
before the cut must be a word character (not `-`) and the character at the
cut, if inside the run, must be `-` (characters after the maximal run are
never word characters, all word characters being in the class). -/
def bestCut (min : Nat) (run : List Char) : Option Nat :=
  (List.range (run.length + 1)).reverse.find? (fun j =>
    decide (min ≤ j) && decide (1 ≤ j) &&
    (match run.get? (j - 1) with
     | some c => isWordChar c
     | none => false) &&
    (if j = run.length then true
     else match run.get? j with
       | some c => !isWordChar c
       | none => false))

/-- Pattern 3: `/\b(AIza|ya29\.)[A-Za-z0-9_-]{20,}\b/g`. -/
def matchGoogleAt (prev : Option Char) (cs : List Char) : Option Nat :=
  if nonWordOrStart prev then
    let afterPrefix : Option Nat :=
      match litMatch "AIza".data cs with
      | some _ => some 4
      | none =>
        match litMatch "ya29.".data cs with
        | some _ => some 5
        | none => none
    afterPrefix.bind (fun k =>
      (bestCut 20 (runOf isValueChar (cs.drop k))).map (· + k))
  else none

/-- Pattern 4: `/\bghp_[A-Za-z0-9]{20,}\b/g` (the run class is all word
characters, so only the full maximal run can end at a boundary). -/
def matchGhpAt (prev : Option Char) (cs : List Char) : Option Nat :=
  if nonWordOrStart prev then
    match litMatch "ghp_".data cs with
    | some rest =>
      let v := countWhile isAlnum rest
      if 20 ≤ v && nonWordOrEnd (rest.drop v).head? then some (4 + v) else none
    | none => none
  else none

/-- Pattern 5: `/\bAKIA[0-9A-Z]{16}\b/g`. -/
def matchAwsKeyAt (prev : Option Char) (cs : List Char) : Option Nat :=
  if nonWordOrStart prev then
    match litMatch "AKIA".data cs with
    | some rest =>
      let body := rest.take 16
      if body.length = 16 && body.all isUpperAlnum
          && nonWordOrEnd (rest.drop 16).head? then
        some 20
      else none
    | none => none
  else none

/-- Pattern 6:
`/\baws_secret_access_key\b\s*[:=]\s*["']?[A-Za-z0-9/+]{30,}["']?/gi`. -/
def matchAwsSecretAt (prev : Option Char) (cs : List Char) : Option Nat :=
  if nonWordOrStart prev then
    match litMatchCI "aws_secret_access_key".data cs with
    | some rest =>
      if nonWordOrEnd rest.head? then
        (assignSuffix isAwsValChar 30 rest).map (· + 21)
      else none
    | none => none
  else none

/-- Pattern 7: `/\bsk-[A-Za-z0-9]{20,}\b/g`. -/
def matchSkAt (prev : Option Char) (cs : List Char) : Option Nat :=
  if nonWordOrStart prev then
    match litMatch "sk-".data cs with
    | some rest =>
      let v := countWhile isAlnum rest
      if 20 ≤ v && nonWordOrEnd (rest.drop v).head? then some (3 + v) else none
    | none => none
  else none

/-- The replacement text (the characters of `"[REDACTED]"`). -/
def PLACEHOLDER : List Char :=
  '[' :: 'R' :: 'E' :: 'D' :: 'A' :: 'C' :: 'T' :: 'E' :: 'D' :: ']' :: []

/-- The scan of `t.replace(re, "[REDACTED]")`: at each position, if the
matcher fires (with length `n ≥ 1`), emit the placeholder and skip the
matched characters, resuming with previous character `]`; otherwise copy
one character.  `skip` counts match characters still to be consumed. -/
def repGo (m : Option Char → List Char → Option Nat) :
    Option Char → Nat → List Char → List Char
  | _, _, [] => []
  | prev, skip + 1, _ :: rest => repGo m prev skip rest
  | prev, 0, c :: rest =>
    match m prev (c :: rest) with
    | some n => PLACEHOLDER ++ repGo m (some ']') (n - 1) rest
    | none => c :: repGo m (some c) 0 rest

/-- `t.replace(re, "[REDACTED]")` with `re` global. -/
def replaceAll (m : Option Char → List Char → Option Nat) (cs : List Char) : List Char :=
  repGo m none 0 cs

/-- `SECRET_PATTERNS` in source order. -/
def SECRET_PATTERNS : List (Option Char → List Char → Option Nat) :=
  [matchPemAt, matchGenericAt, matchGoogleAt, matchGhpAt,
   matchAwsKeyAt, matchAwsSecretAt, matchSkAt]

/-- `redact(s) = SECRET_PATTERNS.reduce((t, re) => t.replace(re, "[REDACTED]"), s)`. -/
def redact (s : String) : String :=
  String.mk (SECRET_PATTERNS.foldl (fun t m => replaceAll m t) s.data)

/-- Does the text contain, anywhere, the plain substring `AKIA` followed by
16 uppercase-alphanumeric characters (no word-boundary requirement — the
shape named by the claim)? -/
def akiaPlainAt (cs : List Char) : Bool :=
  match litMatch "AKIA".data cs with
  | some rest => (rest.take 16).length = 16 && (rest.take 16).all isUpperAlnum
  | none => false

def hasAkiaSubstring : List Char → Bool
  | [] => false
  | c :: cs => akiaPlainAt (c :: cs) || hasAkiaSubstring cs

/-- A word-boundary-delimited AKIA token at this position (exactly what
pattern 5 matches). -/
def isAkiaTokenAt (prev : Option Char) (cs : List Char) : Bool :=
  (matchAwsKeyAt prev cs).isSome

/-- Does the string contain a word-boundary-delimited AKIA token? -/
def hasAkiaToken (s : String) : Bool :=
  existsMatch isAkiaTokenAt none s.data

/-- The left-context character after copying `pre`: the last character of
`pre`, or the original context when `pre` is empty (used to state where a
scan's match fired). -/
def lastCtx (prev : Option Char) (pre : List Char) : Option Char :=
  match pre.getLast? with
  | some d => some d
  | none => prev

/-! ### Full-repository run (`runFullRepo`, part_001 lines 499–539)

The run is embedded as a pure function of the walked file list (the
filesystem reads appear as each file's `content`) and an oracle giving each
batch's model-call outcome.  Writing the JSON and Markdown artifacts is
represented by the `wrote` result carrying the JSON artifact's content
`{summary, findings}` (the Markdown file renders the same data; rendering
is the spec's out-of-scope pure formatting step). -/

/-- Outcome of one `callOpenRouter` invocation. -/
inductive ModelOutcome where
  | ok (raw : String)
  | err401
  | errOther
deriving DecidableEq

/-- What the full-repo run did. -/
inductive FullRepoResult where
  | noFiles
  | authAbort
  | wrote (summary : String) (findings : List JVal)

/-- JS property lookup `v.k` on a parsed JSON value (objects only; JSON
duplicate keys resolve to the last occurrence). -/
def jFieldLookup (v : JVal) (k : String) : Option JVal :=
  match v with
  | JVal.jobj flds => (flds.reverse.find? (fun p => p.1 = k)).map (·.2)
  | _ => none

/-- JS truthiness of a parsed JSON value (a number is falsy iff its
mantissa is zero). -/
def jsTruthy : JVal → Bool
  | JVal.jnull => false
  | JVal.jbool b => b
  | JVal.jnum raw =>
    !((raw.data.takeWhile (fun c => c ≠ 'e' && c ≠ 'E')).all
        (fun c => c = '0' || c = '.' || c = '-'))
  | JVal.jstr s => s ≠ ""
  | JVal.jarr _ => true
  | JVal.jobj _ => true

/-- JS `String(v)` for parsed JSON values (fueled for nested arrays;
numbers are rendered by their literal). -/
def jsToStringF : Nat → JVal → String
  | 0, _ => ""
  | fuel + 1, v =>
    match v with
    | JVal.jnull => "null"
    | JVal.jbool true => "true"
    | JVal.jbool false => "false"
    | JVal.jnum raw => raw
    | JVal.jstr s => s
    | JVal.jobj _ => "[object Object]"
    | JVal.jarr xs =>
      String.intercalate ","
        (xs.map (fun x =>
          match x with
          | JVal.jnull => ""
          | y => jsToStringF fuel y))

def jsToString (v : JVal) : String := jsToStringF 100 v

/-- The `mergeFindings` key evaluated on a raw parsed finding object. -/
def jvalKey (f : JVal) : String :=
  let fld (k : String) : String :=
    match jFieldLookup f k with
    | none => "undefined"
    | some v => jsToString v
  let comment : String :=
    match jFieldLookup f "comment" with
    | none => ""
    | some v => if jsTruthy v then jsToString v else ""
  fld "file" ++ "|" ++ fld "line" ++ "|" ++ fld "severity" ++ "|" ++
    String.mk (comment.data.take 100)

/-- `MAX_FILES = 600`. -/
def MAX_FILES : Nat := 600

/-- The per-batch loop of `runFullRepo`: a 401 failure exits the process
(`none`); another failure contributes nothing and continues; a successful
call is parsed — a non-object/array parse falls back to the
`"Model did not return valid JSON."` object — and its `findings` array and
truthy `summary` are accumulated. -/
def runBatches (oracle : Nat → ModelOutcome) :
    Nat → List String → Option (List JVal × List JVal)
  | _, [] => some ([], [])
  | i, _ :: rest =>
    match oracle i with
    | ModelOutcome.err401 => none
    | ModelOutcome.errOther => runBatches oracle (i + 1) rest
    | ModelOutcome.ok raw =>
      let parsed := extractJsonFromText raw
      let out : JVal :=
        match parsed with
        | some (JVal.jobj flds) => JVal.jobj flds
        | some (JVal.jarr xs) => JVal.jarr xs
        | _ => JVal.jobj [("findings", JVal.jarr []),
            ("summary", JVal.jstr "Model did not return valid JSON.")]
      let fnd : List JVal :=
        match jFieldLookup out "findings" with
        | some (JVal.jarr xs) => xs
        | _ => []
      let sm : List JVal :=
        match jFieldLookup out "summary" with
        | some s => if jsTruthy s then [s] else []
        | none => []
      match runBatches oracle (i + 1) rest with
      | none => none
      | some (fs, ss) => some (fnd ++ fs, sm ++ ss)

/-- The sanitized batches of the full-repo run. -/
def fullRepoBatches (files : List RepoFile) : List String :=
  (batchesFromFiles (files.take MAX_FILES)).map redact

/-- `runFullRepo()`: an empty walked file set returns early (only a log
line, no artifacts); a 401 aborts the process; otherwise the JSON and
Markdown artifacts are written with the merged findings and the final
summary. -/
def runFullRepo (files : List RepoFile) (oracle : Nat → ModelOutcome) :
    FullRepoResult :=
  let allFiles := files.take MAX_FILES
  if allFiles.isEmpty then FullRepoResult.noFiles
  else
    let batches := fullRepoBatches files
    match runBatches oracle 0 batches with
    | none => FullRepoResult.authAbort
    | some (allFindings, summaries) =>
      let finalSummary :=
        if summaries.isEmpty then
          "Reviewed " ++ toString allFiles.length ++ " file(s) across "
            ++ toString batches.length ++ " batch(es)."
        else
          "Batches: " ++ toString batches.length ++ ". "
            ++ String.intercalate " " ((summaries.take 3).map jsToString)
      FullRepoResult.wrote finalSummary (mergeFindingsBy jvalKey allFindings)

/-! ## Theorems -/

/-- If a line's head is `c`, its head is not another character `d`. -/
theorem headIs_unique {L : String} {c d : Char} (h : headIs L c = true)
    (hne : c ≠ d) : headIs L d = false := by
  unfold headIs at h ⊢
  cases hq : L.data.head? with
  | none => rw [hq] at h; simp at h
  | some e =>
    rw [hq] at h
    simp at h ⊢
    rw [h]
    exact hne

/-- The position counter returned by the diff walk is strictly past the
starting counter and at most the starting counter plus the number of lines
walked: every line (header, context, addition, deletion) advances it by
exactly one. -/
theorem diffPosGo_bounds (t : Nat) :
    ∀ (lines : List String) (pos nl p : Nat),
      diffPosGo t lines pos nl = some p → pos < p ∧ p ≤ pos + lines.length := by
  intro lines
  induction lines with
  | nil => intro pos nl p h; simp [diffPosGo] at h
  | cons L rest ih =>
    intro pos nl p h
    simp only [List.length_cons]
    cases hH : parseHunkHeader L with
    | some c =>
      simp only [diffPosGo, hH] at h
      have := ih (pos + 1) c p h
      omega
    | none =>
      simp only [diffPosGo, hH] at h
      by_cases hP : headIs L '+' = true
      · rw [if_pos hP] at h
        by_cases hnl : nl = t
        · rw [if_pos hnl] at h
          injection h with h
          omega
        · rw [if_neg hnl] at h
          have := ih (pos + 1) (nl + 1) p h
          omega
      · rw [if_neg hP] at h
        by_cases hM : headIs L '-' = true
        · rw [if_pos hM] at h
          have := ih (pos + 1) nl p h
          omega
        · rw [if_neg hM] at h
          by_cases hnl : nl = t
          · rw [if_pos hnl] at h
            injection h with h
            omega
          · rw [if_neg hnl] at h
            have := ih (pos + 1) (nl + 1) p h
            omega

/-- **C1.** The Diff Position Mapper walks every line of the diff with a
1-based position counter that counts hunk headers, context lines, additions
and deletions alike (any found position `p` satisfies
`1 ≤ p ≤ number of diff lines`); a removed line increments the position
counter but leaves the new-file line counter unchanged; on the diff
`@@ -1,3 +1,4 @@` / ` context` / `+added1` / `+added2` / ` context2` with
target new-line 2 it returns position 3 (the line `+added1`, counting from 1
over every diff line up to and including it); and a target that only ever
appeared as a removed line (old-file line 5, the line `-gone` of
`@@ -5,1 +4,0 @@`) yields not-found (`none`). -/
theorem diffPositionForLine_spec :
    (∀ (L : String) (rest : List String) (t pos nl : Nat),
        parseHunkHeader L = none → headIs L '-' = true →
        diffPosGo t (L :: rest) pos nl = diffPosGo t rest (pos + 1) nl) ∧
    (∀ (patch : String) (t p : Nat),
        diffPositionForLine patch t = some p →
        1 ≤ p ∧ p ≤ (jsSplitLines patch).length) ∧
    diffPositionForLine "@@ -1,3 +1,4 @@\n context\n+added1\n+added2\n context2" 2
      = some 3 ∧
    diffPositionForLine "@@ -5,1 +4,0 @@\n-gone" 5 = none := by
  refine ⟨?_, ?_, by decide, by decide⟩
  · intro L rest t pos nl hH hM
    have hP : headIs L '+' = false := headIs_unique hM (by decide)
    conv_lhs => rw [diffPosGo]
    simp [hH, hP, hM]
  · intro patch t p h
    have := diffPosGo_bounds t (jsSplitLines patch) 0 0 p h
    omega

/-- Witness for `diffPositionForLine_spec`: the removed-line step law applied
to the concrete line `-gone`, and the position bounds applied to the concrete
example diff. -/
theorem diffPositionForLine_spec_witness :
    diffPosGo 7 ["-gone"] 0 4 = diffPosGo 7 [] 1 4 ∧
    (1 ≤ 3 ∧
      3 ≤ (jsSplitLines "@@ -1,3 +1,4 @@\n context\n+added1\n+added2\n context2").length) :=
  ⟨diffPositionForLine_spec.1 "-gone" [] 7 0 4 (by decide) (by decide),
   diffPositionForLine_spec.2.1 _ 2 3 diffPositionForLine_spec.2.2.1⟩

/-! ### Chunker lemmas -/

/-- A string has length 0 iff it is empty. -/
theorem string_length_eq_zero_iff (s : String) : s.length = 0 ↔ s = "" := by
  constructor
  · intro h
    cases s with
    | mk d =>
      cases d with
      | nil => rfl
      | cons c cs => simp [String.length] at h
  · intro h
    subst h
    rfl

/-- The characters of all batches, concatenated, are the accumulator
followed by the characters of all chunks, in order. -/
theorem buildBatches_flatten (cap : Nat) :
    ∀ (chunks : List String) (buf : String),
      ((buildBatches cap chunks buf).map String.data).flatten
        = buf.data ++ (chunks.map String.data).flatten := by
  intro chunks
  induction chunks with
  | nil =>
    intro buf
    by_cases hb : buf = ""
    · subst hb; simp [buildBatches]
    · simp [buildBatches, hb]
  | cons c rest ih =>
    intro buf
    by_cases hfull : buf.length + c.length > cap
    · simp only [buildBatches, if_pos hfull]
      by_cases hb : buf = ""
      · subst hb; simp [ih]
      · simp [hb, ih]
    · simp only [buildBatches, if_neg hfull]
      rw [ih]
      simp [String.data_append]

/-- The total batch length equals the accumulator length plus the total
chunk length: nothing is duplicated or lost. -/
theorem buildBatches_sum (cap : Nat) :
    ∀ (chunks : List String) (buf : String),
      ((buildBatches cap chunks buf).map String.length).sum
        = buf.length + (chunks.map String.length).sum := by
  intro chunks
  induction chunks with
  | nil =>
    intro buf
    by_cases hb : buf = ""
    · subst hb; simp [buildBatches]
    · simp [buildBatches, hb]
  | cons c rest ih =>
    intro buf
    by_cases hfull : buf.length + c.length > cap
    · simp only [buildBatches, if_pos hfull]
      by_cases hb : buf = ""
      · subst hb
        simp [ih]
      · simp only [List.map_append, List.sum_append, ih, List.map_cons, List.sum_cons]
        simp [hb]
    · simp only [buildBatches, if_neg hfull]
      rw [ih, String.length_append]
      simp [List.map_cons]
      omega

/-- Every batch either fits the cap or is a member of the chunk pool `S`
(assuming the accumulator and all pending chunks satisfy the invariant). -/
theorem buildBatches_cap (cap : Nat) (S : List String) :
    ∀ (chunks : List String) (buf : String),
      (∀ c ∈ chunks, c ∈ S) → (buf.length ≤ cap ∨ buf ∈ S) →
      ∀ b ∈ buildBatches cap chunks buf, b.length ≤ cap ∨ b ∈ S := by
  intro chunks
  induction chunks with
  | nil =>
    intro buf _ hbuf b hb
    by_cases he : buf = ""
    · simp [buildBatches, he] at hb
    · simp [buildBatches, he] at hb
      subst hb
      exact hbuf
  | cons c rest ih =>
    intro buf hsub hbuf b hb
    have hcS : c ∈ S := hsub c (List.mem_cons_self c rest)
    have hrest : ∀ x ∈ rest, x ∈ S := fun x hx => hsub x (List.mem_cons_of_mem c hx)
    by_cases hfull : buf.length + c.length > cap
    · simp only [buildBatches, if_pos hfull] at hb
      rcases List.mem_append.mp hb with h₁ | h₂
      · by_cases he : buf = ""
        · simp [he] at h₁
        · simp [he] at h₁
          subst h₁
          exact hbuf
      · exact ih c hrest (Or.inr hcS) b h₂
    · simp only [buildBatches, if_neg hfull] at hb
      refine ih (buf ++ c) hrest ?_ b hb
      left
      rw [String.length_append]
      omega

/-- The number of batches depends only on the chunk lengths, via
`countLoop`. -/
theorem buildBatches_length_eq_countLoop (cap : Nat) :
    ∀ (chunks : List String) (buf : String),
      (buildBatches cap chunks buf).length
        = countLoop cap (chunks.map String.length) buf.length := by
  intro chunks
  induction chunks with
  | nil =>
    intro buf
    by_cases hb : buf = ""
    · subst hb; simp [buildBatches, countLoop]
    · have : buf.length ≠ 0 := fun h => hb ((string_length_eq_zero_iff buf).mp h)
      simp [buildBatches, countLoop, hb, this]
  | cons c rest ih =>
    intro buf
    by_cases hfull : buf.length + c.length > cap
    · simp only [buildBatches, List.map_cons, countLoop, if_pos hfull]
      rw [List.length_append, ih]
      by_cases hb : buf = ""
      · have : buf.length = 0 := (string_length_eq_zero_iff buf).mpr hb
        simp [hb, this]
      · have : buf.length ≠ 0 := fun h => hb ((string_length_eq_zero_iff buf).mp h)
        simp [hb, this]
    · simp only [buildBatches, List.map_cons, countLoop, if_neg hfull]
      rw [ih, String.length_append]

/-- Buffer sensitivity of the batch count: a smaller starting buffer never
produces more batches, and a larger starting buffer costs at most one extra
batch. -/
theorem countLoop_buffer (cap : Nat) :
    ∀ (l : List Nat) (b₂ b₁ : Nat), b₂ ≤ b₁ →
      countLoop cap l b₂ ≤ countLoop cap l b₁ ∧
      countLoop cap l b₁ ≤ 1 + countLoop cap l b₂ := by
  intro l
  induction l with
  | nil =>
    intro b₂ b₁ hb
    by_cases h₂ : b₂ = 0 <;> by_cases h₁ : b₁ = 0 <;> simp [countLoop, h₂, h₁] <;> omega
  | cons s rest ih =>
    intro b₂ b₁ hb
    by_cases h₁ : b₁ + s > cap
    · by_cases h₂ : b₂ + s > cap
      · simp only [countLoop, if_pos h₁, if_pos h₂]
        have hind : (if b₂ = 0 then 0 else 1) ≤ (if b₁ = 0 then 0 else 1) ∧
            (if b₁ = 0 then 0 else 1) ≤ 1 + (if b₂ = 0 then 0 else 1) := by
          by_cases hz₂ : b₂ = 0 <;> by_cases hz₁ : b₁ = 0 <;> simp [hz₂, hz₁] <;> omega
        omega
      · -- c₁-side flushes, c₂-side appends; here b₁ > b₂, so b₁ ≠ 0
        simp only [countLoop, if_pos h₁, if_neg h₂]
        have hb₁ : b₁ ≠ 0 := by omega
        simp only [if_neg hb₁]
        have h2 := (ih s (b₂ + s) (Nat.le_add_left s b₂)).2
        have h1 := (ih s (b₂ + s) (Nat.le_add_left s b₂)).1
        omega
    · have h₂ : ¬ (b₂ + s > cap) := by omega
      simp only [countLoop, if_neg h₁, if_neg h₂]
      exact ih (b₂ + s) (b₁ + s) (by omega)

/-- Batch-count monotonicity in the cap: shrinking the cap never decreases
the batch count. -/
theorem countLoop_cap_mono {c₁ c₂ : Nat} (hc : c₂ ≤ c₁) :
    ∀ (l : List Nat) (b : Nat), countLoop c₁ l b ≤ countLoop c₂ l b := by
  intro l
  induction l with
  | nil => intro b; simp [countLoop]
  | cons s rest ih =>
    intro b
    by_cases h₂ : b + s > c₂
    · by_cases h₁ : b + s > c₁
      · simp only [countLoop, if_pos h₁, if_pos h₂]
        have := ih s
        omega
      · -- the small cap flushes, the large cap appends
        simp only [countLoop, if_neg h₁, if_pos h₂]
        by_cases hz : b = 0
        · subst hz
          simpa using ih s
        · simp only [if_neg hz]
          have hQ := (countLoop_buffer c₁ rest s (b + s) (Nat.le_add_left s b)).2
          have := ih s
          omega
    · have h₁ : ¬ (b + s > c₁) := by omega
      simp only [countLoop, if_neg h₁, if_neg h₂]
      exact ih (b + s)

/-- **C2.** For every input file sequence and positive cap, the Chunker's
batches concatenate to exactly the formatted contents of the usable units in
input order (characterwise, hence the per-batch lengths sum to the formatted
unit lengths; units with no patch, or an empty patch, are skipped by
`prChunk`), and no batch exceeds the cap except a batch that is exactly one
oversized formatted unit, emitted alone. -/
theorem batchPRFiles_spec (cap : Nat) (files : List PRFile) (hcap : 0 < cap) :
    ((batchPRFilesWith cap files).map String.data).flatten
        = ((files.filterMap prChunk).map String.data).flatten ∧
    ((batchPRFilesWith cap files).map String.length).sum
        = ((files.filterMap prChunk).map String.length).sum ∧
    ∀ b ∈ batchPRFilesWith cap files,
      b.length ≤ cap ∨ (b ∈ files.filterMap prChunk ∧ cap < b.length) := by
  refine ⟨?_, ?_, ?_⟩
  · rw [batchPRFilesWith, buildBatches_flatten]
    simp
  · rw [batchPRFilesWith, buildBatches_sum]
    simp
  · intro b hb
    have := buildBatches_cap cap (files.filterMap prChunk)
      (files.filterMap prChunk) "" (fun c hc => hc) (Or.inl (by simp)) b hb
    rcases this with h | h
    · exact Or.inl h
    · by_cases hlen : b.length ≤ cap
      · exact Or.inl hlen
      · exact Or.inr ⟨h, by omega⟩

/-- Witness for `batchPRFiles_spec` at a concrete file list and cap 1. -/
theorem batchPRFiles_spec_witness :
    ((batchPRFilesWith 1 [⟨"a.js", some "p"⟩]).map String.length).sum
      = ((([⟨"a.js", some "p"⟩] : List PRFile).filterMap prChunk).map String.length).sum :=
  (batchPRFiles_spec 1 [⟨"a.js", some "p"⟩] (by decide)).2.1

/-- **C9.** For every input file sequence and caps `c₁ ≥ c₂ > 0`, the number
of batches produced with the smaller cap `c₂` is at least the number
produced with `c₁`: the batch count is monotonically non-decreasing as the
cap decreases. -/
theorem batchPRFiles_cap_mono (files : List PRFile) (c₁ c₂ : Nat)
    (hpos : 0 < c₂) (hle : c₂ ≤ c₁) :
    (batchPRFilesWith c₁ files).length ≤ (batchPRFilesWith c₂ files).length := by
  rw [batchPRFilesWith, batchPRFilesWith,
    buildBatches_length_eq_countLoop, buildBatches_length_eq_countLoop]
  exact countLoop_cap_mono hle _ _

/-- Witness for `batchPRFiles_cap_mono` at a concrete file list and caps
`9 ≥ 3`. -/
theorem batchPRFiles_cap_mono_witness :
    (batchPRFilesWith 9 [⟨"a.js", some "p"⟩]).length
      ≤ (batchPRFilesWith 3 [⟨"a.js", some "p"⟩]).length :=
  batchPRFiles_cap_mono [⟨"a.js", some "p"⟩] 9 3 (by decide) (by decide)

/-! ### Finding Merger lemmas -/

/-- Keys of emitted findings were not previously seen. -/
theorem mergeAuxBy_key_not_seen (key : α → String) :
    ∀ (l : List α) (seen : List String), ∀ g ∈ mergeAuxBy key seen l, key g ∉ seen := by
  intro l
  induction l with
  | nil => intro seen g hg; simp [mergeAuxBy] at hg
  | cons f rest ih =>
    intro seen g hg
    by_cases hf : key f ∈ seen
    · rw [mergeAuxBy, if_pos hf] at hg
      exact ih seen g hg
    · rw [mergeAuxBy, if_neg hf] at hg
      rcases List.mem_cons.mp hg with h | h
      · subst h; exact hf
      · intro hmem
        exact ih (key f :: seen) g h (List.mem_cons_of_mem _ hmem)

/-- No two merged findings share a key. -/
theorem mergeAuxBy_pairwise (key : α → String) :
    ∀ (l : List α) (seen : List String),
      (mergeAuxBy key seen l).Pairwise (fun a b => key a ≠ key b) := by
  intro l
  induction l with
  | nil => intro seen; simp [mergeAuxBy]
  | cons f rest ih =>
    intro seen
    by_cases hf : key f ∈ seen
    · rw [mergeAuxBy, if_pos hf]; exact ih seen
    · rw [mergeAuxBy, if_neg hf]
      refine List.Pairwise.cons ?_ (ih (key f :: seen))
      intro b hb hkey
      exact mergeAuxBy_key_not_seen key rest (key f :: seen) b hb
        (hkey ▸ List.mem_cons_self _ _)

/-- The merged list is a sublist of the input: kept findings appear
unchanged and in their original order. -/
theorem mergeAuxBy_sublist (key : α → String) :
    ∀ (l : List α) (seen : List String), List.Sublist (mergeAuxBy key seen l) l := by
  intro l
  induction l with
  | nil => intro seen; simp [mergeAuxBy]
  | cons f rest ih =>
    intro seen
    by_cases hf : key f ∈ seen
    · rw [mergeAuxBy, if_pos hf]
      exact List.Sublist.cons f (ih seen)
    · rw [mergeAuxBy, if_neg hf]
      exact List.Sublist.cons₂ f (ih (key f :: seen))

/-- Every input key either was already seen or is represented in the
output. -/
theorem mergeAuxBy_coverage (key : α → String) :
    ∀ (l : List α) (seen : List String) (f : α), f ∈ l →
      key f ∈ seen ∨ ∃ g ∈ mergeAuxBy key seen l, key g = key f := by
  intro l
  induction l with
  | nil => intro seen f hf; simp at hf
  | cons a rest ih =>
    intro seen f hf
    by_cases ha : key a ∈ seen
    · rw [mergeAuxBy, if_pos ha]
      rcases List.mem_cons.mp hf with h | h
      · subst h; exact Or.inl ha
      · exact ih seen f h
    · rw [mergeAuxBy, if_neg ha]
      rcases List.mem_cons.mp hf with h | h
      · subst h
        exact Or.inr ⟨_, List.mem_cons_self _ _, rfl⟩
      · rcases ih (key a :: seen) f h with hseen | ⟨g, hg, hkey⟩
        · rcases List.mem_cons.mp hseen with h' | h'
          · exact Or.inr ⟨a, List.mem_cons_self _ _, h'.symm⟩
          · exact Or.inl h'
        · exact Or.inr ⟨g, List.mem_cons_of_mem _ hg, hkey⟩

/-- The first occurrence of a key is kept (if the key was not already
seen). -/
theorem mergeAuxBy_first_wins (key : α → String) :
    ∀ (l₁ : List α) (f : α) (l₂ : List α) (seen : List String),
      key f ∉ seen → (∀ g ∈ l₁, key g ≠ key f) →
      f ∈ mergeAuxBy key seen (l₁ ++ f :: l₂) := by
  intro l₁
  induction l₁ with
  | nil =>
    intro f l₂ seen hf _
    rw [List.nil_append, mergeAuxBy, if_neg hf]
    exact List.mem_cons_self _ _
  | cons a l₁ ih =>
    intro f l₂ seen hf hdiff
    have hne : key a ≠ key f := hdiff a (List.mem_cons_self _ _)
    have hdiff' : ∀ g ∈ l₁, key g ≠ key f := fun g hg => hdiff g (List.mem_cons_of_mem _ hg)
    rw [List.cons_append]
    by_cases ha : key a ∈ seen
    · rw [mergeAuxBy, if_pos ha]
      exact ih f l₂ seen hf hdiff'
    · rw [mergeAuxBy, if_neg ha]
      refine List.mem_cons_of_mem _ (ih f l₂ (key a :: seen) ?_ hdiff')
      intro hmem
      rcases List.mem_cons.mp hmem with h | h
      · exact hne h.symm
      · exact hf h

/-- Merging a concatenation merges the first half and then the second half
against the keys seen in the first. -/
theorem mergeAuxBy_append (key : α → String) :
    ∀ (A B : List α) (seen : List String),
      mergeAuxBy key seen (A ++ B)
        = mergeAuxBy key seen A ++ mergeAuxBy key (seenAfter key seen A) B := by
  intro A
  induction A with
  | nil => intro B seen; simp [mergeAuxBy, seenAfter]
  | cons a A ih =>
    intro B seen
    by_cases ha : key a ∈ seen
    · rw [List.cons_append, mergeAuxBy, if_pos ha, mergeAuxBy, if_pos ha,
        seenAfter, if_pos ha]
      exact ih B seen
    · rw [List.cons_append, mergeAuxBy, if_neg ha, mergeAuxBy, if_neg ha,
        seenAfter, if_neg ha]
      rw [ih B (key a :: seen), List.cons_append]

/-- `seenAfter` only grows the seen set. -/
theorem seenAfter_mono (key : α → String) :
    ∀ (A : List α) (seen : List String) (x : String),
      x ∈ seen → x ∈ seenAfter key seen A := by
  intro A
  induction A with
  | nil => intro seen x hx; exact hx
  | cons a A ih =>
    intro seen x hx
    by_cases ha : key a ∈ seen
    · rw [seenAfter, if_pos ha]; exact ih seen x hx
    · rw [seenAfter, if_neg ha]; exact ih (key a :: seen) x (List.mem_cons_of_mem _ hx)

/-- The key of every processed finding is seen afterwards. -/
theorem key_mem_seenAfter (key : α → String) :
    ∀ (A : List α) (seen : List String) (a : α), a ∈ A →
      key a ∈ seenAfter key seen A := by
  intro A
  induction A with
  | nil => intro seen a ha; simp at ha
  | cons b A ih =>
    intro seen a ha
    by_cases hb : key b ∈ seen
    · rw [seenAfter, if_pos hb]
      rcases List.mem_cons.mp ha with h | h
      · subst h; exact seenAfter_mono key A seen _ hb
      · exact ih seen a h
    · rw [seenAfter, if_neg hb]
      rcases List.mem_cons.mp ha with h | h
      · subst h; exact seenAfter_mono key A _ _ (List.mem_cons_self _ _)
      · exact ih (key b :: seen) a h

/-- **C7.** The Finding Merger's output contains no two elements sharing
the identity key (file, line, severity, comment-prefix); kept findings
appear unchanged and in input order (the output is a sublist of the input);
every input key is represented; the first occurrence of a key is the one
kept; and two findings that differ only in `suggestion` but agree on the
key collapse to the first one. -/
theorem mergeFindings_spec (l : List Finding) :
    (mergeFindings l).Pairwise (fun a b => findingKey a ≠ findingKey b) ∧
    List.Sublist (mergeFindings l) l ∧
    (∀ f ∈ l, ∃ g ∈ mergeFindings l, findingKey g = findingKey f) ∧
    (∀ (l₁ l₂ : List Finding) (f : Finding), l = l₁ ++ f :: l₂ →
        (∀ g ∈ l₁, findingKey g ≠ findingKey f) → f ∈ mergeFindings l) ∧
    mergeFindings [⟨some "a.js", some 1, some "high", some "dup", none⟩,
        ⟨some "a.js", some 1, some "high", some "dup", some "use const"⟩]
      = [⟨some "a.js", some 1, some "high", some "dup", none⟩] := by
  refine ⟨mergeAuxBy_pairwise findingKey l [], mergeAuxBy_sublist findingKey l [],
    ?_, ?_, by decide⟩
  · intro f hf
    rcases mergeAuxBy_coverage findingKey l [] f hf with h | h
    · simp at h
    · exact h
  · intro l₁ l₂ f hl hdiff
    subst hl
    exact mergeAuxBy_first_wins findingKey l₁ f l₂ [] (by simp) hdiff

/-- Witness for `mergeFindings_spec`: the first-wins clause applied to a
concrete singleton list. -/
theorem mergeFindings_spec_witness :
    (⟨some "a.js", some 1, some "high", some "dup", none⟩ : Finding)
      ∈ mergeFindings [⟨some "a.js", some 1, some "high", some "dup", none⟩] :=
  (mergeFindings_spec _).2.2.2.1 [] [] _ rfl (by simp)

/-- **C10.** In PR mode the merge is applied to the model-batch findings
followed by the static-scan findings: the merged output is the merged model
findings followed by exactly those static findings whose key no model
finding carries; consequently a static finding never displaces a model
finding with the same key (any kept representative of a shared key comes
from the model list), and every kept novel-key static finding appears after
all model findings. -/
theorem prMergedFindings_spec (model stat : List Finding) :
    prMergedFindings model stat
        = mergeFindings model
          ++ mergeAuxBy findingKey (seenAfter findingKey [] model) stat ∧
    (∀ s ∈ mergeAuxBy findingKey (seenAfter findingKey [] model) stat,
        ∀ m ∈ model, findingKey m ≠ findingKey s) ∧
    (∀ s ∈ stat, (∃ m ∈ model, findingKey m = findingKey s) →
        ∀ g ∈ prMergedFindings model stat,
          findingKey g = findingKey s → g ∈ model) := by
  refine ⟨mergeAuxBy_append findingKey model stat [], ?_, ?_⟩
  · intro s hs m hm hkey
    exact mergeAuxBy_key_not_seen findingKey stat _ s hs
      (hkey ▸ key_mem_seenAfter findingKey model [] m hm)
  · intro s _ hex g hg hgkey
    obtain ⟨m, hm, hkey⟩ := hex
    rw [prMergedFindings, mergeFindings, mergeFindingsBy,
      mergeAuxBy_append findingKey model stat []] at hg
    rcases List.mem_append.mp hg with h | h
    · exact (mergeAuxBy_sublist findingKey model []).subset h
    · exfalso
      have h1 : findingKey g ∉ seenAfter findingKey [] model :=
        mergeAuxBy_key_not_seen findingKey stat _ g h
      have h2 : findingKey m ∈ seenAfter findingKey [] model :=
        key_mem_seenAfter findingKey model [] m hm
      rw [hkey, ← hgkey] at h2
      exact h1 h2

/-- Witness for `prMergedFindings_spec`: with one model finding and one
static finding sharing the key (differing only in `suggestion`), the kept
representative is the model finding. -/
theorem prMergedFindings_spec_witness :
    (⟨some "a.js", some 2, some "medium", some "c", some "use Y"⟩ : Finding)
      ∈ ([⟨some "a.js", some 2, some "medium", some "c", some "use Y"⟩] : List Finding) :=
  (prMergedFindings_spec
      [⟨some "a.js", some 2, some "medium", some "c", some "use Y"⟩]
      [⟨some "a.js", some 2, some "medium", some "c", none⟩]).2.2
    ⟨some "a.js", some 2, some "medium", some "c", none⟩ (by decide)
    ⟨⟨some "a.js", some 2, some "medium", some "c", some "use Y"⟩, by decide, by decide⟩
    ⟨some "a.js", some 2, some "medium", some "c", some "use Y"⟩ (by decide) (by decide)

/-! ### Static Rule Scanner theorems -/

/-- **C6.** The Static Rule Scanner evaluates its rules only against added
lines: a line that is neither a hunk header nor an addition contributes no
finding (and a removed line does not advance the new-file counter while any
other such line does); a patch adding a line containing `eval(` yields a
high-severity finding located at that line's new-file number (as
re-initialized by the hunk header); a patch that only removes a line
containing `eval(` yields no finding; and a single added line matching
several rules yields one finding per matching rule. -/
theorem runStaticChecksOnPatch_spec :
    (∀ (filename L : String) (rest : List String) (nl : Nat),
        parseHunkPrefix L = none → headIs L '+' = false →
        staticGo filename (L :: rest) nl
          = staticGo filename rest (if headIs L '-' then nl else nl + 1)) ∧
    runStaticChecksOnPatch "f.js" "@@ -1,2 +1,3 @@\n keep\n+eval(x)\n keep2"
      = [⟨some "f.js", some 2, some "high", some "Avoid eval() (rule: no-eval)", none⟩] ∧
    runStaticChecksOnPatch "f.js" "@@ -1,2 +1,1 @@\n keep\n-eval(x)" = [] ∧
    runStaticChecksOnPatch "f.js" "@@ -4,0 +4,1 @@\n+a=() => eval(md5(x))"
      = [⟨some "f.js", some 4, some "low",
            some "Inline arrow function in JSX may cause rerenders (extract handler) (rule: react-inline-handler)",
            none⟩,
         ⟨some "f.js", some 4, some "high", some "Avoid eval() (rule: no-eval)", none⟩,
         ⟨some "f.js", some 4, some "medium",
            some "Weak cryptography detected (rule: weak-crypto)", none⟩] := by
  refine ⟨?_, by decide, by decide, by decide⟩
  intro filename L rest nl hH hP
  conv_lhs => rw [staticGo]
  rw [hH]
  simp only [hP, Bool.false_eq_true, if_false]
  by_cases hM : headIs L '-' = true
  · simp [hM]
  · simp [hM]

/-- Witness for `runStaticChecksOnPatch_spec`: the non-added-line step law
applied to the concrete removed line `-x`. -/
theorem runStaticChecksOnPatch_spec_witness :
    staticGo "f.js" ["-x"] 3
      = staticGo "f.js" [] (if headIs "-x" '-' then 3 else 3 + 1) :=
  runStaticChecksOnPatch_spec.1 "f.js" "-x" [] 3 (by decide) (by decide)

/-! ### Response Parser theorems -/

/-- **C3.** `extractJsonFromText` attempts, in order: (1) parsing the whole
text as JSON; (2) extracting and parsing the interior of a fenced code
block; (3) parsing the first-`{`-to-last-`}` slice; it returns the first
successful parse, returns `none` when all three fail (including empty
input), and is total (never raises).  Concretely:
`extractJson('{"findings":[],"summary":"ok"}')` returns the object, the
same object wrapped in prose and a ```json fence returns the same, and
`"no json here"` returns `none`. -/
theorem extractJsonFromText_spec :
    (∀ (s : String) (v : JVal),
        jsonParseStr s = some v → extractJsonFromText s = some v) ∧
    (∀ (s : String) (cap : List Char) (w : JVal),
        jsonParseStr s = none → fenceExec s.data = some cap →
        jsonParseStr (String.mk (jsTrimList cap)) = some w →
        extractJsonFromText s = some w) ∧
    (∀ (s : String), jsonParseStr s = none →
        (∀ cap, fenceExec s.data = some cap →
            jsonParseStr (String.mk (jsTrimList cap)) = none) →
        tryBraces s = none → extractJsonFromText s = none) ∧
    extractJsonFromText "\x7b\"findings\":[],\"summary\":\"ok\"\x7d"
      = some (JVal.jobj [("findings", JVal.jarr []), ("summary", JVal.jstr "ok")]) ∧
    extractJsonFromText "Sure! ```json\n\x7b\"findings\":[],\"summary\":\"ok\"\x7d\n```"
      = some (JVal.jobj [("findings", JVal.jarr []), ("summary", JVal.jstr "ok")]) ∧
    extractJsonFromText "no json here" = none := by
  refine ⟨?_, ?_, ?_, rfl, rfl, rfl⟩
  · intro s v h
    by_cases hs : s = ""
    · subst hs
      have : (jsonParseStr "" : Option JVal) = none := rfl
      rw [this] at h
      exact absurd h (by simp)
    · rw [extractJsonFromText, if_neg hs, h]
  · intro s cap w h₁ h₂ h₃
    by_cases hs : s = ""
    · subst hs
      have : (fenceExec "".data : Option (List Char)) = none := rfl
      rw [this] at h₂
      exact absurd h₂ (by simp)
    · rw [extractJsonFromText, if_neg hs]
      simp only [h₁, h₂, h₃]
  · intro s h₁ h₂ h₃
    by_cases hs : s = ""
    · subst hs; rfl
    · rw [extractJsonFromText, if_neg hs]
      simp only [h₁]
      cases hf : fenceExec s.data with
      | none => simp only [hf, h₃]
      | some cap => simp only [hf, h₂ cap hf, h₃]

/-- Witness for `extractJsonFromText_spec`: the first-attempt clause applied
to the concrete input `"{}"`. -/
theorem extractJsonFromText_spec_witness :
    extractJsonFromText "{}" = some (JVal.jobj []) :=
  extractJsonFromText_spec.1 "{}" (JVal.jobj []) rfl

/-! ### Full-repository run theorems -/

/-- Without a 401 failure, the batch loop always completes. -/
theorem runBatches_total (oracle : Nat → ModelOutcome)
    (h : ∀ i, oracle i ≠ ModelOutcome.err401) :
    ∀ (bs : List String) (i : Nat), (runBatches oracle i bs).isSome := by
  intro bs
  induction bs with
  | nil => intro i; rfl
  | cons b rest ih =>
    intro i
    cases ho : oracle i with
    | err401 => exact absurd ho (h i)
    | errOther =>
      rw [runBatches, ho]
      exact ih (i + 1)
    | ok raw =>
      rw [runBatches, ho]
      obtain ⟨⟨fs, ss⟩, hp⟩ := Option.isSome_iff_exists.mp (ih (i + 1))
      simp only [hp, Option.isSome_some]

/-- When every batch fails (non-auth), the loop accumulates nothing. -/
theorem runBatches_allfail (oracle : Nat → ModelOutcome)
    (h : ∀ i, oracle i = ModelOutcome.errOther) :
    ∀ (bs : List String) (i : Nat), runBatches oracle i bs = some ([], []) := by
  intro bs
  induction bs with
  | nil => intro i; rfl
  | cons b rest ih =>
    intro i
    rw [runBatches, h i]
    exact ih (i + 1)

/-- **C8 (counterexample).** With an empty walked file set, the full-repo
run returns early after only a log line: no JSON or Markdown artifact is
produced (the result is `noFiles`, not a `wrote`), contradicting the
claim that an empty file set still yields an informational artifact. -/
theorem runFullRepo_empty_counterexample :
    runFullRepo [] (fun _ => ModelOutcome.errOther) = FullRepoResult.noFiles := rfl

/-- **C8 (amended).** Whenever the walked file set is nonempty and no batch
fails with an authentication (401) error, the full-repo run always writes
both artifacts — even when every batch failed, in which case the findings
are empty and the summary is the explanatory
`"Reviewed N file(s) across M batch(es)."`; an empty file set, by
`runFullRepo_empty_counterexample`, writes nothing, and a 401 aborts
without artifacts. -/
theorem runFullRepo_spec (files : List RepoFile) (oracle : Nat → ModelOutcome)
    (hne : files.take MAX_FILES ≠ [])
    (hnoauth : ∀ i, oracle i ≠ ModelOutcome.err401) :
    (∃ summary findings,
        runFullRepo files oracle = FullRepoResult.wrote summary findings) ∧
    ((∀ i, oracle i = ModelOutcome.errOther) →
        runFullRepo files oracle
          = FullRepoResult.wrote
              ("Reviewed " ++ toString (files.take MAX_FILES).length
                ++ " file(s) across " ++ toString (fullRepoBatches files).length
                ++ " batch(es).") []) := by
  have hfalse : (files.take MAX_FILES).isEmpty = false := by
    cases h : (files.take MAX_FILES).isEmpty
    · rfl
    · exact absurd (List.isEmpty_iff.mp h) hne
  constructor
  · obtain ⟨⟨fs, ss⟩, hrb⟩ :=
      Option.isSome_iff_exists.mp (runBatches_total oracle hnoauth (fullRepoBatches files) 0)
    rw [runFullRepo]
    simp only [hfalse, Bool.false_eq_true, if_false, hrb]
    exact ⟨_, _, rfl⟩
  · intro hall
    have hrb := runBatches_allfail oracle hall (fullRepoBatches files) 0
    rw [runFullRepo]
    simp only [hfalse, Bool.false_eq_true, if_false, hrb]
    rfl

/-- Witness for `runFullRepo_spec`: one readable file, every batch failing
non-fatally — the artifacts are still written, with empty findings and the
explanatory summary. -/
theorem runFullRepo_spec_witness :
    runFullRepo [⟨"a.js", some "code"⟩] (fun _ => ModelOutcome.errOther)
      = FullRepoResult.wrote
          ("Reviewed "
            ++ toString (([⟨"a.js", some "code"⟩] : List RepoFile).take MAX_FILES).length
            ++ " file(s) across "
            ++ toString (fullRepoBatches [⟨"a.js", some "code"⟩]).length
            ++ " batch(es).") [] :=
  (runFullRepo_spec [⟨"a.js", some "code"⟩] (fun _ => ModelOutcome.errOther)
    (by decide) (fun _ h => ModelOutcome.noConfusion h)).2 (fun _ => rfl)

/-! ### Redactor lemmas

The target of C5 (amended): the redacted output never contains a
word-boundary-delimited AKIA token.  Pattern 5's global replacement removes
every such token, and no later pattern (6, 7) can create one — shown by a
scan-stability argument over `repGo`. -/

/-- Dropping the measured `takeWhile` prefix is `dropWhile`. -/
theorem drop_takeWhile_len (p : Char → Bool) :
    ∀ (l : List Char), l.drop (l.takeWhile p).length = l.dropWhile p := by
  intro l
  induction l with
  | nil => rfl
  | cons c cs ih =>
    by_cases h : p c
    · simp [List.takeWhile_cons, List.dropWhile_cons, h, ih]
    · simp [List.takeWhile_cons, List.dropWhile_cons, h]

/-- The head of a `dropWhile` result fails the predicate. -/
theorem head_dropWhile (p : Char → Bool) :
    ∀ (l : List Char) (c : Char), (l.dropWhile p).head? = some c → p c = false := by
  intro l
  induction l with
  | nil => intro c h; simp [List.dropWhile] at h
  | cons a as ih =>
    intro c h
    by_cases hp : p a
    · rw [List.dropWhile_cons, if_pos hp] at h
      exact ih c h
    · rw [List.dropWhile_cons, if_neg hp] at h
      simp at h
      subst h
      exact Bool.eq_false_iff.mpr hp

/-- Skip-mode normalization: skipping `k` characters is dropping them. -/
theorem repGo_skip (m : Option Char → List Char → Option Nat) :
    ∀ (cs : List Char) (p : Option Char) (k : Nat),
      repGo m p k cs = repGo m p 0 (cs.drop k) := by
  intro cs
  induction cs with
  | nil => intro p k; cases k <;> rfl
  | cons c rest ih =>
    intro p k
    cases k with
    | zero => rfl
    | succ k =>
      rw [List.drop_succ_cons]
      show repGo m p k rest = repGo m p 0 (rest.drop k)
      exact ih p k

/-- `litMatch` succeeds exactly on a literal prefix, returning the rest. -/
theorem litMatch_iff :
    ∀ (lit cs r : List Char),
      litMatch lit cs = some r ↔ cs.take lit.length = lit ∧ r = cs.drop lit.length := by
  intro lit
  induction lit with
  | nil =>
    intro cs r
    simp [litMatch]
    exact comm
  | cons l ls ih =>
    intro cs r
    cases cs with
    | nil => simp [litMatch]
    | cons c cs' =>
      by_cases hc : c = l
      · subst hc
        rw [litMatch, if_pos rfl]
        simp only [List.length_cons, List.take_succ_cons, List.drop_succ_cons, List.cons.injEq,
          true_and]
        exact ih cs' r
      · rw [litMatch, if_neg hc]
        simp [hc]

/-- Splitting the search at a cons cell. -/
theorem existsMatch_cons_eq_false (f : Option Char → List Char → Bool)
    (p : Option Char) (c : Char) (cs : List Char) :
    existsMatch f p (c :: cs) = false ↔
      f p (c :: cs) = false ∧ existsMatch f (some c) cs = false := by
  rw [existsMatch]
  exact Bool.or_eq_false_iff

/-- A matchless text stays matchless on suffixes taken with their true
left context. -/
theorem existsMatch_drop_of_none (f : Option Char → List Char → Bool) :
    ∀ (cs : List Char) (k : Nat) (p : Option Char) (q : Char),
      existsMatch f p cs = false → cs[k]? = some q →
      existsMatch f (some q) (cs.drop (k + 1)) = false := by
  intro cs
  induction cs with
  | nil => intro k p q _ hq; simp at hq
  | cons c rest ih =>
    intro k p q h hq
    obtain ⟨h₁, h₂⟩ := (existsMatch_cons_eq_false f p c rest).mp h
    cases k with
    | zero =>
      simp at hq
      subst hq
      simpa using h₂
    | succ k =>
      simp only [List.getElem?_cons_succ] at hq
      rw [List.drop_succ_cons]
      exact ih k (some c) q h₂ hq

/-- A token search never fires inside the placeholder: crossing it reduces
the search to the suffix with left context `]`. -/
theorem akia_search_placeholder (p : Option Char) (z : List Char) :
    existsMatch isAkiaTokenAt p (PLACEHOLDER ++ z)
      = existsMatch isAkiaTokenAt (some ']') z := by
  have step : ∀ (q : Option Char) (c : Char) (rest : List Char),
      litMatch "AKIA".data (c :: rest) = none →
      existsMatch isAkiaTokenAt q (c :: rest)
        = existsMatch isAkiaTokenAt (some c) rest := by
    intro q c rest hlit
    rw [existsMatch]
    have : isAkiaTokenAt q (c :: rest) = false := by
      rw [isAkiaTokenAt, matchAwsKeyAt]
      by_cases hb : nonWordOrStart q = true
      · rw [if_pos hb, hlit]; rfl
      · rw [if_neg hb]; rfl
    rw [this, Bool.false_or]
  have hlit : ∀ (c : Char) (rest : List Char), c ≠ 'A' →
      litMatch "AKIA".data (c :: rest) = none := by
    intro c rest hc
    show litMatch ('A' :: 'K' :: 'I' :: 'A' :: []) (c :: rest) = none
    rw [litMatch, if_neg hc]
  have hlitA : ∀ (rest : List Char), rest.head? ≠ some 'K' →
      litMatch "AKIA".data ('A' :: rest) = none := by
    intro rest hr
    show litMatch ('A' :: 'K' :: 'I' :: 'A' :: []) ('A' :: rest) = none
    rw [litMatch, if_pos rfl]
    cases rest with
    | nil => rfl
    | cons d rest' =>
      have hd : d ≠ 'K' := by
        intro h
        exact hr (by rw [h]; rfl)
      rw [litMatch, if_neg hd]
  show existsMatch isAkiaTokenAt p
      ('[' :: 'R' :: 'E' :: 'D' :: 'A' :: 'C' :: 'T' :: 'E' :: 'D' :: ']' :: z)
    = existsMatch isAkiaTokenAt (some ']') z
  rw [step _ _ _ (hlit _ _ (by decide)), step _ _ _ (hlit _ _ (by decide)),
    step _ _ _ (hlit _ _ (by decide)), step _ _ _ (hlit _ _ (by decide)),
    step _ _ _ (hlitA _ (by simp)), step _ _ _ (hlit _ _ (by decide)),
    step _ _ _ (hlit _ _ (by decide)), step _ _ _ (hlit _ _ (by decide)),
    step _ _ _ (hlit _ _ (by decide)), step _ _ _ (hlit _ _ (by decide))]

/-- Inversion of pattern 5's matcher: what a match tells us. -/
theorem matchAwsKeyAt_inv {p : Option Char} {cs : List Char} {n : Nat}
    (h : matchAwsKeyAt p cs = some n) :
    n = 20 ∧ nonWordOrStart p = true ∧ cs.take 4 = "AKIA".data ∧
    ((cs.drop 4).take 16).length = 16 ∧
    ((cs.drop 4).take 16).all isUpperAlnum = true ∧
    nonWordOrEnd (cs.drop 20).head? = true := by
  rw [matchAwsKeyAt] at h
  by_cases hb : nonWordOrStart p = true
  · rw [if_pos hb] at h
    cases hlit : litMatch "AKIA".data cs with
    | none => rw [hlit] at h; cases h
    | some rest =>
      obtain ⟨ht, hrest⟩ := (litMatch_iff _ _ _).mp hlit
      subst hrest
      simp only [hlit] at h
      split at h
      · rename_i hc
        injection h with h
        simp only [Bool.and_eq_true, decide_eq_true_eq] at hc
        obtain ⟨⟨h₁, h₂⟩, h₃⟩ := hc
        rw [List.drop_drop] at h₃
        exact ⟨h.symm, hb, ht, h₁, h₂, h₃⟩
      · cases h
  · rw [if_neg hb] at h
    cases h

/-- Construction of pattern 5's matcher from its components. -/
theorem matchAwsKeyAt_intro {p : Option Char} {cs : List Char}
    (hb : nonWordOrStart p = true) (ht : cs.take 4 = "AKIA".data)
    (h₁ : ((cs.drop 4).take 16).length = 16)
    (h₂ : ((cs.drop 4).take 16).all isUpperAlnum = true)
    (h₃ : nonWordOrEnd (cs.drop 20).head? = true) :
    matchAwsKeyAt p cs = some 20 := by
  rw [matchAwsKeyAt, if_pos hb]
  have hlit : litMatch "AKIA".data cs = some (cs.drop 4) :=
    (litMatch_iff "AKIA".data cs (cs.drop 4)).mpr ⟨ht, rfl⟩
  simp only [hlit]
  split
  · rfl
  · rename_i hc
    exfalso
    apply hc
    simp only [Bool.and_eq_true, decide_eq_true_eq]
    rw [List.drop_drop]
    exact ⟨⟨h₁, h₂⟩, h₃⟩

/-- The head after a drop is indexed lookup. -/
theorem drop_head?_eq (l : List Char) (k : Nat) : (l.drop k).head? = l[k]? := by
  rw [List.head?_eq_getElem?, List.getElem?_drop]
  rfl

/-- An uppercase-alphanumeric character is a word character. -/
theorem isUpperAlnum_word {c : Char} (h : isUpperAlnum c = true) :
    isWordChar c = true := by
  simp only [isUpperAlnum, isDigit, Bool.or_eq_true, Bool.and_eq_true] at h
  simp only [isWordChar, Bool.or_eq_true, Bool.and_eq_true]
  tauto

/-- Pattern 5's matcher looks at no more than 21 characters. -/
theorem matchAwsKeyAt_congr_take21 {cs₁ cs₂ : List Char} (p : Option Char)
    (h : cs₁.take 21 = cs₂.take 21) :
    matchAwsKeyAt p cs₁ = matchAwsKeyAt p cs₂ := by
  have h4 : cs₁.take 4 = cs₂.take 4 := by
    have := congrArg (List.take 4) h
    rwa [List.take_take, List.take_take] at this
  have h20 : (cs₁.drop 4).take 16 = (cs₂.drop 4).take 16 := by
    have h' : cs₁.take 20 = cs₂.take 20 := by
      have := congrArg (List.take 20) h
      rwa [List.take_take, List.take_take] at this
    have := congrArg (List.drop 4) h'
    rwa [List.drop_take, List.drop_take] at this
  have h21 : (cs₁.drop 20).head? = (cs₂.drop 20).head? := by
    rw [drop_head?_eq, drop_head?_eq]
    have := congrArg (fun l => l[20]?) h
    simpa [List.getElem?_take] using this
  cases hm : matchAwsKeyAt p cs₂ with
  | some n =>
    obtain ⟨hn, hb, ht, h₁, h₂, h₃⟩ := matchAwsKeyAt_inv hm
    subst hn
    rw [matchAwsKeyAt_intro hb (h4 ▸ ht) (h20 ▸ h₁) (h20 ▸ h₂) (h21 ▸ h₃)]
  | none =>
    cases hm1 : matchAwsKeyAt p cs₁ with
    | none => rfl
    | some n =>
      obtain ⟨hn, hb, ht, h₁, h₂, h₃⟩ := matchAwsKeyAt_inv hm1
      rw [matchAwsKeyAt_intro hb (h4 ▸ ht) (h20 ▸ h₁) (h20 ▸ h₂) (h21 ▸ h₃)] at hm
      cases hm

/-- Each of the first 20 characters of a matched token is a word
character. -/
theorem matchAwsKeyAt_word_chars {p : Option Char} {cs : List Char} {n : Nat}
    (h : matchAwsKeyAt p cs = some n) :
    ∀ i, i < 20 → ∃ ch, cs[i]? = some ch ∧ isWordChar ch = true := by
  obtain ⟨_, _, ht, h₁, h₂, _⟩ := matchAwsKeyAt_inv h
  intro i hi
  by_cases h4 : i < 4
  · have hidx : cs[i]? = ("AKIA".data)[i]? := by
      rw [← ht, List.getElem?_take]
      simp [h4]
    obtain ⟨ch, hch⟩ : ∃ ch, ("AKIA".data)[i]? = some ch :=
      ⟨_, List.getElem?_eq_getElem (by simpa using h4)⟩
    refine ⟨ch, by rw [hidx, hch], ?_⟩
    have hmem : ch ∈ "AKIA".data := List.getElem?_mem hch
    have hall : "AKIA".data.all isWordChar = true := by decide
    exact List.all_eq_true.mp hall ch hmem
  · have hge : 4 ≤ i := by omega
    have hidx : ((cs.drop 4).take 16)[i - 4]? = cs[i]? := by
      rw [List.getElem?_take]
      simp only [show i - 4 < 16 by omega, if_true]
      rw [List.getElem?_drop]
      congr 1
      omega
    have hlt : i - 4 < ((cs.drop 4).take 16).length := by omega
    obtain ⟨ch, hch⟩ : ∃ ch, ((cs.drop 4).take 16)[i - 4]? = some ch :=
      ⟨_, List.getElem?_eq_getElem hlt⟩
    refine ⟨ch, by rw [← hidx, hch], ?_⟩
    have hmem : ch ∈ (cs.drop 4).take 16 := by
      exact List.getElem?_mem hch
    exact isUpperAlnum_word (List.all_eq_true.mp h₂ ch hmem)

/-- Divergence form of the scan: the output either copies the input
verbatim, or copies a prefix `pre`, fires the matcher at the remaining
suffix (with the last copied character as left context), and continues
after a placeholder. -/
theorem repGo_divergence (m : Option Char → List Char → Option Nat)
    (hn : ∀ p cs k, m p cs = some k → 1 ≤ k) :
    ∀ (cs : List Char) (prev : Option Char),
      repGo m prev 0 cs = cs ∨
      ∃ (pre suf : List Char) (k : Nat),
        cs = pre ++ suf ∧
        m (lastCtx prev pre) suf = some k ∧
        repGo m prev 0 cs = pre ++ PLACEHOLDER ++ repGo m (some ']') 0 (suf.drop k) := by
  intro cs
  induction cs with
  | nil => intro prev; exact Or.inl rfl
  | cons c rest ih =>
    intro prev
    cases hm : m prev (c :: rest) with
    | some k =>
      right
      have hk := hn prev (c :: rest) k hm
      obtain ⟨k', rfl⟩ : ∃ k', k = k' + 1 := ⟨k - 1, by omega⟩
      refine ⟨[], c :: rest, k' + 1, rfl, hm, ?_⟩
      rw [repGo, hm]
      simp only [List.nil_append, Nat.add_sub_cancel, List.drop_succ_cons]
      rw [repGo_skip m rest (some ']') k']
    | none =>
      rcases ih (some c) with hl | ⟨pre', suf, k, hsplit, hm', hout⟩
      · left
        rw [repGo, hm, hl]
      · right
        refine ⟨c :: pre', suf, k, by simp [hsplit], ?_, ?_⟩
        · have : lastCtx prev (c :: pre') = lastCtx (some c) pre' := by
            cases pre' with
            | nil => rfl
            | cons d ds =>
              simp only [lastCtx, List.getLast?_cons_cons]
              cases hgl : (d :: ds).getLast? with
              | some e => rfl
              | none => exact absurd hgl (by simp)
          rwa [this]
        · rw [repGo, hm, hout]
          simp

/-- If no token sits at the head of the input, no token sits at the head of
the scanned output either: a token freshly enabled by a later replacement
would need the placeholder's `[` among its word characters, or — when the
placeholder starts exactly at the token's boundary position — a word
character immediately before the fired match, contradicting the matcher's
leading `\b`. -/
theorem head_token_impossible
    (m : Option Char → List Char → Option Nat)
    (hn : ∀ p cs k, m p cs = some k → 1 ≤ k)
    (hbnd : ∀ p cs k, m p cs = some k → nonWordOrStart p = true)
    (c : Char) (rest : List Char) (p : Option Char)
    (hnotok : isAkiaTokenAt p (c :: rest) = false) :
    isAkiaTokenAt p (c :: repGo m (some c) 0 rest) = false := by
  by_contra hcon
  have htok : isAkiaTokenAt p (c :: repGo m (some c) 0 rest) = true := by
    simpa using hcon
  obtain ⟨t, ht⟩ := Option.isSome_iff_exists.mp htok
  rcases repGo_divergence m hn rest (some c) with hl | ⟨pre, suf, k', hsplit, hm', hout⟩
  · rw [hl] at htok
    rw [htok] at hnotok
    cases hnotok
  · have hwc := matchAwsKeyAt_word_chars ht
    by_cases hle : pre.length ≤ 18
    · -- the placeholder's `[` would be a word character of the token
      have hplo : (repGo m (some c) 0 rest)[pre.length]? = some '[' := by
        rw [hout, List.append_assoc, List.getElem?_append_right (Nat.le_refl _)]
        simp [PLACEHOLDER]
      obtain ⟨ch, hch, hw⟩ := hwc (pre.length + 1) (by omega)
      rw [List.getElem?_cons_succ, hplo] at hch
      injection hch with hch
      rw [← hch] at hw
      exact absurd hw (by decide)
    · by_cases h19 : pre.length = 19
      · -- the match fired right after the token's 20 word characters
        have hbnd' := hbnd _ _ _ hm'
        obtain ⟨ch, hch, hw⟩ := hwc 19 (by omega)
        have hch' : pre[18]? = some ch := by
          have : (repGo m (some c) 0 rest)[18]? = pre[18]? := by
            rw [hout, List.append_assoc]
            exact List.getElem?_append_left (by omega)
          rw [List.getElem?_cons_succ, this] at hch
          exact hch
        have hlast : pre.getLast? = some ch := by
          rw [List.getLast?_eq_getElem?, h19]
          exact hch'
        rw [lastCtx, hlast] at hbnd'
        rw [nonWordOrStart, hw] at hbnd'
        cases hbnd'
      · -- the copied prefix covers the whole candidate: the token already
        -- sat at the head of the input
        have h20 : 20 ≤ pre.length := by omega
        have htake : (c :: repGo m (some c) 0 rest).take 21 = (c :: rest).take 21 := by
          rw [List.take_succ_cons, List.take_succ_cons]
          congr 1
          rw [hout, hsplit, List.append_assoc,
            List.take_append_of_le_length h20, List.take_append_of_le_length h20]
        have := matchAwsKeyAt_congr_take21 p htake
        rw [ht] at this
        rw [isAkiaTokenAt, ← this] at hnotok
        cases hnotok

/-- Pattern 5's matcher fires only with length 20 (hence ≥ 1). -/
theorem matchAwsKeyAt_pos : ∀ (p : Option Char) (cs : List Char) (k : Nat),
    matchAwsKeyAt p cs = some k → 1 ≤ k := by
  intro p cs k h
  have := (matchAwsKeyAt_inv h).1
  omega

/-- Pattern 5's matcher requires a leading word boundary. -/
theorem matchAwsKeyAt_bnd : ∀ (p : Option Char) (cs : List Char) (k : Nat),
    matchAwsKeyAt p cs = some k → nonWordOrStart p = true :=
  fun _ _ _ h => (matchAwsKeyAt_inv h).2.1

/-- Pattern 5's global replacement leaves no word-boundary-delimited AKIA
token anywhere in its output. -/
theorem repGo_awsKey_no_token :
    ∀ (N : Nat) (cs : List Char), cs.length ≤ N → ∀ (p : Option Char),
      existsMatch isAkiaTokenAt p (repGo matchAwsKeyAt p 0 cs) = false := by
  intro N
  induction N with
  | zero =>
    intro cs hlen p
    cases cs with
    | nil => rfl
    | cons c rest => simp at hlen
  | succ N ih =>
    intro cs hlen p
    cases cs with
    | nil => rfl
    | cons c rest =>
      simp only [List.length_cons] at hlen
      cases hm : matchAwsKeyAt p (c :: rest) with
      | some k =>
        have hk20 := (matchAwsKeyAt_inv hm).1
        subst hk20
        rw [repGo]
        simp only [hm]
        rw [repGo_skip, akia_search_placeholder]
        exact ih (rest.drop 19) (by simp [List.length_drop]; omega) (some ']')
      | none =>
        rw [repGo]
        simp only [hm]
        rw [existsMatch]
        apply Bool.or_eq_false_iff.mpr
        constructor
        · apply head_token_impossible matchAwsKeyAt matchAwsKeyAt_pos matchAwsKeyAt_bnd
          rw [isAkiaTokenAt, hm]
          rfl
        · exact ih rest (by omega) (some c)

/-- A scan by a matcher with a leading `\b` whose matches, when directly
followed by a `]`-context token, are also followed by a real-context token
(`hend`), preserves token-freeness of the text. -/
theorem repGo_preserves_no_token
    (m : Option Char → List Char → Option Nat)
    (hn : ∀ p cs k, m p cs = some k → 1 ≤ k)
    (hbnd : ∀ p cs k, m p cs = some k → nonWordOrStart p = true)
    (hend : ∀ p cs k, m p cs = some k →
        isAkiaTokenAt (some ']') (cs.drop k) = true →
        ∃ q, cs[k - 1]? = some q ∧ isAkiaTokenAt (some q) (cs.drop k) = true) :
    ∀ (N : Nat) (cs : List Char), cs.length ≤ N → ∀ (p : Option Char),
      existsMatch isAkiaTokenAt p cs = false →
      existsMatch isAkiaTokenAt p (repGo m p 0 cs) = false := by
  intro N
  induction N with
  | zero =>
    intro cs hlen p _
    cases cs with
    | nil => rfl
    | cons c rest => simp at hlen
  | succ N ih =>
    intro cs hlen p hno
    cases cs with
    | nil => rfl
    | cons c rest =>
      simp only [List.length_cons] at hlen
      obtain ⟨hno₁, hno₂⟩ := (existsMatch_cons_eq_false _ _ _ _).mp hno
      cases hm : m p (c :: rest) with
      | some k =>
        have hk := hn _ _ _ hm
        rw [repGo]
        simp only [hm]
        rw [repGo_skip, akia_search_placeholder]
        have hDdrop : (c :: rest).drop k = rest.drop (k - 1) := by
          conv_lhs => rw [show k = (k - 1) + 1 by omega]
          rw [List.drop_succ_cons]
        have hD : existsMatch isAkiaTokenAt (some ']') (rest.drop (k - 1)) = false := by
          cases hcd : rest.drop (k - 1) with
          | nil => rfl
          | cons d dd =>
            refine (existsMatch_cons_eq_false _ _ _ _).mpr ⟨?_, ?_⟩
            · by_contra hcon
              have htokD : isAkiaTokenAt (some ']') (d :: dd) = true := by simpa using hcon
              obtain ⟨q, hq, hqt⟩ := hend p (c :: rest) k hm (by rw [hDdrop, hcd]; exact htokD)
              have hnodrop : existsMatch isAkiaTokenAt (some q)
                  ((c :: rest).drop ((k - 1) + 1)) = false :=
                existsMatch_drop_of_none _ (c :: rest) (k - 1) p q hno hq
              rw [show (k - 1) + 1 = k by omega, hDdrop, hcd] at hnodrop
              have hhead := ((existsMatch_cons_eq_false _ _ _ _).mp hnodrop).1
              rw [hDdrop, hcd] at hqt
              rw [hhead] at hqt
              cases hqt
            · have hdix : (c :: rest)[k]? = some d := by
                rw [← drop_head?_eq, hDdrop, hcd]
                rfl
              have hstep := existsMatch_drop_of_none _ (c :: rest) k p d hno hdix
              have hdd : (c :: rest).drop (k + 1) = dd := by
                rw [← List.tail_drop, hDdrop, hcd]
                rfl
              rwa [hdd] at hstep
        refine ih _ ?_ (some ']') hD
        simp only [List.length_drop]
        omega
      | none =>
        rw [repGo]
        simp only [hm]
        rw [existsMatch]
        apply Bool.or_eq_false_iff.mpr
        constructor
        · exact head_token_impossible m hn hbnd c rest p hno₁
        · exact ih rest (by omega) (some c) hno₂

/-- A token cannot start where the previous matcher demanded a non-word
character (its `A` is a word character). -/
theorem no_token_at_nonword {cs : List Char} (h : nonWordOrEnd cs.head? = true)
    (p : Option Char) : isAkiaTokenAt p cs = false := by
  by_contra hcon
  have htok : isAkiaTokenAt p cs = true := by simpa using hcon
  obtain ⟨t, ht⟩ := Option.isSome_iff_exists.mp htok
  obtain ⟨_, _, htake, _⟩ := matchAwsKeyAt_inv ht
  have h0 : cs[0]? = some 'A' := by
    have := congrArg (fun l => l[0]?) htake
    simpa [List.getElem?_take] using this
  rw [List.head?_eq_getElem?, h0] at h
  cases h

/-- A `]` left context can be replaced by any non-word character without
losing the token. -/
theorem token_context_swap {q : Char} (hq : isWordChar q = false)
    {cs : List Char} (h : isAkiaTokenAt (some ']') cs = true) :
    isAkiaTokenAt (some q) cs = true := by
  obtain ⟨t, ht⟩ := Option.isSome_iff_exists.mp h
  obtain ⟨hn, _, htake, h₁, h₂, h₃⟩ := matchAwsKeyAt_inv ht
  rw [isAkiaTokenAt,
    matchAwsKeyAt_intro (by simp [nonWordOrStart, hq]) htake h₁ h₂ h₃]
  rfl

/-- Case-insensitive literal match consumes exactly the literal's length. -/
theorem litMatchCI_drop :
    ∀ (lit cs r : List Char), litMatchCI lit cs = some r → r = cs.drop lit.length := by
  intro lit
  induction lit with
  | nil =>
    intro cs r h
    rw [litMatchCI] at h
    injection h with h
    rw [← h]
    rfl
  | cons l ls ih =>
    intro cs r h
    cases cs with
    | nil => cases h
    | cons c cs' =>
      rw [litMatchCI] at h
      by_cases hc : toLowerChar c = toLowerChar l
      · rw [if_pos hc] at h
        rw [ih cs' r h]
        rfl
      · rw [if_neg hc] at h
        cases h

/-- Pattern 7's matcher: the character after the match (if any) is
non-word (its trailing `\b`). -/
theorem matchSkAt_end {p : Option Char} {cs : List Char} {k : Nat}
    (h : matchSkAt p cs = some k) :
    nonWordOrEnd ((cs.drop k).head?) = true := by
  rw [matchSkAt] at h
  by_cases hb : nonWordOrStart p = true
  · rw [if_pos hb] at h
    cases hlit : litMatch "sk-".data cs with
    | none => rw [hlit] at h; cases h
    | some rest =>
      obtain ⟨_, hrest⟩ := (litMatch_iff _ _ _).mp hlit
      subst hrest
      simp only [hlit] at h
      split at h
      · rename_i hc
        injection h with h
        simp only [Bool.and_eq_true, decide_eq_true_eq] at hc
        have hdd : ((cs.drop "sk-".data.length).drop
            (countWhile isAlnum (cs.drop "sk-".data.length)))
            = cs.drop k := by
          rw [List.drop_drop, ← h]
          congr 1
        rw [hdd] at hc
        exact hc.2
      · cases h
  · rw [if_neg hb] at h
    cases h

/-- Pattern 7's matcher fires with positive length. -/
theorem matchSkAt_pos : ∀ (p : Option Char) (cs : List Char) (k : Nat),
    matchSkAt p cs = some k → 1 ≤ k := by
  intro p cs k h
  rw [matchSkAt] at h
  by_cases hb : nonWordOrStart p = true
  · rw [if_pos hb] at h
    cases hlit : litMatch "sk-".data cs with
    | none => rw [hlit] at h; cases h
    | some rest =>
      simp only [hlit] at h
      split at h
      · injection h with h
        omega
      · cases h
  · rw [if_neg hb] at h
    cases h

/-- Pattern 7's matcher requires a leading word boundary. -/
theorem matchSkAt_bnd : ∀ (p : Option Char) (cs : List Char) (k : Nat),
    matchSkAt p cs = some k → nonWordOrStart p = true := by
  intro p cs k h
  rw [matchSkAt] at h
  by_cases hb : nonWordOrStart p = true
  · exact hb
  · rw [if_neg hb] at h
    cases h

/-- Core of `assignSuffix_end`: the value-run/closing-quote tail, uniform
over the presence of the opening quote (`W` is the offset of the value run
`afterQ` within the scanned text). -/
theorem assignSuffix_end_core (cls : Char → Bool) (min : Nat) (cs : List Char)
    (n W : Nat) (afterQ : List Char) (hW : cs.drop W = afterQ) (hW1 : 1 ≤ W)
    (h : (if countWhile cls afterQ < min then none
          else some (W + countWhile cls afterQ +
            (match afterQ.drop (countWhile cls afterQ) with
             | q :: _ => if q = '"' || q = '\'' then 1 else 0
             | [] => 0))) = some n) :
    1 ≤ n ∧ ∀ ch, (cs.drop n).head? = some ch → cls ch = true →
      ∃ q, cs[n - 1]? = some q ∧ isWordChar q = false := by
  split at h
  · cases h
  · injection h with h
    cases hav : afterQ.drop (countWhile cls afterQ) with
    | nil =>
      simp only [hav] at h
      refine ⟨by omega, ?_⟩
      intro ch hch _
      exfalso
      have hnil : cs.drop n = [] := by
        rw [show n = W + countWhile cls afterQ by omega]
        rw [← List.drop_drop, hW, hav]
      rw [hnil] at hch
      cases hch
    | cons qv rr =>
      simp only [hav] at h
      by_cases hqv : (qv = '"' || qv = '\'') = true
      · simp only [hqv, if_true] at h
        refine ⟨by omega, ?_⟩
        intro ch hch hcls
        have hdropn1 : cs.drop (n - 1) = qv :: rr := by
          rw [show n - 1 = W + countWhile cls afterQ by omega]
          rw [← List.drop_drop, hW, hav]
        refine ⟨qv, ?_, ?_⟩
        · rw [← drop_head?_eq, hdropn1]
          rfl
        · rcases Bool.or_eq_true_iff.mp hqv with h1 | h1
          · rw [decide_eq_true_eq] at h1
            subst h1
            decide
          · rw [decide_eq_true_eq] at h1
            subst h1
            decide
      · simp only [hqv, Bool.false_eq_true, if_false] at h
        refine ⟨by omega, ?_⟩
        intro ch hch hcls
        exfalso
        have hdropn : cs.drop n = qv :: rr := by
          rw [show n = W + countWhile cls afterQ by omega]
          rw [← List.drop_drop, hW, hav]
        rw [hdropn, List.head?_cons] at hch
        injection hch with hch
        have hqvcls : cls qv = false := by
          have hdw : afterQ.drop (countWhile cls afterQ) = afterQ.dropWhile cls := by
            rw [countWhile]
            exact drop_takeWhile_len cls afterQ
          rw [hdw] at hav
          exact head_dropWhile cls afterQ qv (by rw [hav]; rfl)
        rw [hch, hcls] at hqvcls
        cases hqvcls

/-- What the assignment suffix guarantees at its right edge: the match is
nonempty, and the only way its final character can be directly followed by
a value-class character is a closing quote — a non-word character. -/
theorem assignSuffix_end (cls : Char → Bool) (min : Nat) (cs : List Char) (n : Nat)
    (h : assignSuffix cls min cs = some n) :
    1 ≤ n ∧ ∀ ch, (cs.drop n).head? = some ch → cls ch = true →
      ∃ q, cs[n - 1]? = some q ∧ isWordChar q = false := by
  rw [assignSuffix] at h
  cases hcr : cs.drop (countWhile isJsWs cs) with
  | nil =>
    simp only [hcr] at h
    exact Option.noConfusion h
  | cons cd rest =>
    simp only [hcr] at h
    have hF1 : cs.drop (countWhile isJsWs cs + 1) = rest := by
      rw [← List.tail_drop, hcr]
      rfl
    split at h
    · -- the delimiter matched
      rename_i hdelim
      cases hq : rest.drop (countWhile isJsWs rest) with
      | nil =>
        -- no opening quote (nothing left); afterQ = afterWs = []
        simp only [hq] at h
        split at h
        · cases h
        · rename_i hvmin
          injection h with h
          -- v = countWhile cls [] = 0; but min ≤ v and ... cases on min
          -- afterQ = [], so afterV = [] and q₂ = 0
          refine ⟨by omega, ?_⟩
          intro ch hch _
          exfalso
          have hFW : cs.drop (countWhile isJsWs cs + 1 + countWhile isJsWs rest) = [] := by
            rw [← List.drop_drop, hF1, hq]
          have hge : cs.length ≤ countWhile isJsWs cs + 1 + countWhile isJsWs rest := by
            have := congrArg List.length hFW
            simp only [List.length_drop, List.length_nil] at this
            omega
          have : cs.drop n = [] := List.drop_eq_nil_of_le (by omega)
          rw [this] at hch
          cases hch
      | cons q r =>
        simp only [hq] at h
        have hFW : cs.drop (countWhile isJsWs cs + 1 + countWhile isJsWs rest) = q :: r := by
          rw [← List.drop_drop, hF1, hq]
        by_cases hquote : (q = '"' || q = '\'') = true
        · -- opening quote consumed: q₁ = 1, afterQ = r
          simp only [hquote, if_true] at h
          have hFQ : cs.drop (countWhile isJsWs cs + 1 + countWhile isJsWs rest + 1) = r := by
            rw [← List.tail_drop, hFW]
            rfl
          exact assignSuffix_end_core cls min cs n
            (countWhile isJsWs cs + 1 + countWhile isJsWs rest + 1) r hFQ (by omega) h
        · simp only [hquote, if_false] at h
          exact assignSuffix_end_core cls min cs n
            (countWhile isJsWs cs + 1 + countWhile isJsWs rest) (q :: r) hFW (by omega) h
    · cases h


/-- Pattern 6's matcher decomposes into the keyword (21 characters) plus an
assignment suffix, behind a leading word boundary. -/
theorem matchAwsSecretAt_inv {p : Option Char} {cs : List Char} {k : Nat}
    (h : matchAwsSecretAt p cs = some k) :
    nonWordOrStart p = true ∧
    ∃ n, assignSuffix isAwsValChar 30 (cs.drop 21) = some n ∧ k = n + 21 := by
  rw [matchAwsSecretAt] at h
  by_cases hb : nonWordOrStart p = true
  · rw [if_pos hb] at h
    cases hlit : litMatchCI "aws_secret_access_key".data cs with
    | none => rw [hlit] at h; cases h
    | some rest =>
      have hrest : rest = cs.drop 21 := by
        rw [litMatchCI_drop _ _ _ hlit]
        rfl
      simp only [hlit] at h
      subst hrest
      split at h
      · cases hs : assignSuffix isAwsValChar 30 (cs.drop 21) with
        | none => rw [hs] at h; cases h
        | some n =>
          rw [hs] at h
          injection h with h
          exact ⟨hb, n, rfl, h.symm⟩
      · cases h
  · rw [if_neg hb] at h
    cases h

/-- Pattern 6's matcher fires with positive length. -/
theorem matchAwsSecretAt_pos : ∀ (p : Option Char) (cs : List Char) (k : Nat),
    matchAwsSecretAt p cs = some k → 1 ≤ k := by
  intro p cs k h
  obtain ⟨-, n, -, hk⟩ := matchAwsSecretAt_inv h
  omega

/-- Pattern 6's matcher requires a leading word boundary. -/
theorem matchAwsSecretAt_bnd : ∀ (p : Option Char) (cs : List Char) (k : Nat),
    matchAwsSecretAt p cs = some k → nonWordOrStart p = true := by
  intro p cs k h
  exact (matchAwsSecretAt_inv h).1

/-- If a boundary-delimited token begins right after a pattern-6 match, the
match's final character is itself a non-word character supporting the same
token (the match cannot eat the token's left boundary). -/
theorem matchAwsSecretAt_hend : ∀ (p : Option Char) (cs : List Char) (k : Nat),
    matchAwsSecretAt p cs = some k →
    isAkiaTokenAt (some ']') (cs.drop k) = true →
    ∃ q, cs[k - 1]? = some q ∧ isAkiaTokenAt (some q) (cs.drop k) = true := by
  intro p cs k h htok
  obtain ⟨-, n, hs, hk⟩ := matchAwsSecretAt_inv h
  obtain ⟨hn1, hch⟩ := assignSuffix_end isAwsValChar 30 (cs.drop 21) n hs
  obtain ⟨t, ht⟩ := Option.isSome_iff_exists.mp htok
  obtain ⟨-, -, htake, -⟩ := matchAwsKeyAt_inv ht
  have hA : (cs.drop k)[0]? = some 'A' := by
    have := congrArg (fun l => l[0]?) htake
    simpa [List.getElem?_take] using this
  have hA2 : cs[k]? = some 'A' := by
    rw [List.getElem?_drop] at hA
    simpa using hA
  have hheadA : ((cs.drop 21).drop n).head? = some 'A' := by
    rw [List.drop_drop, drop_head?_eq, show 21 + n = k by omega]
    exact hA2
  obtain ⟨q, hq, hqw⟩ := hch 'A' hheadA (by decide)
  have hq2 : cs[k - 1]? = some q := by
    rw [List.getElem?_drop] at hq
    rw [show k - 1 = 21 + (n - 1) by omega]
    exact hq
  exact ⟨q, hq2, token_context_swap hqw htok⟩

/-- A token can never begin right after a pattern-7 match (the trailing
word boundary of `sk-...` forbids an adjacent word character). -/
theorem matchSkAt_hend : ∀ (p : Option Char) (cs : List Char) (k : Nat),
    matchSkAt p cs = some k →
    isAkiaTokenAt (some ']') (cs.drop k) = true →
    ∃ q, cs[k - 1]? = some q ∧ isAkiaTokenAt (some q) (cs.drop k) = true := by
  intro p cs k h htok
  rw [no_token_at_nonword (matchSkAt_end h)] at htok
  cases htok

/-- **C5** (amended): for every input string, the redactor's output
contains no word-boundary-delimited AWS access-key token
(`\bAKIA[0-9A-Z]{16}\b`): the fifth rule replaces every such token with
the placeholder, and the two later rules can neither leave one behind nor
create one.  (The frozen wording — every occurrence of `AKIA` followed by
16 uppercase alphanumerics is fully replaced — fails for occurrences
lacking the leading word boundary the rule requires; see
`redact_akia_counterexample`.) -/
theorem redact_no_akia_token (s : String) : hasAkiaToken (redact s) = false := by
  show existsMatch isAkiaTokenAt none
    (replaceAll matchSkAt (replaceAll matchAwsSecretAt (replaceAll matchAwsKeyAt
      (replaceAll matchGhpAt (replaceAll matchGoogleAt (replaceAll matchGenericAt
        (replaceAll matchPemAt s.data))))))) = false
  have h5 := repGo_awsKey_no_token
    (replaceAll matchGhpAt (replaceAll matchGoogleAt (replaceAll matchGenericAt
      (replaceAll matchPemAt s.data)))).length _ le_rfl none
  have h6 := repGo_preserves_no_token matchAwsSecretAt matchAwsSecretAt_pos
    matchAwsSecretAt_bnd matchAwsSecretAt_hend _ _ le_rfl none h5
  exact repGo_preserves_no_token matchSkAt matchSkAt_pos
    matchSkAt_bnd matchSkAt_hend _ _ le_rfl none h6

/-- **C5** counterexample to the frozen wording: `xAKIAAAAAAAAAAAAAAAAA`
contains `AKIA` followed by 16 uppercase alphanumerics, yet the redactor
returns it unchanged — the leading `x` is a word character, so the rule's
required left word boundary is absent and no fragment is replaced. -/
theorem redact_akia_counterexample :
    hasAkiaSubstring "xAKIAAAAAAAAAAAAAAAAA".data = true ∧
    redact "xAKIAAAAAAAAAAAAAAAAA" = "xAKIAAAAAAAAAAAAAAAAA" := by
  exact ⟨by decide, by rfl⟩


/-! ### Idempotence infrastructure

To settle the idempotence of `redact` we must show that the final output
contains no match of any of the seven patterns.  The backbone is the same
scan analysis used for the AKIA token, generalised: a scan kills its own
matches (`repGo_kills`), and a later scan preserves match-freeness of an
earlier pattern (`repGo_preserves_generic`).  Both rest on per-matcher
*stability* lemmas: a match that was computed against a text truncated by
the placeholder's `[` also fires against the untruncated text. -/

/-- `countWhile` over an append splits on whether the run exhausts the
left part. -/
theorem countWhile_append (cls : Char → Bool) :
    ∀ (a x : List Char), countWhile cls (a ++ x)
      = if a.all cls then a.length + countWhile cls x else countWhile cls a := by
  intro a
  induction a with
  | nil => intro x; simp [countWhile]
  | cons c a ih =>
    intro x
    by_cases hc : cls c
    · simp only [List.cons_append, countWhile, List.takeWhile_cons, hc, if_true,
        List.length_cons, List.all_cons, Bool.and_eq_true]
      have := ih x
      simp only [countWhile] at this
      rw [this]
      by_cases ha : a.all cls
      · simp [ha, hc]
        omega
      · simp [ha, hc]
    · simp [countWhile, List.takeWhile_cons, hc, List.all_cons]

/-- The last element of a nonempty cons list through `lastCtx`. -/
theorem getLast_cons_lastCtx (c : Char) (pre : List Char) :
    (c :: pre).getLast? = lastCtx (some c) pre := by
  cases hl : pre.getLast? with
  | none =>
    have : pre = [] := by
      cases pre with
      | nil => rfl
      | cons d ds => exact absurd hl (by simp)
    subst this
    rfl
  | some d =>
    rw [lastCtx, hl]
    cases pre with
    | nil => simp at hl
    | cons e es =>
      rw [List.getLast?_cons_cons, hl]

/-- A literal not containing `[` that matches against a `[`-truncated text
fits inside the untruncated part and matches any continuation. -/
theorem litMatch_stable {lit a z r : List Char}
    (hlit : ∀ c, c ∈ lit → c ≠ '[')
    (h : litMatch lit (a ++ '[' :: z) = some r) :
    lit.length ≤ a.length ∧
      ∀ x, litMatch lit (a ++ x) = some (a.drop lit.length ++ x) := by
  obtain ⟨htake, -⟩ := (litMatch_iff _ _ _).mp h
  have hle : lit.length ≤ a.length := by
    by_contra hgt
    have hbr : '[' ∈ lit := by
      have hidx : lit[a.length]? = some '[' := by
        rw [← htake, List.getElem?_take, if_pos (by omega),
          List.getElem?_append_right (Nat.le_refl _)]
        simp
      obtain ⟨hlt, hEq⟩ := List.getElem?_eq_some.mp hidx
      exact hEq ▸ List.getElem_mem hlt
    exact hlit '[' hbr rfl
  refine ⟨hle, fun x => ?_⟩
  apply (litMatch_iff _ _ _).mpr
  constructor
  · rw [List.take_append_of_le_length hle]
    rwa [List.take_append_of_le_length hle] at htake
  · rw [List.drop_append_of_le_length hle]

/-- Case-insensitive version of `litMatch_stable`. -/
theorem litMatchCI_stable :
    ∀ (lit a : List Char) {z r : List Char},
    (∀ c, c ∈ lit → toLowerChar c ≠ '[') →
    litMatchCI lit (a ++ '[' :: z) = some r →
    lit.length ≤ a.length ∧
      ∀ x, litMatchCI lit (a ++ x) = some (a.drop lit.length ++ x) := by
  intro lit
  induction lit with
  | nil =>
    intro a z r _ h
    exact ⟨Nat.zero_le _, fun x => by simp [litMatchCI]⟩
  | cons l ls ih =>
    intro a z r hlit h
    cases a with
    | nil =>
      rw [List.nil_append, litMatchCI] at h
      have hlb : toLowerChar '[' = '[' := by decide
      rw [hlb] at h
      rw [if_neg (fun hc => hlit l (by simp) hc.symm)] at h
      cases h
    | cons b bs =>
      rw [List.cons_append, litMatchCI] at h
      by_cases hb : toLowerChar b = toLowerChar l
      · rw [if_pos hb] at h
        obtain ⟨hle, hall⟩ := ih bs (fun c hc => hlit c (by simp [hc])) h
        refine ⟨by simpa using Nat.succ_le_succ hle, fun x => ?_⟩
        rw [List.cons_append, litMatchCI, if_pos hb, hall x]
        rfl
      · rw [if_neg hb] at h
        cases h

/-- A character whose lower-cased form is a lowercase letter is a word
character. -/
theorem isWordChar_of_toLower {c d : Char} (h : toLowerChar c = d)
    (hd : 'a' ≤ d ∧ d ≤ 'z') : isWordChar c = true := by
  rw [toLowerChar] at h
  split at h
  · rename_i hu
    simp only [Bool.and_eq_true, decide_eq_true_eq] at hu
    simp [isWordChar, hu.1, hu.2]
  · subst h
    simp only [isWordChar, Bool.or_eq_true, Bool.and_eq_true, decide_eq_true_eq]
    exact Or.inl (Or.inl (Or.inr ⟨hd.1, hd.2⟩))

/-- A match-free text is left verbatim by the scan. -/
theorem repGo_id_of_nomatch (m : Option Char → List Char → Option Nat) :
    ∀ (cs : List Char) (p : Option Char),
      existsMatch (fun q ds => (m q ds).isSome) p cs = false →
      repGo m p 0 cs = cs := by
  intro cs
  induction cs with
  | nil => intro p _; rfl
  | cons c rest ih =>
    intro p h
    obtain ⟨h₁, h₂⟩ := (existsMatch_cons_eq_false _ _ _ _).mp h
    have hm : m p (c :: rest) = none := by
      cases hm : m p (c :: rest) with
      | none => rfl
      | some k => rw [hm] at h₁; cases h₁
    rw [repGo, hm, ih (some c) h₂]


/-- For a context-insensitive predicate the left context of the search is
irrelevant. -/
theorem existsMatch_pi (f : Option Char → List Char → Bool)
    (hpi : ∀ p p' cs, f p cs = f p' cs) :
    ∀ (cs : List Char) (p p' : Option Char),
      existsMatch f p cs = existsMatch f p' cs := by
  intro cs
  induction cs with
  | nil => intro p p'; rfl
  | cons c rest _ =>
    intro p p'
    rw [existsMatch, existsMatch, hpi p p' (c :: rest)]

/-- A failed context-insensitive search stays failed on every suffix with
any context. -/
theorem existsMatch_false_drop (f : Option Char → List Char → Bool)
    (hpi : ∀ p p' cs, f p cs = f p' cs) :
    ∀ (cs : List Char) (p : Option Char), existsMatch f p cs = false →
      ∀ (j : Nat) (p' : Option Char), existsMatch f p' (cs.drop j) = false := by
  intro cs
  induction cs with
  | nil =>
    intro p _ j p'
    rw [List.drop_nil]
    rfl
  | cons c rest ih =>
    intro p h j p'
    obtain ⟨h₁, h₂⟩ := (existsMatch_cons_eq_false _ _ _ _).mp h
    cases j with
    | zero =>
      rw [List.drop_zero, existsMatch_pi f hpi (c :: rest) p' p]
      exact h
    | succ j =>
      rw [List.drop_succ_cons]
      exact ih (some c) h₂ j p'

/-- A context-insensitive hit at a suffix position lifts to the whole
search (predicates failing on the empty list). -/
theorem existsMatch_of_posn (f : Option Char → List Char → Bool)
    (hpi : ∀ p p' cs, f p cs = f p' cs)
    (hnil : ∀ p, f p [] = false) :
    ∀ (cs : List Char) (j : Nat) (p : Option Char),
      f none (cs.drop j) = true → existsMatch f p cs = true := by
  intro cs
  induction cs with
  | nil =>
    intro j p h
    rw [List.drop_nil, hnil] at h
    cases h
  | cons c rest ih =>
    intro j p h
    cases j with
    | zero =>
      rw [List.drop_zero] at h
      rw [existsMatch, hpi p none (c :: rest), h]
      rfl
    | succ j =>
      rw [List.drop_succ_cons] at h
      rw [existsMatch, ih j (some c) h]
      simp

/-- For context-insensitive tokens the right-edge condition of
`repGo_preserves_generic` holds automatically. -/
theorem hend_of_previndep (tok : Option Char → List Char → Bool)
    (hpi : ∀ p p' cs, tok p cs = tok p' cs)
    (hnil : ∀ p, tok p [] = false)
    (m : Option Char → List Char → Option Nat) :
    ∀ (p : Option Char) (cs : List Char) (k : Nat), m p cs = some k →
      tok (some ']') (cs.drop k) = true →
      ∃ q, cs[k - 1]? = some q ∧ tok (some q) (cs.drop k) = true := by
  intro p cs k _ htok
  have hne : cs.drop k ≠ [] := by
    intro h
    rw [h, hnil] at htok
    cases htok
  have hk : k < cs.length := by
    by_contra hcon
    exact hne (List.drop_eq_nil_of_le (by omega))
  have hq : cs[k - 1]?.isSome := by
    rw [List.getElem?_eq_getElem (by omega)]
    rfl
  obtain ⟨q, hq⟩ := Option.isSome_iff_exists.mp hq
  exact ⟨q, hq, by rw [hpi (some q) (some ']')]; exact htok⟩

/-- When the scanning matcher ends every match at a trailing word boundary
and the token starts with a word character, no token begins right after a
match. -/
theorem hend_vacuous (tok : Option Char → List Char → Bool)
    (m : Option Char → List Char → Option Nat)
    (hmend : ∀ p cs k, m p cs = some k → nonWordOrEnd ((cs.drop k).head?) = true)
    (hth : ∀ p cs, nonWordOrEnd cs.head? = true → tok p cs = false) :
    ∀ (p : Option Char) (cs : List Char) (k : Nat), m p cs = some k →
      tok (some ']') (cs.drop k) = true →
      ∃ q, cs[k - 1]? = some q ∧ tok (some q) (cs.drop k) = true := by
  intro p cs k hm htok
  rw [hth _ _ (hmend p cs k hm)] at htok
  cases htok

/-- Crossing the placeholder: if the token fails at each of its ten
offsets, the search reduces to the suffix with left context `]`. -/
theorem existsMatch_placeholder (tok : Option Char → List Char → Bool)
    (h0 : ∀ p z, tok p ('[' :: 'R' :: 'E' :: 'D' :: 'A' :: 'C' :: 'T' :: 'E' :: 'D' :: ']' :: z) = false)
    (h1 : ∀ p z, tok p ('R' :: 'E' :: 'D' :: 'A' :: 'C' :: 'T' :: 'E' :: 'D' :: ']' :: z) = false)
    (h2 : ∀ p z, tok p ('E' :: 'D' :: 'A' :: 'C' :: 'T' :: 'E' :: 'D' :: ']' :: z) = false)
    (h3 : ∀ p z, tok p ('D' :: 'A' :: 'C' :: 'T' :: 'E' :: 'D' :: ']' :: z) = false)
    (h4 : ∀ p z, tok p ('A' :: 'C' :: 'T' :: 'E' :: 'D' :: ']' :: z) = false)
    (h5 : ∀ p z, tok p ('C' :: 'T' :: 'E' :: 'D' :: ']' :: z) = false)
    (h6 : ∀ p z, tok p ('T' :: 'E' :: 'D' :: ']' :: z) = false)
    (h7 : ∀ p z, tok p ('E' :: 'D' :: ']' :: z) = false)
    (h8 : ∀ p z, tok p ('D' :: ']' :: z) = false)
    (h9 : ∀ p z, tok p (']' :: z) = false)
    (p : Option Char) (z : List Char) :
    existsMatch tok p (PLACEHOLDER ++ z) = existsMatch tok (some ']') z := by
  show existsMatch tok p
    ('[' :: 'R' :: 'E' :: 'D' :: 'A' :: 'C' :: 'T' :: 'E' :: 'D' :: ']' :: z) = _
  rw [existsMatch, h0, Bool.false_or, existsMatch, h1, Bool.false_or,
    existsMatch, h2, Bool.false_or, existsMatch, h3, Bool.false_or,
    existsMatch, h4, Bool.false_or, existsMatch, h5, Bool.false_or,
    existsMatch, h6, Bool.false_or, existsMatch, h7, Bool.false_or,
    existsMatch, h8, Bool.false_or, existsMatch, h9, Bool.false_or]

/-- A scan leaves no match of its own pattern in its output. -/
theorem repGo_kills
    (m : Option Char → List Char → Option Nat)
    (hn : ∀ p cs k, m p cs = some k → 1 ≤ k)
    (hph : ∀ p z, existsMatch (fun q ds => (m q ds).isSome) p (PLACEHOLDER ++ z)
        = existsMatch (fun q ds => (m q ds).isSome) (some ']') z)
    (hhead : ∀ p c rest, m p (c :: rest) = none →
        (m p (c :: repGo m (some c) 0 rest)).isSome = false) :
    ∀ (N : Nat) (cs : List Char), cs.length ≤ N → ∀ (p : Option Char),
      existsMatch (fun q ds => (m q ds).isSome) p (repGo m p 0 cs) = false := by
  intro N
  induction N with
  | zero =>
    intro cs hlen p
    cases cs with
    | nil => rfl
    | cons c rest => simp at hlen
  | succ N ih =>
    intro cs hlen p
    cases cs with
    | nil => rfl
    | cons c rest =>
      simp only [List.length_cons] at hlen
      cases hm : m p (c :: rest) with
      | some k =>
        have hk := hn _ _ _ hm
        rw [repGo]
        simp only [hm]
        rw [repGo_skip, hph]
        exact ih (rest.drop (k - 1)) (by simp [List.length_drop]; omega) (some ']')
      | none =>
        rw [repGo]
        simp only [hm]
        rw [existsMatch]
        apply Bool.or_eq_false_iff.mpr
        exact ⟨hhead p c rest hm, ih rest (by omega) (some c)⟩

/-- A scan by a matcher that never creates a token at the head of its
output and never exposes a token right after a match preserves
token-freeness. -/
theorem repGo_preserves_generic
    (tok : Option Char → List Char → Bool)
    (m : Option Char → List Char → Option Nat)
    (hn : ∀ p cs k, m p cs = some k → 1 ≤ k)
    (hph : ∀ p z, existsMatch tok p (PLACEHOLDER ++ z) = existsMatch tok (some ']') z)
    (hhead : ∀ p c rest, m p (c :: rest) = none → tok p (c :: rest) = false →
        tok p (c :: repGo m (some c) 0 rest) = false)
    (hend : ∀ p cs k, m p cs = some k →
        tok (some ']') (cs.drop k) = true →
        ∃ q, cs[k - 1]? = some q ∧ tok (some q) (cs.drop k) = true) :
    ∀ (N : Nat) (cs : List Char), cs.length ≤ N → ∀ (p : Option Char),
      existsMatch tok p cs = false →
      existsMatch tok p (repGo m p 0 cs) = false := by
  intro N
  induction N with
  | zero =>
    intro cs hlen p _
    cases cs with
    | nil => rfl
    | cons c rest => simp at hlen
  | succ N ih =>
    intro cs hlen p hno
    cases cs with
    | nil => rfl
    | cons c rest =>
      simp only [List.length_cons] at hlen
      obtain ⟨hno₁, hno₂⟩ := (existsMatch_cons_eq_false _ _ _ _).mp hno
      cases hm : m p (c :: rest) with
      | some k =>
        have hk := hn _ _ _ hm
        rw [repGo]
        simp only [hm]
        rw [repGo_skip, hph]
        have hDdrop : (c :: rest).drop k = rest.drop (k - 1) := by
          conv_lhs => rw [show k = (k - 1) + 1 by omega]
          rw [List.drop_succ_cons]
        have hD : existsMatch tok (some ']') (rest.drop (k - 1)) = false := by
          cases hcd : rest.drop (k - 1) with
          | nil => rfl
          | cons d dd =>
            refine (existsMatch_cons_eq_false _ _ _ _).mpr ⟨?_, ?_⟩
            · by_contra hcon
              have htokD : tok (some ']') (d :: dd) = true := by simpa using hcon
              obtain ⟨q, hq, hqt⟩ := hend p (c :: rest) k hm (by rw [hDdrop, hcd]; exact htokD)
              have hnodrop : existsMatch tok (some q)
                  ((c :: rest).drop ((k - 1) + 1)) = false :=
                existsMatch_drop_of_none _ (c :: rest) (k - 1) p q hno hq
              rw [show (k - 1) + 1 = k by omega, hDdrop, hcd] at hnodrop
              have hhd := ((existsMatch_cons_eq_false _ _ _ _).mp hnodrop).1
              rw [hDdrop, hcd] at hqt
              rw [hhd] at hqt
              cases hqt
            · have hdix : (c :: rest)[k]? = some d := by
                rw [← drop_head?_eq, hDdrop, hcd]
                rfl
              have hstep := existsMatch_drop_of_none _ (c :: rest) k p d hno hdix
              have hdd : (c :: rest).drop (k + 1) = dd := by
                rw [← List.tail_drop, hDdrop, hcd]
                rfl
              rwa [hdd] at hstep
        refine ih _ ?_ (some ']') hD
        simp only [List.length_drop]
        omega
      | none =>
        rw [repGo]
        simp only [hm]
        rw [existsMatch]
        apply Bool.or_eq_false_iff.mpr
        exact ⟨hhead p c rest hm hno₁, ih rest (by omega) (some c) hno₂⟩

/-- Head transfer via a local stability lemma, for matchers with a leading
word boundary: a token at the head of the scanned output forces one at the
head of the input. -/
theorem head_transfer_bnd
    (tok : Option Char → List Char → Bool)
    (htr : ∀ (p : Option Char) (a z suf : List Char) (q : Char),
        a.getLast? = some q → isWordChar q = false →
        tok p (a ++ '[' :: z) = true → tok p (a ++ suf) = true)
    (m : Option Char → List Char → Option Nat)
    (hn : ∀ p cs k, m p cs = some k → 1 ≤ k)
    (hbnd : ∀ p cs k, m p cs = some k → nonWordOrStart p = true)
    (c : Char) (rest : List Char) (p : Option Char)
    (hno : tok p (c :: rest) = false) :
    tok p (c :: repGo m (some c) 0 rest) = false := by
  rcases repGo_divergence m hn rest (some c) with hl | ⟨pre, suf, k, hsplit, hm, hout⟩
  · rw [hl]
    exact hno
  · by_contra hcon
    have htok : tok p (c :: repGo m (some c) 0 rest) = true := by simpa using hcon
    rw [hout] at htok
    have hshape : c :: (pre ++ PLACEHOLDER ++ repGo m (some ']') 0 (suf.drop k))
        = (c :: pre) ++ '[' :: ('R' :: 'E' :: 'D' :: 'A' :: 'C' :: 'T' :: 'E' :: 'D'
            :: ']' :: repGo m (some ']') 0 (suf.drop k)) := by
      simp [PLACEHOLDER]
    rw [hshape] at htok
    have hbq := hbnd _ _ _ hm
    cases hq : lastCtx (some c) pre with
    | none =>
      cases hpre : pre.getLast? with
      | some d => rw [lastCtx, hpre] at hq; cases hq
      | none => rw [lastCtx, hpre] at hq; cases hq
    | some q =>
      rw [hq] at hbq
      have hqw : isWordChar q = false := by
        simpa [nonWordOrStart] using hbq
      have hlast : (c :: pre).getLast? = some q := by
        rw [getLast_cons_lastCtx, hq]
      have hw := htr p (c :: pre) _ suf q hlast hqw htok
      rw [List.cons_append, ← hsplit] at hw
      rw [hw] at hno
      cases hno

/-- Head transfer via an unconditional local stability lemma (tokens with
no left-context requirement whose success is monotone in the value run). -/
theorem head_transfer_mono
    (tok : Option Char → List Char → Bool)
    (htr : ∀ (p : Option Char) (a z suf : List Char),
        tok p (a ++ '[' :: z) = true → tok p (a ++ suf) = true)
    (m : Option Char → List Char → Option Nat)
    (hn : ∀ p cs k, m p cs = some k → 1 ≤ k)
    (c : Char) (rest : List Char) (p : Option Char)
    (hno : tok p (c :: rest) = false) :
    tok p (c :: repGo m (some c) 0 rest) = false := by
  rcases repGo_divergence m hn rest (some c) with hl | ⟨pre, suf, k, hsplit, _, hout⟩
  · rw [hl]
    exact hno
  · by_contra hcon
    have htok : tok p (c :: repGo m (some c) 0 rest) = true := by simpa using hcon
    rw [hout] at htok
    have hshape : c :: (pre ++ PLACEHOLDER ++ repGo m (some ']') 0 (suf.drop k))
        = (c :: pre) ++ '[' :: ('R' :: 'E' :: 'D' :: 'A' :: 'C' :: 'T' :: 'E' :: 'D'
            :: ']' :: repGo m (some ']') 0 (suf.drop k)) := by
      simp [PLACEHOLDER]
    rw [hshape] at htok
    have hw := htr p (c :: pre) _ suf htok
    rw [List.cons_append, ← hsplit] at hw
    rw [hw] at hno
    cases hno


/-- A run stops immediately at a failing character. -/
theorem countWhile_cons_false {cls : Char → Bool} {c : Char} (h : cls c = false)
    (z : List Char) : countWhile cls (c :: z) = 0 := by
  simp [countWhile, List.takeWhile_cons, h]

/-- A run over a list with a failing member stops strictly inside it. -/
theorem countWhile_lt_of_not_all {cls : Char → Bool} :
    ∀ {l : List Char}, l.all cls = false → countWhile cls l < l.length := by
  intro l
  induction l with
  | nil => intro h; cases h
  | cons c cs ih =>
    intro h
    rw [List.all_cons] at h
    by_cases hc : cls c
    · rw [hc, Bool.true_and] at h
      have := ih h
      simp only [countWhile, List.takeWhile_cons, hc, if_true, List.length_cons]
      simp only [countWhile] at this
      omega
    · rw [countWhile_cons_false (Bool.eq_false_iff.mpr hc)]
      simp

/-- `assignSuffix` computed against a `[`-truncated tail also succeeds
against any other continuation (the value run only grows). -/
theorem assignSuffix_stable (cls : Char → Bool) (min : Nat)
    (hcls : cls '[' = false) (hmin : 0 < min) :
    ∀ (a z x : List Char) (n : Nat),
      assignSuffix cls min (a ++ '[' :: z) = some n →
      (assignSuffix cls min (a ++ x)).isSome = true := by
  intro a z x n h
  rw [assignSuffix] at h
  by_cases hall : (a.all isJsWs) = true
  · -- whitespace swallows all of `a`; the delimiter check then reads `[`
    exfalso
    have hw1 : countWhile isJsWs (a ++ '[' :: z) = a.length := by
      rw [countWhile_append, if_pos hall, countWhile_cons_false (by decide), Nat.add_zero]
    have hdrop : (a ++ '[' :: z).drop a.length = '[' :: z := by
      rw [List.drop_append_of_le_length (Nat.le_refl _), List.drop_length]
      rfl
    rw [hw1] at h
    simp only [hdrop] at h
    rw [if_neg (by decide : ¬((decide ('[' = ':') || decide ('[' = '=')) = true))] at h
    cases h
  · have hallf : a.all isJsWs = false := Bool.eq_false_iff.mpr hall
    have hw1 : countWhile isJsWs (a ++ '[' :: z) = countWhile isJsWs a := by
      rw [countWhile_append, if_neg hall]
    have hw1x : countWhile isJsWs (a ++ x) = countWhile isJsWs a := by
      rw [countWhile_append, if_neg hall]
    have hlt : countWhile isJsWs a < a.length := countWhile_lt_of_not_all hallf
    cases hcr : a.drop (countWhile isJsWs a) with
    | nil =>
      exfalso
      have := congrArg List.length hcr
      simp only [List.length_drop, List.length_nil] at this
      omega
    | cons c₀ a₁ =>
      have hdropu : (a ++ '[' :: z).drop (countWhile isJsWs a) = c₀ :: (a₁ ++ '[' :: z) := by
        rw [List.drop_append_of_le_length (by omega), hcr]
        rfl
      have hdropw : (a ++ x).drop (countWhile isJsWs a) = c₀ :: (a₁ ++ x) := by
        rw [List.drop_append_of_le_length (by omega), hcr]
        rfl
      rw [hw1] at h
      simp only [hdropu] at h
      rw [assignSuffix, hw1x]
      simp only [hdropw]
      by_cases hdelim : (c₀ = ':' || c₀ = '=') = true
      · rw [if_pos hdelim] at h
        rw [if_pos hdelim]
        -- second whitespace run
        by_cases hall₁ : (a₁.all isJsWs) = true
        · exfalso
          have hw2 : countWhile isJsWs (a₁ ++ '[' :: z) = a₁.length := by
            rw [countWhile_append, if_pos hall₁, countWhile_cons_false (by decide), Nat.add_zero]
          have hdrop₁ : (a₁ ++ '[' :: z).drop a₁.length = '[' :: z := by
            rw [List.drop_append_of_le_length (Nat.le_refl _), List.drop_length]
            rfl
          rw [hw2] at h
          simp only [hdrop₁] at h
          have hqf : (decide ('[' = '"') || decide ('[' = '\'')) = false := by decide
          simp only [hqf, Bool.false_eq_true, if_false, countWhile_cons_false hcls] at h
          rw [if_pos hmin] at h
          cases h
        · have hall₁f : a₁.all isJsWs = false := Bool.eq_false_iff.mpr hall₁
          have hw2 : countWhile isJsWs (a₁ ++ '[' :: z) = countWhile isJsWs a₁ := by
            rw [countWhile_append, if_neg hall₁]
          have hw2x : countWhile isJsWs (a₁ ++ x) = countWhile isJsWs a₁ := by
            rw [countWhile_append, if_neg hall₁]
          have hlt₁ : countWhile isJsWs a₁ < a₁.length := countWhile_lt_of_not_all hall₁f
          cases hcr₁ : a₁.drop (countWhile isJsWs a₁) with
          | nil =>
            exfalso
            have := congrArg List.length hcr₁
            simp only [List.length_drop, List.length_nil] at this
            omega
          | cons q₀ a₂ =>
            have hdropu₁ : (a₁ ++ '[' :: z).drop (countWhile isJsWs a₁)
                = q₀ :: (a₂ ++ '[' :: z) := by
              rw [List.drop_append_of_le_length (by omega), hcr₁]
              rfl
            have hdropw₁ : (a₁ ++ x).drop (countWhile isJsWs a₁)
                = q₀ :: (a₂ ++ x) := by
              rw [List.drop_append_of_le_length (by omega), hcr₁]
              rfl
            rw [hw2] at h
            simp only [hdropu₁] at h
            rw [hw2x]
            simp only [hdropw₁]
            by_cases hquote : (q₀ = '"' || q₀ = '\'') = true
            · rw [if_pos hquote] at h
              rw [if_pos hquote]
              by_cases hall₂ : (a₂.all cls) = true
              · have hv : countWhile cls (a₂ ++ '[' :: z) = a₂.length := by
                  rw [countWhile_append, if_pos hall₂, countWhile_cons_false hcls, Nat.add_zero]
                rw [hv] at h
                split at h
                · cases h
                · rename_i hge
                  have hvx : min ≤ countWhile cls (a₂ ++ x) := by
                    rw [countWhile_append, if_pos hall₂]
                    omega
                  dsimp only
                  rw [if_neg (by omega)]
                  rfl
              · have hv : countWhile cls (a₂ ++ '[' :: z) = countWhile cls a₂ := by
                  rw [countWhile_append, if_neg hall₂]
                have hvx : countWhile cls (a₂ ++ x) = countWhile cls a₂ := by
                  rw [countWhile_append, if_neg hall₂]
                rw [hv] at h
                split at h
                · cases h
                · rename_i hge
                  dsimp only
                  rw [hvx, if_neg (by omega)]
                  rfl
            · rw [if_neg hquote] at h
              rw [if_neg hquote]
              by_cases hall₂ : ((q₀ :: a₂).all cls) = true
              · have hv : countWhile cls (q₀ :: (a₂ ++ '[' :: z)) = (q₀ :: a₂).length := by
                  rw [show q₀ :: (a₂ ++ '[' :: z) = (q₀ :: a₂) ++ '[' :: z by rfl]
                  rw [countWhile_append, if_pos hall₂, countWhile_cons_false hcls, Nat.add_zero]
                rw [hv] at h
                split at h
                · cases h
                · rename_i hge
                  have hvx : min ≤ countWhile cls (q₀ :: (a₂ ++ x)) := by
                    rw [show q₀ :: (a₂ ++ x) = (q₀ :: a₂) ++ x by rfl]
                    rw [countWhile_append, if_pos hall₂]
                    omega
                  dsimp only
                  rw [if_neg (by omega)]
                  rfl
              · have hv : countWhile cls (q₀ :: (a₂ ++ '[' :: z)) = countWhile cls (q₀ :: a₂) := by
                  rw [show q₀ :: (a₂ ++ '[' :: z) = (q₀ :: a₂) ++ '[' :: z by rfl]
                  rw [countWhile_append, if_neg hall₂]
                have hvx : countWhile cls (q₀ :: (a₂ ++ x)) = countWhile cls (q₀ :: a₂) := by
                  rw [show q₀ :: (a₂ ++ x) = (q₀ :: a₂) ++ x by rfl]
                  rw [countWhile_append, if_neg hall₂]
                rw [hv] at h
                split at h
                · cases h
                · rename_i hge
                  dsimp only
                  rw [hvx, if_neg (by omega)]
                  rfl
      · rw [if_neg hdelim] at h
        cases h


/-- First-alternative success propagates through `<|>`. -/
theorem isSome_orElse_left {α : Type} {a b : Option α} (h : a.isSome = true) :
    (a <|> b).isSome = true := by
  cases a with
  | some v => rfl
  | none => cases h

/-- Second-alternative success propagates through `<|>`. -/
theorem isSome_orElse_right {α : Type} {a b : Option α} (h : b.isSome = true) :
    (a <|> b).isSome = true := by
  cases a with
  | some v => rfl
  | none => simpa using h

/-- Inversion of a successful `<|>`. -/
theorem orElse_eq_some_elim {α : Type} {a b : Option α} {v : α}
    (h : (a <|> b) = some v) : a = some v ∨ b = some v := by
  cases a with
  | some w => left; simpa using h
  | none => right; simpa using h

/-- The `api[_\-\s]*key` keyword computed against a `[`-truncated tail
fits inside the untruncated part and matches any continuation. -/
theorem kwApiKey_stable {a z : List Char} {k : Nat}
    (h : kwApiKey (a ++ '[' :: z) = some k) :
    k ≤ a.length ∧ ∀ x, kwApiKey (a ++ x) = some k := by
  rw [kwApiKey] at h
  cases hlit : litMatchCI "api".data (a ++ '[' :: z) with
  | none => rw [hlit] at h; cases h
  | some rest =>
    obtain ⟨hle3, hall3⟩ := litMatchCI_stable "api".data a
      (by decide) hlit
    have hrest : rest = a.drop 3 ++ '[' :: z := by
      have h2 := (hall3 ('[' :: z)).symm.trans hlit
      injection h2 with h2
      exact h2.symm
    subst hrest
    simp only [hlit] at h
    by_cases hall : ((a.drop 3).all (fun c => decide (c = '_') || decide (c = '-') || isJsWs c)) = true
    · exfalso
      have hm : countWhile (fun c => c = '_' || c = '-' || isJsWs c) (a.drop 3 ++ '[' :: z)
          = (a.drop 3).length := by
        rw [countWhile_append, if_pos hall, countWhile_cons_false (by decide), Nat.add_zero]
      rw [hm] at h
      have hdr : (a.drop 3 ++ '[' :: z).drop (a.drop 3).length = '[' :: z := by
        rw [List.drop_append_of_le_length (Nat.le_refl _), List.drop_length]
        rfl
      rw [hdr] at h
      have : litMatchCI "key".data ('[' :: z) = none := by
        rw [show "key".data = 'k' :: 'e' :: 'y' :: [] by rfl, litMatchCI,
          if_neg (by decide)]
      rw [this] at h
      cases h
    · have hallf := Bool.eq_false_iff.mpr hall
      have hm : countWhile (fun c => c = '_' || c = '-' || isJsWs c) (a.drop 3 ++ '[' :: z)
          = countWhile (fun c => c = '_' || c = '-' || isJsWs c) (a.drop 3) := by
        rw [countWhile_append, if_neg hall]
      have hmx : ∀ x, countWhile (fun c => c = '_' || c = '-' || isJsWs c) (a.drop 3 ++ x)
          = countWhile (fun c => c = '_' || c = '-' || isJsWs c) (a.drop 3) := by
        intro x
        rw [countWhile_append, if_neg hall]
      have hlt : countWhile (fun c => c = '_' || c = '-' || isJsWs c) (a.drop 3)
          < (a.drop 3).length := countWhile_lt_of_not_all hallf
      rw [hm] at h
      have hdr : (a.drop 3 ++ '[' :: z).drop
            (countWhile (fun c => c = '_' || c = '-' || isJsWs c) (a.drop 3))
          = ((a.drop 3).drop (countWhile (fun c => c = '_' || c = '-' || isJsWs c) (a.drop 3)))
            ++ '[' :: z := by
        rw [List.drop_append_of_le_length (by omega)]
      rw [hdr] at h
      cases hkey : litMatchCI "key".data
          (((a.drop 3).drop (countWhile (fun c => c = '_' || c = '-' || isJsWs c) (a.drop 3)))
            ++ '[' :: z) with
      | none => rw [hkey] at h; cases h
      | some rest₂ =>
        rw [hkey] at h
        injection h with h
        obtain ⟨hle3b, hall3b⟩ := litMatchCI_stable "key".data _ (by decide) hkey
        constructor
        · have h1 : (a.drop 3).length = a.length - 3 := by simp
          have h2 : ((a.drop 3).drop
              (countWhile (fun c => c = '_' || c = '-' || isJsWs c) (a.drop 3))).length
              = (a.drop 3).length
                - countWhile (fun c => c = '_' || c = '-' || isJsWs c) (a.drop 3) := by
            simp
            omega
          rw [← h]
          have h3 : ("key".data).length = 3 := by rfl
          rw [h3] at hle3b
          omega
        · intro x
          have hdrx : (a.drop 3 ++ x).drop
                (countWhile (fun c => c = '_' || c = '-' || isJsWs c) (a.drop 3))
              = ((a.drop 3).drop (countWhile (fun c => c = '_' || c = '-' || isJsWs c) (a.drop 3)))
                ++ x := by
            rw [List.drop_append_of_le_length (by omega)]
          rw [kwApiKey]
          simp only [hall3 x, show "api".data.length = 3 from rfl]
          simp only [hmx x, hdrx, hall3b x]
          rw [← h]


/-- One keyword alternative of pattern 2, stabilised. -/
theorem tryKw_lit_stable (lit : List Char) (L : Nat) (hL : lit.length = L)
    (hlit : ∀ c, c ∈ lit → toLowerChar c ≠ '[') (a z x : List Char) (n : Nat)
    (h : (Option.map (fun _ => L) (litMatchCI lit (a ++ '[' :: z))).bind
         (fun k => (assignSuffix isValueChar 12 ((a ++ '[' :: z).drop k)).map (· + k))
         = some n) :
    ((Option.map (fun _ => L) (litMatchCI lit (a ++ x))).bind
         (fun k => (assignSuffix isValueChar 12 ((a ++ x).drop k)).map (· + k))).isSome
         = true := by
  cases hl : litMatchCI lit (a ++ '[' :: z) with
  | none => rw [hl] at h; cases h
  | some r =>
    rw [hl] at h
    simp only [Option.map_some', Option.some_bind] at h
    obtain ⟨hle, hall⟩ := litMatchCI_stable lit a hlit hl
    rw [hL] at hle hall
    have hdr : (a ++ '[' :: z).drop L = a.drop L ++ '[' :: z := by
      rw [List.drop_append_of_le_length hle]
    rw [hdr] at h
    cases has : assignSuffix isValueChar 12 (a.drop L ++ '[' :: z) with
    | none => rw [has] at h; cases h
    | some m =>
      have hsome := assignSuffix_stable isValueChar 12 (by decide) (by decide)
        (a.drop L) z x m has
      rw [hall x]
      simp only [Option.map_some', Option.some_bind]
      have hdrx : (a ++ x).drop L = a.drop L ++ x := by
        rw [List.drop_append_of_le_length hle]
      rw [hdrx]
      obtain ⟨m2, hm2⟩ := Option.isSome_iff_exists.mp hsome
      rw [hm2]
      rfl

/-- Pattern 2's matcher, computed against a `[`-truncated tail, also
succeeds against any other continuation. -/
theorem matchGenericAt_stable (p : Option Char) (a z x : List Char) (n : Nat)
    (h : matchGenericAt p (a ++ '[' :: z) = some n) :
    (matchGenericAt p (a ++ x)).isSome = true := by
  rw [matchGenericAt] at h
  rw [matchGenericAt]
  rcases orElse_eq_some_elim h with h1 | h
  · -- api[_\-\s]*key
    apply isSome_orElse_left
    cases hkw : kwApiKey (a ++ '[' :: z) with
    | none => rw [hkw] at h1; cases h1
    | some k =>
      rw [hkw] at h1
      simp only [Option.some_bind] at h1
      obtain ⟨hkle, hkall⟩ := kwApiKey_stable hkw
      have hdr : (a ++ '[' :: z).drop k = a.drop k ++ '[' :: z := by
        rw [List.drop_append_of_le_length hkle]
      rw [hdr] at h1
      cases has : assignSuffix isValueChar 12 (a.drop k ++ '[' :: z) with
      | none => rw [has] at h1; cases h1
      | some m =>
        have hsome := assignSuffix_stable isValueChar 12 (by decide) (by decide)
          (a.drop k) z x m has
        rw [hkall x]
        simp only [Option.some_bind]
        have hdrx : (a ++ x).drop k = a.drop k ++ x := by
          rw [List.drop_append_of_le_length hkle]
        rw [hdrx]
        obtain ⟨m2, hm2⟩ := Option.isSome_iff_exists.mp hsome
        rw [hm2]
        rfl
  rcases orElse_eq_some_elim h with h1 | h
  · apply isSome_orElse_right
    apply isSome_orElse_left
    exact tryKw_lit_stable "secret".data 6 rfl (by decide) a z x n h1
  rcases orElse_eq_some_elim h with h1 | h
  · apply isSome_orElse_right
    apply isSome_orElse_right
    apply isSome_orElse_left
    exact tryKw_lit_stable "token".data 5 rfl (by decide) a z x n h1
  rcases orElse_eq_some_elim h with h1 | h
  · apply isSome_orElse_right
    apply isSome_orElse_right
    apply isSome_orElse_right
    apply isSome_orElse_left
    exact tryKw_lit_stable "password".data 8 rfl (by decide) a z x n h1
  rcases orElse_eq_some_elim h with h1 | h
  · apply isSome_orElse_right
    apply isSome_orElse_right
    apply isSome_orElse_right
    apply isSome_orElse_right
    apply isSome_orElse_left
    exact tryKw_lit_stable "passwd".data 6 rfl (by decide) a z x n h1
  · apply isSome_orElse_right
    apply isSome_orElse_right
    apply isSome_orElse_right
    apply isSome_orElse_right
    apply isSome_orElse_right
    exact tryKw_lit_stable "authorization".data 13 rfl (by decide) a z x n h


/-- Pattern 6's matcher, computed against a `[`-truncated tail, also
succeeds against any other continuation. -/
theorem matchAwsSecretAt_stable (p : Option Char) (a z suf : List Char) (n : Nat)
    (h : matchAwsSecretAt p (a ++ '[' :: z) = some n) :
    (matchAwsSecretAt p (a ++ suf)).isSome = true := by
  rw [matchAwsSecretAt] at h
  rw [matchAwsSecretAt]
  by_cases hb : nonWordOrStart p = true
  · rw [if_pos hb] at h
    rw [if_pos hb]
    cases hlit : litMatchCI "aws_secret_access_key".data (a ++ '[' :: z) with
    | none => rw [hlit] at h; cases h
    | some rest =>
      obtain ⟨hle, hall⟩ := litMatchCI_stable "aws_secret_access_key".data a
        (by decide) hlit
      rw [show ("aws_secret_access_key".data).length = 21 from rfl] at hle hall
      have hrest : rest = a.drop 21 ++ '[' :: z := by
        have h2 := (hall ('[' :: z)).symm.trans hlit
        injection h2 with h2
        exact h2.symm
      subst hrest
      simp only [hlit] at h
      simp only [hall suf]
      cases h21 : a.drop 21 with
      | nil =>
        exfalso
        rw [h21, List.nil_append] at h
        split at h
        · have hass : assignSuffix isAwsValChar 30 ('[' :: z) = none := by
            rw [assignSuffix, countWhile_cons_false (by decide)]
            rw [List.drop_zero]
            dsimp only
            rw [if_neg (by decide : ¬((decide ('[' = ':') || decide ('[' = '=')) = true))]
          rw [hass] at h
          cases h
        · cases h
      | cons d ds =>
        rw [h21] at h
        rw [List.cons_append] at h
        rw [List.cons_append]
        split at h
        · rename_i hcond
          rw [List.head?_cons] at hcond
          rw [if_pos (by rw [List.head?_cons]; exact hcond)]
          cases has : assignSuffix isAwsValChar 30 (d :: (ds ++ '[' :: z)) with
          | none => rw [has] at h; cases h
          | some m =>
            have has2 : assignSuffix isAwsValChar 30 ((d :: ds) ++ '[' :: z) = some m := by
              rw [List.cons_append]
              exact has
            have hsome := assignSuffix_stable isAwsValChar 30 (by decide) (by decide)
              (d :: ds) z suf m has2
            rw [List.cons_append] at hsome
            obtain ⟨m2, hm2⟩ := Option.isSome_iff_exists.mp hsome
            rw [hm2]
            rfl
        · cases h
  · rw [if_neg hb] at h
    cases h


/-- Dropping a prefix of a list does not change a nonempty tail's last
element. -/
theorem getLast_drop_ne_nil {l : List Char} {j : Nat} (h : l.drop j ≠ []) :
    (l.drop j).getLast? = l.getLast? := by
  conv_rhs => rw [← List.take_append_drop j l]
  exact (List.getLast?_append_of_ne_nil _ h).symm

/-- The last element of a list is a member. -/
theorem mem_of_getLast? {l : List Char} {q : Char} (h : l.getLast? = some q) :
    q ∈ l := by
  rw [List.getLast?_eq_getElem?] at h
  obtain ⟨hlt, hEq⟩ := List.getElem?_eq_some.mp h
  exact hEq ▸ List.getElem_mem hlt

/-- The `[A-Za-z0-9]{20,}\b` tail of patterns 4 and 7: computed against a
`[`-truncated continuation with a non-word character before the cut, it
also succeeds with the same run length against any continuation. -/
theorem alnumRun_stable (b z suf : List Char)
    (hq : ∀ q, b.getLast? = some q → isWordChar q = false)
    (hcond : (decide (20 ≤ countWhile isAlnum (b ++ '[' :: z))
        && nonWordOrEnd (((b ++ '[' :: z).drop (countWhile isAlnum (b ++ '[' :: z))).head?))
        = true) :
    (decide (20 ≤ countWhile isAlnum (b ++ suf))
        && nonWordOrEnd (((b ++ suf).drop (countWhile isAlnum (b ++ suf))).head?)) = true
      ∧ countWhile isAlnum (b ++ suf) = countWhile isAlnum (b ++ '[' :: z) := by
  by_cases hall : (b.all isAlnum) = true
  · exfalso
    have hv : countWhile isAlnum (b ++ '[' :: z) = b.length := by
      rw [countWhile_append, if_pos hall, countWhile_cons_false (by decide), Nat.add_zero]
    rw [hv] at hcond
    simp only [Bool.and_eq_true, decide_eq_true_eq] at hcond
    have hne : b ≠ [] := by
      intro hnil
      rw [hnil] at hcond
      simp at hcond
    obtain ⟨q, hql⟩ := Option.isSome_iff_exists.mp
      (by rwa [List.getLast?_isSome] : b.getLast?.isSome = true)
    have hmem := mem_of_getLast? hql
    have halnum : isAlnum q = true := by
      rw [List.all_eq_true] at hall
      exact hall q hmem
    have hword : isWordChar q = true := by
      simp only [isAlnum, isDigit, Bool.or_eq_true, Bool.and_eq_true,
        decide_eq_true_eq] at halnum
      simp only [isWordChar, Bool.or_eq_true, Bool.and_eq_true, decide_eq_true_eq]
      rcases halnum with (h1 | h2) | h3
      · exact Or.inl (Or.inr h1)
      · exact Or.inl (Or.inl (Or.inl h2))
      · exact Or.inl (Or.inl (Or.inr h3))
    rw [hq q hql] at hword
    cases hword
  · have hvu : countWhile isAlnum (b ++ '[' :: z) = countWhile isAlnum b := by
      rw [countWhile_append, if_neg hall]
    have hvw : countWhile isAlnum (b ++ suf) = countWhile isAlnum b := by
      rw [countWhile_append, if_neg hall]
    have hlt : countWhile isAlnum b < b.length :=
      countWhile_lt_of_not_all (Bool.eq_false_iff.mpr hall)
    have hdru : (b ++ '[' :: z).drop (countWhile isAlnum b)
        = b.drop (countWhile isAlnum b) ++ '[' :: z := by
      rw [List.drop_append_of_le_length (by omega)]
    have hdrw : (b ++ suf).drop (countWhile isAlnum b)
        = b.drop (countWhile isAlnum b) ++ suf := by
      rw [List.drop_append_of_le_length (by omega)]
    cases hbd : b.drop (countWhile isAlnum b) with
    | nil =>
      exfalso
      have := congrArg List.length hbd
      simp only [List.length_drop, List.length_nil] at this
      omega
    | cons e es =>
      rw [hvu, hdru, hbd] at hcond
      rw [hvw, hdrw, hbd]
      rw [List.cons_append] at hcond
      rw [List.cons_append]
      rw [List.head?_cons] at hcond
      rw [List.head?_cons]
      exact ⟨hcond, by rw [hvu]⟩

/-- Pattern 4's matcher, computed against a `[`-truncated tail preceded by
a non-word character, also succeeds against any other continuation. -/
theorem matchGhpAt_stable (p : Option Char) (a z suf : List Char) (q : Char) (n : Nat)
    (hql : a.getLast? = some q) (hqw : isWordChar q = false)
    (h : matchGhpAt p (a ++ '[' :: z) = some n) :
    (matchGhpAt p (a ++ suf)).isSome = true := by
  rw [matchGhpAt] at h
  rw [matchGhpAt]
  by_cases hb : nonWordOrStart p = true
  · rw [if_pos hb] at h
    rw [if_pos hb]
    cases hlit : litMatch "ghp_".data (a ++ '[' :: z) with
    | none => rw [hlit] at h; cases h
    | some rest =>
      obtain ⟨hle, hall⟩ := litMatch_stable (by decide) hlit
      rw [show ("ghp_".data).length = 4 from rfl] at hle hall
      have hrest : rest = a.drop 4 ++ '[' :: z := by
        have h2 := (hall ('[' :: z)).symm.trans hlit
        injection h2 with h2
        exact h2.symm
      subst hrest
      simp only [hlit] at h
      simp only [hall suf]
      have hq4 : ∀ q', (a.drop 4).getLast? = some q' → isWordChar q' = false := by
        intro q' hq'
        have hne : a.drop 4 ≠ [] := by
          intro hnil
          rw [hnil] at hq'
          cases hq'
        rw [getLast_drop_ne_nil hne, hql] at hq'
        injection hq' with hq'
        rw [← hq']
        exact hqw
      split at h
      · rename_i hcond
        obtain ⟨hcond2, -⟩ := alnumRun_stable (a.drop 4) z suf hq4 hcond
        rw [if_pos hcond2]
        rfl
      · cases h
  · rw [if_neg hb] at h
    cases h

/-- Pattern 7's matcher, computed against a `[`-truncated tail preceded by
a non-word character, also succeeds against any other continuation. -/
theorem matchSkAt_stable (p : Option Char) (a z suf : List Char) (q : Char) (n : Nat)
    (hql : a.getLast? = some q) (hqw : isWordChar q = false)
    (h : matchSkAt p (a ++ '[' :: z) = some n) :
    (matchSkAt p (a ++ suf)).isSome = true := by
  rw [matchSkAt] at h
  rw [matchSkAt]
  by_cases hb : nonWordOrStart p = true
  · rw [if_pos hb] at h
    rw [if_pos hb]
    cases hlit : litMatch "sk-".data (a ++ '[' :: z) with
    | none => rw [hlit] at h; cases h
    | some rest =>
      obtain ⟨hle, hall⟩ := litMatch_stable (by decide) hlit
      rw [show ("sk-".data).length = 3 from rfl] at hle hall
      have hrest : rest = a.drop 3 ++ '[' :: z := by
        have h2 := (hall ('[' :: z)).symm.trans hlit
        injection h2 with h2
        exact h2.symm
      subst hrest
      simp only [hlit] at h
      simp only [hall suf]
      have hq3 : ∀ q', (a.drop 3).getLast? = some q' → isWordChar q' = false := by
        intro q' hq'
        have hne : a.drop 3 ≠ [] := by
          intro hnil
          rw [hnil] at hq'
          cases hq'
        rw [getLast_drop_ne_nil hne, hql] at hq'
        injection hq' with hq'
        rw [← hq']
        exact hqw
      split at h
      · rename_i hcond
        obtain ⟨hcond2, -⟩ := alnumRun_stable (a.drop 3) z suf hq3 hcond
        rw [if_pos hcond2]
        rfl
      · cases h
  · rw [if_neg hb] at h
    cases h


/-- `runOf` over an append splits on whether the run exhausts the left
part. -/
theorem runOf_append (cls : Char → Bool) :
    ∀ (b x : List Char), runOf cls (b ++ x)
      = if b.all cls then b ++ runOf cls x else runOf cls b := by
  intro b
  induction b with
  | nil => intro x; simp [runOf]
  | cons c bs ih =>
    intro x
    by_cases hc : cls c
    · simp only [List.cons_append, runOf, List.takeWhile_cons, hc, if_true,
        List.all_cons, Bool.and_eq_true]
      have := ih x
      simp only [runOf] at this
      rw [this]
      by_cases hb : bs.all cls
      · simp [hb, hc]
      · simp [hb, hc]
    · simp [runOf, List.takeWhile_cons, hc, List.all_cons]

/-- A witness cut makes `bestCut` succeed. -/
theorem bestCut_isSome_of (min : Nat) (run : List Char) (j : Nat)
    (hle : j ≤ run.length)
    (hpred : (decide (min ≤ j) && decide (1 ≤ j) &&
      (match run.get? (j - 1) with | some c => isWordChar c | none => false) &&
      (if j = run.length then true
       else match run.get? j with | some c => !isWordChar c | none => false)) = true) :
    (bestCut min run).isSome = true := by
  rw [bestCut, List.find?_isSome]
  refine ⟨j, ?_, hpred⟩
  rw [List.mem_reverse, List.mem_range]
  omega

/-- A successful `bestCut` yields a cut within the run satisfying the
boundary conditions. -/
theorem bestCut_inv {min : Nat} {run : List Char} {j : Nat}
    (h : bestCut min run = some j) :
    j ≤ run.length ∧ (decide (min ≤ j) && decide (1 ≤ j) &&
      (match run.get? (j - 1) with | some c => isWordChar c | none => false) &&
      (if j = run.length then true
       else match run.get? j with | some c => !isWordChar c | none => false)) = true := by
  rw [bestCut] at h
  have hmem := List.mem_of_find?_eq_some h
  rw [List.mem_reverse, List.mem_range] at hmem
  have hp := List.find?_some h
  exact ⟨by omega, hp⟩

/-- Pattern 3's matcher, computed against a `[`-truncated tail preceded by
a non-word character, also succeeds against any other continuation. -/
theorem matchGoogleAt_stable (p : Option Char) (a z suf : List Char) (q : Char) (n : Nat)
    (hql : a.getLast? = some q) (hqw : isWordChar q = false)
    (h : matchGoogleAt p (a ++ '[' :: z) = some n) :
    (matchGoogleAt p (a ++ suf)).isSome = true := by
  rw [matchGoogleAt] at h
  rw [matchGoogleAt]
  by_cases hb : nonWordOrStart p = true
  · rw [if_pos hb] at h
    rw [if_pos hb]
    -- determine the prefix alternative and transfer it
    obtain ⟨k, hk, hkle, hpw⟩ :
        ∃ k, (match litMatch "AIza".data (a ++ '[' :: z) with
               | some _ => some 4
               | none => match litMatch "ya29.".data (a ++ '[' :: z) with
                 | some _ => some 5
                 | none => none) = some k ∧ k ≤ a.length ∧
             (match litMatch "AIza".data (a ++ suf) with
               | some _ => some 4
               | none => match litMatch "ya29.".data (a ++ suf) with
                 | some _ => some 5
                 | none => none) = some k := by
      cases hAI : litMatch "AIza".data (a ++ '[' :: z) with
      | some r =>
        obtain ⟨hle, hall⟩ := litMatch_stable (by decide) hAI
        refine ⟨4, rfl, by simpa using hle, ?_⟩
        rw [hall suf]
      | none =>
        cases hya : litMatch "ya29.".data (a ++ '[' :: z) with
        | some r =>
          obtain ⟨hle, hall⟩ := litMatch_stable (by decide) hya
          have htk : (a ++ suf).take 5 = "ya29.".data :=
            ((litMatch_iff _ _ _).mp (hall suf)).1
          have hAIw : litMatch "AIza".data (a ++ suf) = none := by
            cases hcs : a ++ suf with
            | nil => rw [hcs] at htk; cases htk
            | cons c cs =>
              rw [hcs] at htk
              rw [show (5 : Nat) = 4 + 1 from rfl, List.take_succ_cons] at htk
              injection htk with hc _
              rw [show "AIza".data = 'A' :: 'I' :: 'z' :: 'a' :: [] from rfl, litMatch,
                if_neg (by rw [hc]; decide)]
          refine ⟨5, rfl, by simpa using hle, ?_⟩
          rw [hAIw, hall suf]
        | none =>
          exfalso
          rw [hAI] at h
          simp only [hya] at h
          cases h
    rw [hk] at h
    rw [hpw]
    simp only [Option.some_bind] at h
    rw [Option.some_bind]
    have hdru : (a ++ '[' :: z).drop k = a.drop k ++ '[' :: z := by
      rw [List.drop_append_of_le_length hkle]
    have hdrw : (a ++ suf).drop k = a.drop k ++ suf := by
      rw [List.drop_append_of_le_length hkle]
    rw [hdru] at h
    rw [hdrw]
    cases hbc : bestCut 20 (runOf isValueChar (a.drop k ++ '[' :: z)) with
    | none => rw [hbc] at h; cases h
    | some j =>
      obtain ⟨hjle, hjpred⟩ := bestCut_inv hbc
      by_cases hall : ((a.drop k).all isValueChar) = true
      · have hrun_u : runOf isValueChar (a.drop k ++ '[' :: z) = a.drop k := by
          rw [runOf_append, if_pos hall, runOf, List.takeWhile_cons,
            if_neg (by decide : ¬(isValueChar '[' = true))]
          simp [runOf]
        rw [hrun_u] at hjle hjpred
        simp only [Bool.and_eq_true] at hjpred
        obtain ⟨⟨⟨hj20, hj1⟩, hjword⟩, hjcut⟩ := hjpred
        by_cases hjend : j = (a.drop k).length
        · exfalso
          have hne : a.drop k ≠ [] := by
            intro hnil
            rw [hnil] at hjend
            simp at hjend
            rw [hjend] at hj1
            cases hj1
          have hgl : (a.drop k).getLast? = some q := by
            rw [getLast_drop_ne_nil hne, hql]
          have hidx : (a.drop k).get? (j - 1) = some q := by
            rw [List.get?_eq_getElem?, hjend, ← List.getLast?_eq_getElem?]
            exact hgl
          simp only [hidx] at hjword
          rw [hqw] at hjword
          cases hjword
        · -- interior cut: transfer to the extended run
          have hjlt : j < (a.drop k).length := by
            simp only [decide_eq_true_eq] at hj1
            omega
          have hrun_w : runOf isValueChar (a.drop k ++ suf)
              = a.drop k ++ runOf isValueChar suf := by
            rw [runOf_append, if_pos hall]
          rw [hrun_w]
          have hbs : (bestCut 20 (a.drop k ++ runOf isValueChar suf)).isSome = true := by
            apply bestCut_isSome_of 20 _ j
            · simp only [List.length_append]
              omega
            · simp only [Bool.and_eq_true]
              refine ⟨⟨⟨hj20, hj1⟩, ?_⟩, ?_⟩
              · rw [List.get?_append (by omega)]
                exact hjword
              · rw [if_neg (by simp only [List.length_append]; omega)]
                rw [List.get?_append hjlt]
                rw [if_neg hjend] at hjcut
                exact hjcut
          obtain ⟨j2, hj2⟩ := Option.isSome_iff_exists.mp hbs
          rw [hj2]
          rfl
      · have hallf : (a.drop k).all isValueChar = false := Bool.eq_false_iff.mpr hall
        have hrun_u : runOf isValueChar (a.drop k ++ '[' :: z)
            = runOf isValueChar (a.drop k) := by
          rw [runOf_append, if_neg hall]
        have hrun_w : runOf isValueChar (a.drop k ++ suf)
            = runOf isValueChar (a.drop k) := by
          rw [runOf_append, if_neg hall]
        rw [hrun_w, ← hrun_u, hbc]
        rfl
  · rw [if_neg hb] at h
    cases h


/-- `[A-Z ]*lit`, computed against a `[`-truncated tail, also succeeds
against any other continuation. -/
theorem azThenLit_stable (lit : List Char) (hlit : ∀ c, c ∈ lit → c ≠ '[')
    (hne : lit ≠ []) :
    ∀ (b : List Char) {z : List Char} {m : Nat}, azThenLit lit (b ++ '[' :: z) = some m →
      ∀ x, (azThenLit lit (b ++ x)).isSome = true := by
  intro b
  induction b with
  | nil =>
    intro z m h x
    exfalso
    rw [List.nil_append, azThenLit] at h
    rw [if_neg (by decide : ¬((('A' ≤ '[' && '[' ≤ 'Z') || decide ('[' = ' ')) = true))] at h
    cases hl : lit with
    | nil => exact hne hl
    | cons l ls =>
      rw [hl, litMatch, if_neg (fun hc => hlit l (by rw [hl]; simp) hc.symm)] at h
      cases h
  | cons c bs ih =>
    intro z m h x
    rw [List.cons_append, azThenLit] at h
    rw [List.cons_append, azThenLit]
    by_cases hc : ((('A' ≤ c && c ≤ 'Z') || decide (c = ' ')) = true)
    · rw [if_pos hc] at h
      rw [if_pos hc]
      cases hin : azThenLit lit (bs ++ '[' :: z) with
      | some n =>
        obtain ⟨n', hn'⟩ := Option.isSome_iff_exists.mp (ih hin x)
        rw [hn']
        rfl
      | none =>
        rw [hin] at h
        cases hlm : litMatch lit (c :: (bs ++ '[' :: z)) with
        | none => rw [hlm] at h; cases h
        | some r =>
          have hlm2 : litMatch lit ((c :: bs) ++ '[' :: z) = some r := by
            rw [List.cons_append]
            exact hlm
          obtain ⟨hle, hall⟩ := litMatch_stable hlit hlm2
          cases hinx : azThenLit lit (bs ++ x) with
          | some n2 => rfl
          | none =>
            have hx := hall x
            rw [List.cons_append] at hx
            rw [hx]
            rfl
    · rw [if_neg hc] at h
      rw [if_neg hc]
      cases hlm : litMatch lit (c :: (bs ++ '[' :: z)) with
      | none => rw [hlm] at h; cases h
      | some r =>
        have hlm2 : litMatch lit ((c :: bs) ++ '[' :: z) = some r := by
          rw [List.cons_append]
          exact hlm
        obtain ⟨hle, hall⟩ := litMatch_stable hlit hlm2
        have hx := hall x
        rw [List.cons_append] at hx
        rw [hx]
        rfl


/-- The PEM END marker, computed against a `[`-truncated tail, also
succeeds against any other continuation. -/
theorem pemEndAt_stable {a z : List Char} {m : Nat}
    (h : pemEndAt (a ++ '[' :: z) = some m) :
    ∀ x, (pemEndAt (a ++ x)).isSome = true := by
  intro x
  rw [pemEndAt] at h
  rw [pemEndAt]
  cases hlm : litMatch "-----END ".data (a ++ '[' :: z) with
  | none => rw [hlm] at h; cases h
  | some rest =>
    obtain ⟨hle, hall⟩ := litMatch_stable (by decide) hlm
    have hrest : rest = a.drop ("-----END ".data).length ++ '[' :: z := by
      have h2 := (hall ('[' :: z)).symm.trans hlm
      injection h2 with h2
      exact h2.symm
    subst hrest
    simp only [hlm] at h
    cases haz : azThenLit "PRIVATE KEY-----".data
        (a.drop ("-----END ".data).length ++ '[' :: z) with
    | none => rw [haz] at h; cases h
    | some n =>
      have hsome := azThenLit_stable "PRIVATE KEY-----".data (by decide) (by decide)
        (a.drop ("-----END ".data).length) haz x
      simp only [hall x]
      obtain ⟨n2, hn2⟩ := Option.isSome_iff_exists.mp hsome
      rw [hn2]
      rfl

/-- `findPemEnd` succeeds exactly when the END marker fires somewhere. -/
theorem findPemEnd_isSome_eq :
    ∀ (cs : List Char) (p : Option Char),
      (findPemEnd cs).isSome
        = existsMatch (fun _ ds => (pemEndAt ds).isSome) p cs := by
  intro cs
  induction cs with
  | nil => intro p; rfl
  | cons c rest ih =>
    intro p
    rw [findPemEnd, existsMatch]
    cases hp : pemEndAt (c :: rest) with
    | some n => simp [hp]
    | none =>
      simp only [hp, Option.isSome_none, Bool.false_or]
      rw [← ih (some c)]
      cases findPemEnd rest <;> rfl


/-- Inversion of `[A-Z ]*lit`: a class-run depth plus a literal match. -/
theorem azThenLit_inv (lit : List Char) :
    ∀ (cs : List Char) (m : Nat), azThenLit lit cs = some m →
      ∃ j, (cs.take j).all (fun c => (('A' ≤ c && c ≤ 'Z') || decide (c = ' '))) = true ∧
        (litMatch lit (cs.drop j)).isSome = true ∧ m = j + lit.length := by
  intro cs
  induction cs with
  | nil =>
    intro m h
    rw [azThenLit] at h
    split at h
    · rename_i hemp
      injection h with h
      have hl : lit = [] := List.isEmpty_iff.mp hemp
      subst hl
      have hm : m = 0 := h.symm
      subst hm
      exact ⟨0, rfl, rfl, by simp⟩
    · cases h
  | cons c rest ih =>
    intro m h
    rw [azThenLit] at h
    by_cases hc : ((('A' ≤ c && c ≤ 'Z') || decide (c = ' ')) = true)
    · rw [if_pos hc] at h
      cases hin : azThenLit lit rest with
      | some n =>
        rw [hin] at h
        injection h with h
        obtain ⟨j, hj1, hj2, hj3⟩ := ih n hin
        refine ⟨j + 1, ?_, ?_, by omega⟩
        · rw [List.take_succ_cons, List.all_cons, hc, hj1]
          rfl
        · rw [List.drop_succ_cons]
          exact hj2
      | none =>
        rw [hin] at h
        cases hlm : litMatch lit (c :: rest) with
        | none => rw [hlm] at h; cases h
        | some r =>
          rw [hlm, Option.map_some'] at h
          injection h with h
          exact ⟨0, rfl, by rw [List.drop_zero, hlm]; rfl, by omega⟩
    · rw [if_neg hc] at h
      cases hlm : litMatch lit (c :: rest) with
      | none => rw [hlm] at h; cases h
      | some r =>
        rw [hlm, Option.map_some'] at h
        injection h with h
        exact ⟨0, rfl, by rw [List.drop_zero, hlm]; rfl, by omega⟩


/-- `[A-Z ]*lit` where `lit` opens with `t` class characters followed by a
non-class character: computed against a `[`-truncated tail it returns the
same length against any other continuation (the literal's own non-class
character blocks any deeper class-run match). -/
theorem azThenLit_trunc_exact (lit : List Char) (t : Nat)
    (hlitbr : ∀ c, c ∈ lit → c ≠ '[')
    (ht : t < lit.length)
    (htcls : ∀ s, s < t →
      (('A' ≤ lit.getD s ' ' && lit.getD s ' ' ≤ 'Z') || decide (lit.getD s ' ' = ' ')) = true)
    (htnon : (('A' ≤ lit.getD t ' ' && lit.getD t ' ' ≤ 'Z') || decide (lit.getD t ' ' = ' ')) = false) :
    ∀ (b : List Char) {z x : List Char} {n : Nat},
      azThenLit lit (b ++ '[' :: z) = some n → azThenLit lit (b ++ x) = some n := by
  intro b
  induction b with
  | nil =>
    intro z x n h
    exfalso
    rw [List.nil_append, azThenLit] at h
    rw [if_neg (by decide : ¬((('A' ≤ '[' && '[' ≤ 'Z') || decide ('[' = ' ')) = true))] at h
    cases hl : lit with
    | nil =>
      rw [hl] at ht
      simp at ht
    | cons l ls =>
      rw [hl, litMatch, if_neg (fun hc => hlitbr l (by rw [hl]; simp) hc.symm)] at h
      cases h
  | cons c bs ih =>
    intro z x n h
    rw [List.cons_append, azThenLit] at h
    rw [List.cons_append, azThenLit]
    by_cases hc : ((('A' ≤ c && c ≤ 'Z') || decide (c = ' ')) = true)
    · rw [if_pos hc] at h
      rw [if_pos hc]
      cases hin : azThenLit lit (bs ++ '[' :: z) with
      | some n' =>
        rw [hin] at h
        rw [ih hin]
        exact h
      | none =>
        rw [hin] at h
        cases hlm : litMatch lit (c :: (bs ++ '[' :: z)) with
        | none => rw [hlm] at h; cases h
        | some r =>
          rw [hlm, Option.map_some'] at h
          have hlm2 : litMatch lit ((c :: bs) ++ '[' :: z) = some r := by
            rw [List.cons_append]
            exact hlm
          obtain ⟨hle, hall⟩ := litMatch_stable hlitbr hlm2
          obtain ⟨htake, -⟩ := (litMatch_iff _ _ _).mp hlm
          have hlen : lit.length ≤ 1 + bs.length := by
            simpa [Nat.add_comm] using hle
          -- the literal's char at index `t`
          have htch : (c :: (bs ++ '[' :: z))[t]? = some (lit.getD t ' ') := by
            have h1 := congrArg (fun l => l[t]?) htake
            simp only at h1
            rw [List.getElem?_take, if_pos ht] at h1
            rw [h1, List.getElem?_eq_getElem ht]
            rw [List.getD_eq_getElem?_getD, List.getElem?_eq_getElem ht]
            rfl
          -- `t ≥ 1` since `c` is a class character but `lit[t]` is not
          have ht1 : 1 ≤ t := by
            by_contra hcon
            have ht0 : t = 0 := by omega
            subst ht0
            rw [List.getElem?_cons_zero] at htch
            injection htch with htch
            rw [← htch] at htnon
            rw [hc] at htnon
            cases htnon
          have htlt : t - 1 < bs.length := by omega
          have h4 : (c :: (bs ++ '[' :: z))[t]? = (bs ++ '[' :: z)[t - 1]? := by
            conv_lhs => rw [show t = (t - 1) + 1 by omega]
            rw [List.getElem?_cons_succ]
          have h5 : (bs ++ '[' :: z)[t - 1]? = bs[t - 1]? :=
            List.getElem?_append_left htlt
          have hbst : bs[t - 1]? = some (lit.getD t ' ') := by
            rw [← h5, ← h4]
            exact htch
          have hblock : azThenLit lit (bs ++ x) = none := by
            cases hbx : azThenLit lit (bs ++ x) with
            | none => rfl
            | some mm =>
              exfalso
              obtain ⟨j, hj1, hj2, -⟩ := azThenLit_inv lit _ _ hbx
              have hbxt : (bs ++ x)[t - 1]? = some (lit.getD t ' ') := by
                rw [List.getElem?_append_left htlt]
                exact hbst
              by_cases hjt : t - 1 < j
              · -- the class run would contain the non-class character
                have hmem : lit.getD t ' ' ∈ (bs ++ x).take j := by
                  have : ((bs ++ x).take j)[t - 1]? = some (lit.getD t ' ') := by
                    rw [List.getElem?_take, if_pos hjt]
                    exact hbxt
                  obtain ⟨hlt2, hEq⟩ := List.getElem?_eq_some.mp this
                  exact hEq ▸ List.getElem_mem hlt2
                rw [List.all_eq_true] at hj1
                have := hj1 _ hmem
                rw [htnon] at this
                cases this
              · -- the literal at depth `j` would need a class character there
                obtain ⟨r2, hr2⟩ := Option.isSome_iff_exists.mp hj2
                obtain ⟨htake2, -⟩ := (litMatch_iff _ _ _).mp hr2
                have hidx : t - 1 - j < lit.length := by omega
                have h2 := congrArg (fun l => l[t - 1 - j]?) htake2
                simp only at h2
                rw [List.getElem?_take, if_pos hidx, List.getElem?_drop] at h2
                rw [show j + (t - 1 - j) = t - 1 by omega] at h2
                rw [hbxt] at h2
                have hcls2 := htcls (t - 1 - j) (by omega)
                have hchar : lit.getD (t - 1 - j) ' ' = lit.getD t ' ' := by
                  rw [List.getD_eq_getElem?_getD, ← h2]
                  rfl
                rw [hchar, htnon] at hcls2
                cases hcls2
          rw [hblock]
          have hx := hall x
          rw [List.cons_append] at hx
          rw [hx, Option.map_some']
          exact h
    · rw [if_neg hc] at h
      rw [if_neg hc]
      cases hlm : litMatch lit (c :: (bs ++ '[' :: z)) with
      | none => rw [hlm] at h; cases h
      | some r =>
        rw [hlm, Option.map_some'] at h
        have hlm2 : litMatch lit ((c :: bs) ++ '[' :: z) = some r := by
          rw [List.cons_append]
          exact hlm
        obtain ⟨hle, hall⟩ := litMatch_stable hlitbr hlm2
        have hx := hall x
        rw [List.cons_append] at hx
        rw [hx, Option.map_some']
        exact h


/-- A `[A-Z ]*lit` match against a `[`-truncated tail stays inside the
untruncated part. -/
theorem azThenLit_trunc_le (lit : List Char) (hlitbr : ∀ c, c ∈ lit → c ≠ '[')
    {b z : List Char} {n : Nat} (h : azThenLit lit (b ++ '[' :: z) = some n) :
    n ≤ b.length := by
  obtain ⟨j, hj1, hj2, hj3⟩ := azThenLit_inv lit _ _ h
  by_cases hjb : j ≤ b.length
  · have hdr : (b ++ '[' :: z).drop j = b.drop j ++ '[' :: z := by
      rw [List.drop_append_of_le_length hjb]
    rw [hdr] at hj2
    obtain ⟨r, hr⟩ := Option.isSome_iff_exists.mp hj2
    obtain ⟨hle, -⟩ := litMatch_stable hlitbr hr
    simp only [List.length_drop] at hle
    omega
  · exfalso
    have hbr : ((b ++ '[' :: z).take j)[b.length]? = some '[' := by
      rw [List.getElem?_take, if_pos (by omega),
        List.getElem?_append_right (Nat.le_refl _)]
      simp
    obtain ⟨hlt2, hEq⟩ := List.getElem?_eq_some.mp hbr
    have hmem := hEq ▸ List.getElem_mem hlt2
    rw [List.all_eq_true] at hj1
    have h9 := hj1 _ hmem
    exact absurd h9 (by decide)

/-- The END marker needs a leading dash. -/
theorem pemEndAt_cons_ne {c : Char} (hc : ¬(c = '-')) (w : List Char) :
    pemEndAt (c :: w) = none := by
  rw [pemEndAt, show "-----END ".data
      = '-' :: '-' :: '-' :: '-' :: '-' :: 'E' :: 'N' :: 'D' :: ' ' :: [] from rfl,
    litMatch, if_neg hc]

/-- The BEGIN marker needs a leading dash. -/
theorem matchPemAt_cons_ne {c : Char} (hc : ¬(c = '-')) (p : Option Char) (w : List Char) :
    matchPemAt p (c :: w) = none := by
  rw [matchPemAt, show "-----BEGIN ".data
      = '-' :: '-' :: '-' :: '-' :: '-' :: 'B' :: 'E' :: 'G' :: 'I' :: 'N' :: ' ' :: [] from rfl,
    litMatch, if_neg hc]

/-- Splitting a context-insensitive search over an append. -/
theorem existsMatch_append_elim (f : Option Char → List Char → Bool)
    (hpi : ∀ p p' cs, f p cs = f p' cs) :
    ∀ (A B : List Char) (p : Option Char), existsMatch f p (A ++ B) = true →
      (∃ i, i < A.length ∧ f none (A.drop i ++ B) = true) ∨
        existsMatch f none B = true := by
  intro A
  induction A with
  | nil =>
    intro B p h
    right
    rw [List.nil_append] at h
    rw [existsMatch_pi f hpi B p none] at h
    exact h
  | cons a as ih =>
    intro B p h
    rw [List.cons_append, existsMatch] at h
    rcases Bool.or_eq_true_iff.mp h with h1 | h2
    · left
      refine ⟨0, by simp, ?_⟩
      rw [List.drop_zero, List.cons_append, hpi none p]
      exact h1
    · rcases ih B (some a) h2 with ⟨i, hi, hf⟩ | hr
      · exact Or.inl ⟨i + 1, by simpa using Nat.succ_lt_succ hi, by simpa using hf⟩
      · exact Or.inr hr

/-- A hit inside the left part lifts over the append. -/
theorem existsMatch_append_intro_left (f : Option Char → List Char → Bool)
    (hpi : ∀ p p' cs, f p cs = f p' cs) :
    ∀ (A B : List Char) (p : Option Char) (i : Nat), i < A.length →
      f none (A.drop i ++ B) = true → existsMatch f p (A ++ B) = true := by
  intro A
  induction A with
  | nil => intro B p i hi; simp at hi
  | cons a as ih =>
    intro B p i hi hf
    rw [List.cons_append, existsMatch]
    cases i with
    | zero =>
      rw [List.drop_zero, List.cons_append] at hf
      rw [hpi p none, hf]
      simp
    | succ i =>
      rw [List.drop_succ_cons] at hf
      rw [ih B (some a) i (by simpa using hi) hf]
      simp

/-- A hit in the right part lifts over the append. -/
theorem existsMatch_append_intro_right (f : Option Char → List Char → Bool)
    (hpi : ∀ p p' cs, f p cs = f p' cs) :
    ∀ (A B : List Char) (p : Option Char),
      existsMatch f none B = true → existsMatch f p (A ++ B) = true := by
  intro A
  induction A with
  | nil =>
    intro B p h
    rw [List.nil_append, existsMatch_pi f hpi B p none]
    exact h
  | cons a as ih =>
    intro B p h
    rw [List.cons_append, existsMatch, ih B (some a) h]
    simp

/-- The END-marker search crosses the placeholder. -/
theorem footTok_placeholder (p : Option Char) (z : List Char) :
    existsMatch (fun _ ds => (pemEndAt ds).isSome) p (PLACEHOLDER ++ z)
      = existsMatch (fun _ ds => (pemEndAt ds).isSome) (some ']') z := by
  refine existsMatch_placeholder (fun _ ds => (pemEndAt ds).isSome)
    ?_ ?_ ?_ ?_ ?_ ?_ ?_ ?_ ?_ ?_ p z <;>
    (intro p' z'
     show (pemEndAt _).isSome = false
     rw [pemEndAt_cons_ne (by decide)]
     rfl)

/-- Any scan preserves absence of the PEM END marker. -/
theorem repGo_preserves_footfree
    (m : Option Char → List Char → Option Nat)
    (hn : ∀ p cs k, m p cs = some k → 1 ≤ k) :
    ∀ (N : Nat) (cs : List Char), cs.length ≤ N → ∀ (p : Option Char),
      existsMatch (fun _ ds => (pemEndAt ds).isSome) p cs = false →
      existsMatch (fun _ ds => (pemEndAt ds).isSome) p (repGo m p 0 cs) = false := by
  refine repGo_preserves_generic (fun _ ds => (pemEndAt ds).isSome) m hn ?_ ?_ ?_
  · exact footTok_placeholder
  · intro p c rest _ hno
    refine head_transfer_mono (fun _ ds => (pemEndAt ds).isSome) ?_ m hn c rest p hno
    intro p' a z' suf htok
    obtain ⟨v, hv⟩ := Option.isSome_iff_exists.mp htok
    exact pemEndAt_stable hv suf
  · exact hend_of_previndep (fun _ ds => (pemEndAt ds).isSome)
      (fun _ _ _ => rfl) (fun _ => rfl) m


/-- Structure of a PEM match against a `[`-truncated tail: the header fits
inside the untruncated part with a stable length, and the END search fires
on the remainder. -/
theorem matchPemAt_trunc_struct {p : Option Char} {a z : List Char} {n : Nat}
    (h : matchPemAt p (a ++ '[' :: z) = some n) :
    ∃ n₁, 11 + n₁ ≤ a.length ∧
      (∀ x, litMatch "-----BEGIN ".data (a ++ x) = some (a.drop 11 ++ x)) ∧
      (∀ x, azThenLit "PRIVATE KEY-----".data (a.drop 11 ++ x) = some n₁) ∧
      (findPemEnd ((a ++ '[' :: z).drop (11 + n₁))).isSome = true := by
  rw [matchPemAt] at h
  cases hlit : litMatch "-----BEGIN ".data (a ++ '[' :: z) with
  | none => rw [hlit] at h; cases h
  | some rest1 =>
    obtain ⟨hle, hall⟩ := litMatch_stable (by decide) hlit
    rw [show ("-----BEGIN ".data).length = 11 from rfl] at hle hall
    have hrest : rest1 = a.drop 11 ++ '[' :: z := by
      have h2 := (hall ('[' :: z)).symm.trans hlit
      injection h2 with h2
      exact h2.symm
    subst hrest
    simp only [hlit] at h
    cases haz : azThenLit "PRIVATE KEY-----".data (a.drop 11 ++ '[' :: z) with
    | none => rw [haz] at h; cases h
    | some n₁ =>
      simp only [haz] at h
      have hexact : ∀ x, azThenLit "PRIVATE KEY-----".data (a.drop 11 ++ x) = some n₁ := by
        intro x
        exact azThenLit_trunc_exact "PRIVATE KEY-----".data 11 (by decide) (by decide)
          (by decide) (by decide) (a.drop 11) haz
      have hb : n₁ ≤ (a.drop 11).length :=
        azThenLit_trunc_le "PRIVATE KEY-----".data (by decide) haz
      simp only [List.length_drop] at hb
      refine ⟨n₁, by omega, hall, hexact, ?_⟩
      rw [show "-----BEGIN ".length = 11 from rfl] at h
      cases hfp : findPemEnd ((a ++ '[' :: z).drop (11 + n₁)) with
      | none =>
        rw [hfp] at h
        cases h
      | some n₂ => rfl

/-- Introduction rule for a PEM match from its components. -/
theorem matchPemAt_intro_parts (p : Option Char) (cs : List Char) (n₁ : Nat)
    (hlit : litMatch "-----BEGIN ".data cs = some (cs.drop 11))
    (haz : azThenLit "PRIVATE KEY-----".data (cs.drop 11) = some n₁)
    (hfp : (findPemEnd (cs.drop (11 + n₁))).isSome = true) :
    (matchPemAt p cs).isSome = true := by
  rw [matchPemAt]
  simp only [hlit, haz]
  rw [show "-----BEGIN ".length = 11 from rfl]
  obtain ⟨n₂, hn₂⟩ := Option.isSome_iff_exists.mp hfp
  rw [hn₂]
  rfl

/-- A failed PEM match at the head of the input cannot become one at the
head of the scanned output. -/
theorem matchPemAt_head_transfer
    (m : Option Char → List Char → Option Nat)
    (hn : ∀ p cs k, m p cs = some k → 1 ≤ k)
    (c : Char) (rest : List Char) (p : Option Char)
    (hno : (matchPemAt p (c :: rest)).isSome = false) :
    (matchPemAt p (c :: repGo m (some c) 0 rest)).isSome = false := by
  rcases repGo_divergence m hn rest (some c) with hl | ⟨pre, suf, k, hsplit, hm, hout⟩
  · rw [hl]
    exact hno
  · by_contra hcon
    have htok : (matchPemAt p (c :: repGo m (some c) 0 rest)).isSome = true :=
      Bool.eq_true_of_ne_false hcon
    obtain ⟨tt, ht⟩ := Option.isSome_iff_exists.mp htok
    rw [hout] at ht
    have hshape : c :: (pre ++ PLACEHOLDER ++ repGo m (some ']') 0 (suf.drop k))
        = (c :: pre) ++ '[' :: ('R' :: 'E' :: 'D' :: 'A' :: 'C' :: 'T' :: 'E' :: 'D'
            :: ']' :: repGo m (some ']') 0 (suf.drop k)) := by
      simp [PLACEHOLDER]
    rw [hshape] at ht
    obtain ⟨n₁, hlen, hall, hexact, hfp⟩ := matchPemAt_trunc_struct ht
    -- transfer the END search to the untruncated continuation
    have hdru : ((c :: pre) ++ '[' :: ('R' :: 'E' :: 'D' :: 'A' :: 'C' :: 'T' :: 'E' :: 'D'
            :: ']' :: repGo m (some ']') 0 (suf.drop k))).drop (11 + n₁)
        = (c :: pre).drop (11 + n₁)
          ++ (PLACEHOLDER ++ repGo m (some ']') 0 (suf.drop k)) := by
      rw [List.drop_append_of_le_length hlen]
      rfl
    rw [hdru] at hfp
    rw [findPemEnd_isSome_eq _ none] at hfp
    have hfoot : existsMatch (fun _ ds => (pemEndAt ds).isSome) none
        ((c :: pre).drop (11 + n₁) ++ suf) = true := by
      rcases existsMatch_append_elim (fun _ ds => (pemEndAt ds).isSome)
          (fun _ _ _ => rfl) _ _ none hfp with ⟨i, hi, hf⟩ | hr
      · -- END marker inside the copied region
        have hf2 : (pemEndAt (((c :: pre).drop (11 + n₁)).drop i
            ++ '[' :: ('R' :: 'E' :: 'D' :: 'A' :: 'C' :: 'T' :: 'E' :: 'D'
              :: ']' :: repGo m (some ']') 0 (suf.drop k)))).isSome = true := hf
        obtain ⟨v, hv⟩ := Option.isSome_iff_exists.mp hf2
        have hf3 := pemEndAt_stable hv suf
        exact existsMatch_append_intro_left (fun _ ds => (pemEndAt ds).isSome)
          (fun _ _ _ => rfl) _ suf none i hi hf3
      · -- END marker beyond the placeholder: transfer through the tail scan
        rw [footTok_placeholder] at hr
        have hsk : existsMatch (fun _ ds => (pemEndAt ds).isSome) (some ']')
            (suf.drop k) = true := by
          by_contra h2
          have h3 : existsMatch (fun _ ds => (pemEndAt ds).isSome) (some ']')
              (suf.drop k) = false := by simpa using h2
          have h4 := repGo_preserves_footfree m hn (suf.drop k).length _ le_rfl
            (some ']') h3
          rw [h4] at hr
          cases hr
        have hsuf : existsMatch (fun _ ds => (pemEndAt ds).isSome) none suf = true := by
          by_contra h2
          have h3 : existsMatch (fun _ ds => (pemEndAt ds).isSome) none suf = false := by
            simpa using h2
          have h4 := existsMatch_false_drop (fun _ ds => (pemEndAt ds).isSome)
            (fun _ _ _ => rfl) suf none h3 k (some ']')
          rw [h4] at hsk
          cases hsk
        exact existsMatch_append_intro_right (fun _ ds => (pemEndAt ds).isSome)
          (fun _ _ _ => rfl) _ suf none hsuf
    -- rebuild the match on the input
    have hw : (matchPemAt p (c :: rest)).isSome = true := by
      have hcr : c :: rest = (c :: pre) ++ suf := by
        rw [hsplit]
        rfl
      rw [hcr]
      refine matchPemAt_intro_parts p _ n₁ ?_ ?_ ?_
      · rw [List.drop_append_of_le_length (show (11 : Nat) ≤ (c :: pre).length by
          simp only [List.length_cons] at hlen ⊢; omega)]
        exact hall suf
      · rw [List.drop_append_of_le_length (show (11 : Nat) ≤ (c :: pre).length by
          simp only [List.length_cons] at hlen ⊢; omega)]
        exact hexact suf
      · rw [List.drop_append_of_le_length hlen]
        rw [findPemEnd_isSome_eq _ none]
        exact hfoot
    rw [hw] at hno
    cases hno


/-- The assignment suffix consumes at least the delimiter. -/
theorem assignSuffix_pos {cls : Char → Bool} {min : Nat} {cs : List Char} {n : Nat}
    (h : assignSuffix cls min cs = some n) : 1 ≤ n := by
  rw [assignSuffix] at h
  cases hcr : cs.drop (countWhile isJsWs cs) with
  | nil =>
    rw [hcr] at h
    cases h
  | cons c rest =>
    simp only [hcr] at h
    split at h
    · split at h
      · cases h
      · injection h with h
        omega
    · cases h

/-- One keyword alternative of pattern 2 fires with positive length. -/
theorem tryKw_lit_pos {lit : List Char} {L : Nat} {cs : List Char} {k : Nat}
    (h : (Option.map (fun _ => L) (litMatchCI lit cs)).bind
         (fun j => (assignSuffix isValueChar 12 (cs.drop j)).map (· + j)) = some k) :
    1 ≤ k := by
  cases hlm : litMatchCI lit cs with
  | none => rw [hlm] at h; cases h
  | some r =>
    rw [hlm, Option.map_some', Option.some_bind] at h
    cases has : assignSuffix isValueChar 12 (cs.drop L) with
    | none => rw [has] at h; cases h
    | some m =>
      rw [has, Option.map_some'] at h
      injection h with h
      have := assignSuffix_pos has
      omega

/-- Pattern 2's matcher fires with positive length. -/
theorem matchGenericAt_pos : ∀ (p : Option Char) (cs : List Char) (k : Nat),
    matchGenericAt p cs = some k → 1 ≤ k := by
  intro p cs k h
  rw [matchGenericAt] at h
  rcases orElse_eq_some_elim h with h1 | h
  · cases hkw : kwApiKey cs with
    | none => rw [hkw] at h1; cases h1
    | some kk =>
      rw [hkw] at h1
      simp only [Option.some_bind] at h1
      cases has : assignSuffix isValueChar 12 (cs.drop kk) with
      | none => rw [has] at h1; cases h1
      | some mm =>
        rw [has, Option.map_some'] at h1
        injection h1 with h1
        have := assignSuffix_pos has
        omega
  rcases orElse_eq_some_elim h with h1 | h
  · exact tryKw_lit_pos h1
  rcases orElse_eq_some_elim h with h1 | h
  · exact tryKw_lit_pos h1
  rcases orElse_eq_some_elim h with h1 | h
  · exact tryKw_lit_pos h1
  rcases orElse_eq_some_elim h with h1 | h
  · exact tryKw_lit_pos h1
  · exact tryKw_lit_pos h

/-- Pattern 3's matcher fires with positive length. -/
theorem matchGoogleAt_pos : ∀ (p : Option Char) (cs : List Char) (k : Nat),
    matchGoogleAt p cs = some k → 1 ≤ k := by
  intro p cs k h
  rw [matchGoogleAt] at h
  by_cases hb : nonWordOrStart p = true
  · rw [if_pos hb] at h
    cases hAI : litMatch "AIza".data cs with
    | some r =>
      simp only [hAI, Option.some_bind] at h
      cases hbc : bestCut 20 (runOf isValueChar (cs.drop 4)) with
      | none => rw [hbc] at h; cases h
      | some j =>
        rw [hbc, Option.map_some'] at h
        injection h with h
        omega
    | none =>
      cases hya : litMatch "ya29.".data cs with
      | some r =>
        simp only [hAI, hya, Option.some_bind] at h
        cases hbc : bestCut 20 (runOf isValueChar (cs.drop 5)) with
        | none => rw [hbc] at h; cases h
        | some j =>
          rw [hbc, Option.map_some'] at h
          injection h with h
          omega
      | none =>
        simp only [hAI, hya] at h
        cases h
  · rw [if_neg hb] at h
    cases h

/-- Pattern 4's matcher fires with positive length. -/
theorem matchGhpAt_pos : ∀ (p : Option Char) (cs : List Char) (k : Nat),
    matchGhpAt p cs = some k → 1 ≤ k := by
  intro p cs k h
  rw [matchGhpAt] at h
  by_cases hb : nonWordOrStart p = true
  · rw [if_pos hb] at h
    cases hlit : litMatch "ghp_".data cs with
    | none => rw [hlit] at h; cases h
    | some rest =>
      simp only [hlit] at h
      split at h
      · injection h with h
        omega
      · cases h
  · rw [if_neg hb] at h
    cases h

/-- Pattern 1's matcher fires with positive length. -/
theorem matchPemAt_pos : ∀ (p : Option Char) (cs : List Char) (k : Nat),
    matchPemAt p cs = some k → 1 ≤ k := by
  intro p cs k h
  rw [matchPemAt] at h
  cases hlit : litMatch "-----BEGIN ".data cs with
  | none => rw [hlit] at h; cases h
  | some rest =>
    simp only [hlit] at h
    cases haz : azThenLit "PRIVATE KEY-----".data rest with
    | none => rw [haz] at h; cases h
    | some n₁ =>
      simp only [haz] at h
      cases hfp : findPemEnd (cs.drop ("-----BEGIN ".length + n₁)) with
      | none => rw [hfp] at h; cases h
      | some n₂ =>
        rw [hfp, Option.map_some'] at h
        injection h with h
        rw [show "-----BEGIN ".length = 11 from rfl] at h
        omega

/-- Pattern 3's matcher requires a leading word boundary. -/
theorem matchGoogleAt_bnd : ∀ (p : Option Char) (cs : List Char) (k : Nat),
    matchGoogleAt p cs = some k → nonWordOrStart p = true := by
  intro p cs k h
  rw [matchGoogleAt] at h
  by_cases hb : nonWordOrStart p = true
  · exact hb
  · rw [if_neg hb] at h
    cases h

/-- Pattern 4's matcher requires a leading word boundary. -/
theorem matchGhpAt_bnd : ∀ (p : Option Char) (cs : List Char) (k : Nat),
    matchGhpAt p cs = some k → nonWordOrStart p = true := by
  intro p cs k h
  rw [matchGhpAt] at h
  by_cases hb : nonWordOrStart p = true
  · exact hb
  · rw [if_neg hb] at h
    cases h

/-- Pattern 4's matcher ends at a trailing word boundary. -/
theorem matchGhpAt_end {p : Option Char} {cs : List Char} {k : Nat}
    (h : matchGhpAt p cs = some k) :
    nonWordOrEnd ((cs.drop k).head?) = true := by
  rw [matchGhpAt] at h
  by_cases hb : nonWordOrStart p = true
  · rw [if_pos hb] at h
    cases hlit : litMatch "ghp_".data cs with
    | none => rw [hlit] at h; cases h
    | some rest =>
      obtain ⟨-, hrest⟩ := (litMatch_iff _ _ _).mp hlit
      subst hrest
      simp only [hlit] at h
      split at h
      · rename_i hc
        injection h with h
        simp only [Bool.and_eq_true, decide_eq_true_eq] at hc
        have hdd : ((cs.drop "ghp_".data.length).drop
            (countWhile isAlnum (cs.drop "ghp_".data.length)))
            = cs.drop k := by
          rw [List.drop_drop, ← h]
          congr 1
        rw [hdd] at hc
        exact hc.2
      · cases h
  · rw [if_neg hb] at h
    cases h

/-- Pattern 5's matcher ends at a trailing word boundary. -/
theorem matchAwsKeyAt_end {p : Option Char} {cs : List Char} {k : Nat}
    (h : matchAwsKeyAt p cs = some k) :
    nonWordOrEnd ((cs.drop k).head?) = true := by
  obtain ⟨hk, -, -, -, -, hend⟩ := matchAwsKeyAt_inv h
  subst hk
  exact hend

/-- Pattern 3 cannot start before a non-word character. -/
theorem matchGoogleAt_headword : ∀ (p : Option Char) (cs : List Char),
    nonWordOrEnd cs.head? = true → (matchGoogleAt p cs).isSome = false := by
  intro p cs hh
  cases hmg : matchGoogleAt p cs with
  | none => rfl
  | some k =>
    exfalso
    rw [matchGoogleAt] at hmg
    by_cases hb : nonWordOrStart p = true
    · rw [if_pos hb] at hmg
      cases hAI : litMatch "AIza".data cs with
      | some r =>
        obtain ⟨htk, -⟩ := (litMatch_iff _ _ _).mp hAI
        have h0 : cs.head? = some 'A' := by
          cases cs with
          | nil => cases htk
          | cons c w =>
            rw [show ("AIza".data).length = 4 from rfl, List.take_succ_cons] at htk
            injection htk with h1 _
            rw [List.head?_cons, h1]
        rw [h0] at hh
        cases hh
      | none =>
        cases hya : litMatch "ya29.".data cs with
        | some r =>
          obtain ⟨htk, -⟩ := (litMatch_iff _ _ _).mp hya
          have h0 : cs.head? = some 'y' := by
            cases cs with
            | nil => cases htk
            | cons c w =>
              rw [show ("ya29.".data).length = 5 from rfl, List.take_succ_cons] at htk
              injection htk with h1 _
              rw [List.head?_cons, h1]
          rw [h0] at hh
          cases hh
        | none =>
          simp only [hAI, hya] at hmg
          cases hmg
    · rw [if_neg hb] at hmg
      cases hmg

/-- Pattern 4 cannot start before a non-word character. -/
theorem matchGhpAt_headword : ∀ (p : Option Char) (cs : List Char),
    nonWordOrEnd cs.head? = true → (matchGhpAt p cs).isSome = false := by
  intro p cs hh
  cases hmg : matchGhpAt p cs with
  | none => rfl
  | some k =>
    exfalso
    rw [matchGhpAt] at hmg
    by_cases hb : nonWordOrStart p = true
    · rw [if_pos hb] at hmg
      cases hlit : litMatch "ghp_".data cs with
      | none => rw [hlit] at hmg; cases hmg
      | some rest =>
        obtain ⟨htk, -⟩ := (litMatch_iff _ _ _).mp hlit
        have h0 : cs.head? = some 'g' := by
          cases cs with
          | nil => cases htk
          | cons c w =>
            rw [show ("ghp_".data).length = 4 from rfl, List.take_succ_cons] at htk
            injection htk with h1 _
            rw [List.head?_cons, h1]
        rw [h0] at hh
        cases hh
    · rw [if_neg hb] at hmg
      cases hmg

/-- Pattern 6 cannot start before a non-word character. -/
theorem matchAwsSecretAt_headword : ∀ (p : Option Char) (cs : List Char),
    nonWordOrEnd cs.head? = true → (matchAwsSecretAt p cs).isSome = false := by
  intro p cs hh
  cases hmg : matchAwsSecretAt p cs with
  | none => rfl
  | some k =>
    exfalso
    rw [matchAwsSecretAt] at hmg
    by_cases hb : nonWordOrStart p = true
    · rw [if_pos hb] at hmg
      cases hlit : litMatchCI "aws_secret_access_key".data cs with
      | none => rw [hlit] at hmg; cases hmg
      | some rest =>
        cases cs with
        | nil => cases hlit
        | cons c w =>
          rw [show "aws_secret_access_key".data
              = 'a' :: "ws_secret_access_key".data from rfl, litMatchCI] at hlit
          by_cases hc : toLowerChar c = toLowerChar 'a'
          · have hcw : isWordChar c = true :=
              isWordChar_of_toLower hc (by decide)
            rw [List.head?_cons, nonWordOrEnd, hcw] at hh
            cases hh
          · rw [if_neg hc] at hlit
            cases hlit
    · rw [if_neg hb] at hmg
      cases hmg

/-- Pattern 7 cannot start before a non-word character. -/
theorem matchSkAt_headword : ∀ (p : Option Char) (cs : List Char),
    nonWordOrEnd cs.head? = true → (matchSkAt p cs).isSome = false := by
  intro p cs hh
  cases hmg : matchSkAt p cs with
  | none => rfl
  | some k =>
    exfalso
    rw [matchSkAt] at hmg
    by_cases hb : nonWordOrStart p = true
    · rw [if_pos hb] at hmg
      cases hlit : litMatch "sk-".data cs with
      | none => rw [hlit] at hmg; cases hmg
      | some rest =>
        obtain ⟨htk, -⟩ := (litMatch_iff _ _ _).mp hlit
        have h0 : cs.head? = some 's' := by
          cases cs with
          | nil => cases htk
          | cons c w =>
            rw [show ("sk-".data).length = 3 from rfl, List.take_succ_cons] at htk
            injection htk with h1 _
            rw [List.head?_cons, h1]
        rw [h0] at hh
        cases hh
    · rw [if_neg hb] at hmg
      cases hmg


/-- Case-insensitive literal mismatch at the first character. -/
theorem litMatchCI_cons_ne {c l : Char} (h : ¬(toLowerChar c = toLowerChar l))
    (ls w : List Char) : litMatchCI (l :: ls) (c :: w) = none := by
  rw [litMatchCI, if_neg h]

/-- Pattern 4 needs a leading `g`. -/
theorem matchGhpAt_cons_ne {c : Char} (hg : ¬(c = 'g')) (p : Option Char)
    (w : List Char) : matchGhpAt p (c :: w) = none := by
  rw [matchGhpAt]
  split
  · rw [show "ghp_".data = 'g' :: 'h' :: 'p' :: '_' :: [] from rfl, litMatch, if_neg hg]
  · rfl

/-- Pattern 7 needs a leading `s`. -/
theorem matchSkAt_cons_ne {c : Char} (hs : ¬(c = 's')) (p : Option Char)
    (w : List Char) : matchSkAt p (c :: w) = none := by
  rw [matchSkAt]
  split
  · rw [show "sk-".data = 's' :: 'k' :: '-' :: [] from rfl, litMatch, if_neg hs]
  · rfl

/-- Pattern 3 needs a leading `A` or `y`. -/
theorem matchGoogleAt_cons_ne {c : Char} (hA : ¬(c = 'A')) (hy : ¬(c = 'y'))
    (p : Option Char) (w : List Char) : matchGoogleAt p (c :: w) = none := by
  rw [matchGoogleAt]
  split
  · rw [show "AIza".data = 'A' :: 'I' :: 'z' :: 'a' :: [] from rfl, litMatch, if_neg hA,
      show "ya29.".data = 'y' :: 'a' :: '2' :: '9' :: '.' :: [] from rfl, litMatch,
      if_neg hy]
    rfl
  · rfl

/-- Pattern 6 needs a leading `a` (case-insensitively). -/
theorem matchAwsSecretAt_cons_ne {c : Char} (ha : ¬(toLowerChar c = 'a'))
    (p : Option Char) (w : List Char) : matchAwsSecretAt p (c :: w) = none := by
  rw [matchAwsSecretAt]
  split
  · rw [show "aws_secret_access_key".data
        = 'a' :: "ws_secret_access_key".data from rfl, litMatchCI,
      if_neg (by rw [show toLowerChar 'a' = 'a' from rfl]; exact ha)]
  · rfl

/-- `api[_\-\s]*key` needs a leading `a` (case-insensitively). -/
theorem kwApiKey_none {cs : List Char} (h : litMatchCI "api".data cs = none) :
    kwApiKey cs = none := by
  rw [kwApiKey, h]

/-- Pattern 2 fails when every keyword fails. -/
theorem matchGenericAt_none_of (p : Option Char) (cs : List Char)
    (h1 : kwApiKey cs = none)
    (h2 : litMatchCI "secret".data cs = none)
    (h3 : litMatchCI "token".data cs = none)
    (h4 : litMatchCI "password".data cs = none)
    (h5 : litMatchCI "passwd".data cs = none)
    (h6 : litMatchCI "authorization".data cs = none) :
    matchGenericAt p cs = none := by
  rw [matchGenericAt, h1, h2, h3, h4, h5, h6]
  rfl

/-- Pattern 2 needs a leading `a`, `s`, `t` or `p` (case-insensitively). -/
theorem matchGenericAt_cons_ne {c : Char}
    (ha : ¬(toLowerChar c = 'a')) (hs : ¬(toLowerChar c = 's'))
    (ht : ¬(toLowerChar c = 't')) (hp : ¬(toLowerChar c = 'p'))
    (p : Option Char) (w : List Char) : matchGenericAt p (c :: w) = none := by
  refine matchGenericAt_none_of p _ (kwApiKey_none ?_) ?_ ?_ ?_ ?_ ?_
  · exact litMatchCI_cons_ne (by rw [show toLowerChar 'a' = 'a' from rfl]; exact ha) _ _
  · exact litMatchCI_cons_ne (by rw [show toLowerChar 's' = 's' from rfl]; exact hs) _ _
  · exact litMatchCI_cons_ne (by rw [show toLowerChar 't' = 't' from rfl]; exact ht) _ _
  · exact litMatchCI_cons_ne (by rw [show toLowerChar 'p' = 'p' from rfl]; exact hp) _ _
  · exact litMatchCI_cons_ne (by rw [show toLowerChar 'p' = 'p' from rfl]; exact hp) _ _
  · exact litMatchCI_cons_ne (by rw [show toLowerChar 'a' = 'a' from rfl]; exact ha) _ _

/-- The PEM search crosses the placeholder. -/
theorem pemTok_placeholder (p : Option Char) (z : List Char) :
    existsMatch (fun q ds => (matchPemAt q ds).isSome) p (PLACEHOLDER ++ z)
      = existsMatch (fun q ds => (matchPemAt q ds).isSome) (some ']') z := by
  refine existsMatch_placeholder (fun q ds => (matchPemAt q ds).isSome)
    ?_ ?_ ?_ ?_ ?_ ?_ ?_ ?_ ?_ ?_ p z <;>
    (intro p' z'
     show (matchPemAt _ _).isSome = false
     rw [matchPemAt_cons_ne (by decide)]
     rfl)

/-- The pattern-4 search crosses the placeholder. -/
theorem ghpTok_placeholder (p : Option Char) (z : List Char) :
    existsMatch (fun q ds => (matchGhpAt q ds).isSome) p (PLACEHOLDER ++ z)
      = existsMatch (fun q ds => (matchGhpAt q ds).isSome) (some ']') z := by
  refine existsMatch_placeholder (fun q ds => (matchGhpAt q ds).isSome)
    ?_ ?_ ?_ ?_ ?_ ?_ ?_ ?_ ?_ ?_ p z <;>
    (intro p' z'
     show (matchGhpAt _ _).isSome = false
     rw [matchGhpAt_cons_ne (by decide)]
     rfl)

/-- The pattern-7 search crosses the placeholder. -/
theorem skTok_placeholder (p : Option Char) (z : List Char) :
    existsMatch (fun q ds => (matchSkAt q ds).isSome) p (PLACEHOLDER ++ z)
      = existsMatch (fun q ds => (matchSkAt q ds).isSome) (some ']') z := by
  refine existsMatch_placeholder (fun q ds => (matchSkAt q ds).isSome)
    ?_ ?_ ?_ ?_ ?_ ?_ ?_ ?_ ?_ ?_ p z <;>
    (intro p' z'
     show (matchSkAt _ _).isSome = false
     rw [matchSkAt_cons_ne (by decide)]
     rfl)

/-- The pattern-3 search crosses the placeholder. -/
theorem googleTok_placeholder (p : Option Char) (z : List Char) :
    existsMatch (fun q ds => (matchGoogleAt q ds).isSome) p (PLACEHOLDER ++ z)
      = existsMatch (fun q ds => (matchGoogleAt q ds).isSome) (some ']') z := by
  refine existsMatch_placeholder (fun q ds => (matchGoogleAt q ds).isSome)
    ?_ ?_ ?_ ?_ ?_ ?_ ?_ ?_ ?_ ?_ p z
  · intro p' z'
    show (matchGoogleAt _ _).isSome = false
    rw [matchGoogleAt_cons_ne (by decide) (by decide)]
    rfl
  · intro p' z'
    show (matchGoogleAt _ _).isSome = false
    rw [matchGoogleAt_cons_ne (by decide) (by decide)]
    rfl
  · intro p' z'
    show (matchGoogleAt _ _).isSome = false
    rw [matchGoogleAt_cons_ne (by decide) (by decide)]
    rfl
  · intro p' z'
    show (matchGoogleAt _ _).isSome = false
    rw [matchGoogleAt_cons_ne (by decide) (by decide)]
    rfl
  · intro p' z'
    show (matchGoogleAt _ _).isSome = false
    rw [matchGoogleAt]
    split
    · rw [show "AIza".data = 'A' :: 'I' :: 'z' :: 'a' :: [] from rfl, litMatch,
        if_pos rfl, litMatch, if_neg (by decide),
        show "ya29.".data = 'y' :: 'a' :: '2' :: '9' :: '.' :: [] from rfl, litMatch,
        if_neg (by decide)]
      rfl
    · rfl
  · intro p' z'
    show (matchGoogleAt _ _).isSome = false
    rw [matchGoogleAt_cons_ne (by decide) (by decide)]
    rfl
  · intro p' z'
    show (matchGoogleAt _ _).isSome = false
    rw [matchGoogleAt_cons_ne (by decide) (by decide)]
    rfl
  · intro p' z'
    show (matchGoogleAt _ _).isSome = false
    rw [matchGoogleAt_cons_ne (by decide) (by decide)]
    rfl
  · intro p' z'
    show (matchGoogleAt _ _).isSome = false
    rw [matchGoogleAt_cons_ne (by decide) (by decide)]
    rfl
  · intro p' z'
    show (matchGoogleAt _ _).isSome = false
    rw [matchGoogleAt_cons_ne (by decide) (by decide)]
    rfl

/-- The pattern-6 search crosses the placeholder. -/
theorem awsSecTok_placeholder (p : Option Char) (z : List Char) :
    existsMatch (fun q ds => (matchAwsSecretAt q ds).isSome) p (PLACEHOLDER ++ z)
      = existsMatch (fun q ds => (matchAwsSecretAt q ds).isSome) (some ']') z := by
  refine existsMatch_placeholder (fun q ds => (matchAwsSecretAt q ds).isSome)
    ?_ ?_ ?_ ?_ ?_ ?_ ?_ ?_ ?_ ?_ p z
  · intro p' z'
    show (matchAwsSecretAt _ _).isSome = false
    rw [matchAwsSecretAt_cons_ne (by decide)]
    rfl
  · intro p' z'
    show (matchAwsSecretAt _ _).isSome = false
    rw [matchAwsSecretAt_cons_ne (by decide)]
    rfl
  · intro p' z'
    show (matchAwsSecretAt _ _).isSome = false
    rw [matchAwsSecretAt_cons_ne (by decide)]
    rfl
  · intro p' z'
    show (matchAwsSecretAt _ _).isSome = false
    rw [matchAwsSecretAt_cons_ne (by decide)]
    rfl
  · intro p' z'
    show (matchAwsSecretAt _ _).isSome = false
    rw [matchAwsSecretAt]
    split
    · rw [show "aws_secret_access_key".data
          = 'a' :: 'w' :: "s_secret_access_key".data from rfl, litMatchCI,
        if_pos (by decide), litMatchCI, if_neg (by decide)]
      rfl
    · rfl
  · intro p' z'
    show (matchAwsSecretAt _ _).isSome = false
    rw [matchAwsSecretAt_cons_ne (by decide)]
    rfl
  · intro p' z'
    show (matchAwsSecretAt _ _).isSome = false
    rw [matchAwsSecretAt_cons_ne (by decide)]
    rfl
  · intro p' z'
    show (matchAwsSecretAt _ _).isSome = false
    rw [matchAwsSecretAt_cons_ne (by decide)]
    rfl
  · intro p' z'
    show (matchAwsSecretAt _ _).isSome = false
    rw [matchAwsSecretAt_cons_ne (by decide)]
    rfl
  · intro p' z'
    show (matchAwsSecretAt _ _).isSome = false
    rw [matchAwsSecretAt_cons_ne (by decide)]
    rfl

/-- The pattern-2 search crosses the placeholder. -/
theorem genTok_placeholder (p : Option Char) (z : List Char) :
    existsMatch (fun q ds => (matchGenericAt q ds).isSome) p (PLACEHOLDER ++ z)
      = existsMatch (fun q ds => (matchGenericAt q ds).isSome) (some ']') z := by
  refine existsMatch_placeholder (fun q ds => (matchGenericAt q ds).isSome)
    ?_ ?_ ?_ ?_ ?_ ?_ ?_ ?_ ?_ ?_ p z
  · intro p' z'
    show (matchGenericAt _ _).isSome = false
    rw [matchGenericAt_cons_ne (by decide) (by decide) (by decide) (by decide)]
    rfl
  · intro p' z'
    show (matchGenericAt _ _).isSome = false
    rw [matchGenericAt_cons_ne (by decide) (by decide) (by decide) (by decide)]
    rfl
  · intro p' z'
    show (matchGenericAt _ _).isSome = false
    rw [matchGenericAt_cons_ne (by decide) (by decide) (by decide) (by decide)]
    rfl
  · intro p' z'
    show (matchGenericAt _ _).isSome = false
    rw [matchGenericAt_cons_ne (by decide) (by decide) (by decide) (by decide)]
    rfl
  · intro p' z'
    show (matchGenericAt _ _).isSome = false
    rw [matchGenericAt_none_of _ _
      (kwApiKey_none (by
        rw [show "api".data = 'a' :: 'p' :: 'i' :: [] from rfl, litMatchCI,
          if_pos (by decide), litMatchCI, if_neg (by decide)]))
      (litMatchCI_cons_ne (by decide) _ _)
      (litMatchCI_cons_ne (by decide) _ _)
      (litMatchCI_cons_ne (by decide) _ _)
      (litMatchCI_cons_ne (by decide) _ _)
      (by
        rw [show "authorization".data
            = 'a' :: 'u' :: "thorization".data from rfl, litMatchCI,
          if_pos (by decide), litMatchCI, if_neg (by decide)])]
    rfl
  · intro p' z'
    show (matchGenericAt _ _).isSome = false
    rw [matchGenericAt_cons_ne (by decide) (by decide) (by decide) (by decide)]
    rfl
  · intro p' z'
    show (matchGenericAt _ _).isSome = false
    rw [matchGenericAt_none_of _ _
      (kwApiKey_none (litMatchCI_cons_ne (by decide) _ _))
      (litMatchCI_cons_ne (by decide) _ _)
      (by
        rw [show "token".data = 't' :: 'o' :: "ken".data from rfl, litMatchCI,
          if_pos (by decide), litMatchCI, if_neg (by decide)])
      (litMatchCI_cons_ne (by decide) _ _)
      (litMatchCI_cons_ne (by decide) _ _)
      (litMatchCI_cons_ne (by decide) _ _)]
    rfl
  · intro p' z'
    show (matchGenericAt _ _).isSome = false
    rw [matchGenericAt_cons_ne (by decide) (by decide) (by decide) (by decide)]
    rfl
  · intro p' z'
    show (matchGenericAt _ _).isSome = false
    rw [matchGenericAt_cons_ne (by decide) (by decide) (by decide) (by decide)]
    rfl
  · intro p' z'
    show (matchGenericAt _ _).isSome = false
    rw [matchGenericAt_cons_ne (by decide) (by decide) (by decide) (by decide)]
    rfl


/-- A pattern-3 match starts with `A` or `y` — a value-class character. -/
theorem matchGoogleAt_headval (p : Option Char) (cs : List Char)
    (h : (matchGoogleAt p cs).isSome = true) :
    ∃ ch, cs.head? = some ch ∧ isAwsValChar ch = true := by
  obtain ⟨t, ht⟩ := Option.isSome_iff_exists.mp h
  rw [matchGoogleAt] at ht
  by_cases hb : nonWordOrStart p = true
  · rw [if_pos hb] at ht
    cases hAI : litMatch "AIza".data cs with
    | some r =>
      obtain ⟨htk, -⟩ := (litMatch_iff _ _ _).mp hAI
      cases cs with
      | nil => cases htk
      | cons c w =>
        rw [show ("AIza".data).length = 4 from rfl, List.take_succ_cons] at htk
        injection htk with h1 _
        exact ⟨c, rfl, by rw [h1]; decide⟩
    | none =>
      cases hya : litMatch "ya29.".data cs with
      | some r =>
        obtain ⟨htk, -⟩ := (litMatch_iff _ _ _).mp hya
        cases cs with
        | nil => cases htk
        | cons c w =>
          rw [show ("ya29.".data).length = 5 from rfl, List.take_succ_cons] at htk
          injection htk with h1 _
          exact ⟨c, rfl, by rw [h1]; decide⟩
      | none =>
        simp only [hAI, hya] at ht
        cases ht
  · rw [if_neg hb] at ht
    cases ht

/-- A pattern-4 match starts with `g` — a value-class character. -/
theorem matchGhpAt_headval (p : Option Char) (cs : List Char)
    (h : (matchGhpAt p cs).isSome = true) :
    ∃ ch, cs.head? = some ch ∧ isAwsValChar ch = true := by
  obtain ⟨t, ht⟩ := Option.isSome_iff_exists.mp h
  rw [matchGhpAt] at ht
  by_cases hb : nonWordOrStart p = true
  · rw [if_pos hb] at ht
    cases hlit : litMatch "ghp_".data cs with
    | none => rw [hlit] at ht; cases ht
    | some rest =>
      obtain ⟨htk, -⟩ := (litMatch_iff _ _ _).mp hlit
      cases cs with
      | nil => cases htk
      | cons c w =>
        rw [show ("ghp_".data).length = 4 from rfl, List.take_succ_cons] at htk
        injection htk with h1 _
        exact ⟨c, rfl, by rw [h1]; decide⟩
  · rw [if_neg hb] at ht
    cases ht

/-- A `]` left context swaps for any non-word context for pattern 3. -/
theorem matchGoogleAt_swap {q : Char} (hq : isWordChar q = false) (cs : List Char)
    {t : Nat} (h : matchGoogleAt (some ']') cs = some t) :
    matchGoogleAt (some q) cs = some t := by
  rw [matchGoogleAt] at h
  rw [matchGoogleAt]
  rw [if_pos (by simp [nonWordOrStart, hq])]
  rw [if_pos (by decide)] at h
  exact h

/-- A `]` left context swaps for any non-word context for pattern 4. -/
theorem matchGhpAt_swap {q : Char} (hq : isWordChar q = false) (cs : List Char)
    {t : Nat} (h : matchGhpAt (some ']') cs = some t) :
    matchGhpAt (some q) cs = some t := by
  rw [matchGhpAt] at h
  rw [matchGhpAt]
  rw [if_pos (by simp [nonWordOrStart, hq])]
  rw [if_pos (by decide)] at h
  exact h

/-- After a pattern-6 match, a token starting with a value-class character
with a `]` context also holds with the true context, which is non-word. -/
theorem matchAwsSecretAt_hend_gen
    (tok : Option Char → List Char → Bool)
    (hheadv : ∀ p cs, tok p cs = true → ∃ ch, cs.head? = some ch ∧ isAwsValChar ch = true)
    (hswap : ∀ (q : Char) (cs : List Char), isWordChar q = false →
        tok (some ']') cs = true → tok (some q) cs = true) :
    ∀ (p : Option Char) (cs : List Char) (k : Nat), matchAwsSecretAt p cs = some k →
      tok (some ']') (cs.drop k) = true →
      ∃ q, cs[k - 1]? = some q ∧ tok (some q) (cs.drop k) = true := by
  intro p cs k h htok
  obtain ⟨-, n, hs, hk⟩ := matchAwsSecretAt_inv h
  obtain ⟨hn1, hch⟩ := assignSuffix_end isAwsValChar 30 (cs.drop 21) n hs
  obtain ⟨ch, hch0, hchv⟩ := hheadv (some ']') (cs.drop k) htok
  have hA2 : cs[k]? = some ch := by
    rw [← drop_head?_eq]
    exact hch0
  have hheadA : ((cs.drop 21).drop n).head? = some ch := by
    rw [List.drop_drop, drop_head?_eq, show 21 + n = k by omega]
    exact hA2
  obtain ⟨q, hq, hqw⟩ := hch ch hheadA hchv
  have hq2 : cs[k - 1]? = some q := by
    rw [List.getElem?_drop] at hq
    rw [show k - 1 = 21 + (n - 1) by omega]
    exact hq
  exact ⟨q, hq2, hswap q (cs.drop k) hqw htok⟩


/-- Stage 1 leaves no PEM match in its output. -/
theorem repGo_kills_pem :
    ∀ (N : Nat) (cs : List Char), cs.length ≤ N → ∀ (p : Option Char),
      existsMatch (fun q ds => (matchPemAt q ds).isSome) p
        (repGo matchPemAt p 0 cs) = false :=
  repGo_kills matchPemAt matchPemAt_pos pemTok_placeholder
    (fun p c rest hm => matchPemAt_head_transfer matchPemAt matchPemAt_pos c rest p
      (by rw [hm]; rfl))

/-- Stage 2 leaves no generic-assignment match in its output. -/
theorem repGo_kills_gen :
    ∀ (N : Nat) (cs : List Char), cs.length ≤ N → ∀ (p : Option Char),
      existsMatch (fun q ds => (matchGenericAt q ds).isSome) p
        (repGo matchGenericAt p 0 cs) = false :=
  repGo_kills matchGenericAt matchGenericAt_pos genTok_placeholder
    (fun p c rest hm =>
      head_transfer_mono (fun q ds => (matchGenericAt q ds).isSome)
        (fun p2 a z suf htok => by
          obtain ⟨n2, hn2⟩ := Option.isSome_iff_exists.mp htok
          exact matchGenericAt_stable p2 a z suf n2 hn2)
        matchGenericAt matchGenericAt_pos c rest p (by show (matchGenericAt p (c :: rest)).isSome = false; rw [hm]; rfl))

/-- Stage 3 leaves no Google-key match in its output. -/
theorem repGo_kills_google :
    ∀ (N : Nat) (cs : List Char), cs.length ≤ N → ∀ (p : Option Char),
      existsMatch (fun q ds => (matchGoogleAt q ds).isSome) p
        (repGo matchGoogleAt p 0 cs) = false :=
  repGo_kills matchGoogleAt matchGoogleAt_pos googleTok_placeholder
    (fun p c rest hm =>
      head_transfer_bnd (fun q ds => (matchGoogleAt q ds).isSome)
        (fun p2 a z suf q hql hqw htok => by
          obtain ⟨n2, hn2⟩ := Option.isSome_iff_exists.mp htok
          exact matchGoogleAt_stable p2 a z suf q n2 hql hqw hn2)
        matchGoogleAt matchGoogleAt_pos matchGoogleAt_bnd c rest p (by show (matchGoogleAt p (c :: rest)).isSome = false; rw [hm]; rfl))

/-- Stage 4 leaves no GitHub-token match in its output. -/
theorem repGo_kills_ghp :
    ∀ (N : Nat) (cs : List Char), cs.length ≤ N → ∀ (p : Option Char),
      existsMatch (fun q ds => (matchGhpAt q ds).isSome) p
        (repGo matchGhpAt p 0 cs) = false :=
  repGo_kills matchGhpAt matchGhpAt_pos ghpTok_placeholder
    (fun p c rest hm =>
      head_transfer_bnd (fun q ds => (matchGhpAt q ds).isSome)
        (fun p2 a z suf q hql hqw htok => by
          obtain ⟨n2, hn2⟩ := Option.isSome_iff_exists.mp htok
          exact matchGhpAt_stable p2 a z suf q n2 hql hqw hn2)
        matchGhpAt matchGhpAt_pos matchGhpAt_bnd c rest p (by show (matchGhpAt p (c :: rest)).isSome = false; rw [hm]; rfl))

/-- Stage 6 leaves no aws-secret match in its output. -/
theorem repGo_kills_awsSec :
    ∀ (N : Nat) (cs : List Char), cs.length ≤ N → ∀ (p : Option Char),
      existsMatch (fun q ds => (matchAwsSecretAt q ds).isSome) p
        (repGo matchAwsSecretAt p 0 cs) = false :=
  repGo_kills matchAwsSecretAt matchAwsSecretAt_pos awsSecTok_placeholder
    (fun p c rest hm =>
      head_transfer_mono (fun q ds => (matchAwsSecretAt q ds).isSome)
        (fun p2 a z suf htok => by
          obtain ⟨n2, hn2⟩ := Option.isSome_iff_exists.mp htok
          exact matchAwsSecretAt_stable p2 a z suf n2 hn2)
        matchAwsSecretAt matchAwsSecretAt_pos c rest p (by show (matchAwsSecretAt p (c :: rest)).isSome = false; rw [hm]; rfl))

/-- Stage 7 leaves no sk-token match in its output. -/
theorem repGo_kills_sk :
    ∀ (N : Nat) (cs : List Char), cs.length ≤ N → ∀ (p : Option Char),
      existsMatch (fun q ds => (matchSkAt q ds).isSome) p
        (repGo matchSkAt p 0 cs) = false :=
  repGo_kills matchSkAt matchSkAt_pos skTok_placeholder
    (fun p c rest hm =>
      head_transfer_bnd (fun q ds => (matchSkAt q ds).isSome)
        (fun p2 a z suf q hql hqw htok => by
          obtain ⟨n2, hn2⟩ := Option.isSome_iff_exists.mp htok
          exact matchSkAt_stable p2 a z suf q n2 hql hqw hn2)
        matchSkAt matchSkAt_pos matchSkAt_bnd c rest p (by show (matchSkAt p (c :: rest)).isSome = false; rw [hm]; rfl))

/-- Any later scan preserves PEM-match-freeness. -/
theorem preserves_pemTok (m : Option Char → List Char → Option Nat)
    (hn : ∀ p cs k, m p cs = some k → 1 ≤ k) :
    ∀ (N : Nat) (cs : List Char), cs.length ≤ N → ∀ (p : Option Char),
      existsMatch (fun q ds => (matchPemAt q ds).isSome) p cs = false →
      existsMatch (fun q ds => (matchPemAt q ds).isSome) p (repGo m p 0 cs) = false :=
  repGo_preserves_generic (fun q ds => (matchPemAt q ds).isSome) m hn
    pemTok_placeholder
    (fun p c rest _ hno => matchPemAt_head_transfer m hn c rest p hno)
    (hend_of_previndep (fun q ds => (matchPemAt q ds).isSome)
      (fun _ _ _ => rfl) (fun _ => rfl) m)

/-- Any later scan preserves generic-assignment-match-freeness. -/
theorem preserves_genTok (m : Option Char → List Char → Option Nat)
    (hn : ∀ p cs k, m p cs = some k → 1 ≤ k) :
    ∀ (N : Nat) (cs : List Char), cs.length ≤ N → ∀ (p : Option Char),
      existsMatch (fun q ds => (matchGenericAt q ds).isSome) p cs = false →
      existsMatch (fun q ds => (matchGenericAt q ds).isSome) p (repGo m p 0 cs) = false :=
  repGo_preserves_generic (fun q ds => (matchGenericAt q ds).isSome) m hn
    genTok_placeholder
    (fun p c rest _ hno =>
      head_transfer_mono (fun q ds => (matchGenericAt q ds).isSome)
        (fun p2 a z suf htok => by
          obtain ⟨n2, hn2⟩ := Option.isSome_iff_exists.mp htok
          exact matchGenericAt_stable p2 a z suf n2 hn2)
        m hn c rest p hno)
    (hend_of_previndep (fun q ds => (matchGenericAt q ds).isSome)
      (fun _ _ _ => rfl) (fun _ => rfl) m)

/-- A later boundary-scanning stage preserves Google-key-match-freeness,
given the right-edge condition. -/
theorem preserves_googleTok (m : Option Char → List Char → Option Nat)
    (hn : ∀ p cs k, m p cs = some k → 1 ≤ k)
    (hbnd : ∀ p cs k, m p cs = some k → nonWordOrStart p = true)
    (hend : ∀ (p : Option Char) (cs : List Char) (k : Nat), m p cs = some k →
      (fun q ds => (matchGoogleAt q ds).isSome) (some ']') (cs.drop k) = true →
      ∃ q, cs[k - 1]? = some q ∧
        (fun q2 ds => (matchGoogleAt q2 ds).isSome) (some q) (cs.drop k) = true) :
    ∀ (N : Nat) (cs : List Char), cs.length ≤ N → ∀ (p : Option Char),
      existsMatch (fun q ds => (matchGoogleAt q ds).isSome) p cs = false →
      existsMatch (fun q ds => (matchGoogleAt q ds).isSome) p (repGo m p 0 cs) = false :=
  repGo_preserves_generic (fun q ds => (matchGoogleAt q ds).isSome) m hn
    googleTok_placeholder
    (fun p c rest _ hno =>
      head_transfer_bnd (fun q ds => (matchGoogleAt q ds).isSome)
        (fun p2 a z suf q hql hqw htok => by
          obtain ⟨n2, hn2⟩ := Option.isSome_iff_exists.mp htok
          exact matchGoogleAt_stable p2 a z suf q n2 hql hqw hn2)
        m hn hbnd c rest p hno)
    hend

/-- A later boundary-scanning stage preserves GitHub-token-match-freeness,
given the right-edge condition. -/
theorem preserves_ghpTok (m : Option Char → List Char → Option Nat)
    (hn : ∀ p cs k, m p cs = some k → 1 ≤ k)
    (hbnd : ∀ p cs k, m p cs = some k → nonWordOrStart p = true)
    (hend : ∀ (p : Option Char) (cs : List Char) (k : Nat), m p cs = some k →
      (fun q ds => (matchGhpAt q ds).isSome) (some ']') (cs.drop k) = true →
      ∃ q, cs[k - 1]? = some q ∧
        (fun q2 ds => (matchGhpAt q2 ds).isSome) (some q) (cs.drop k) = true) :
    ∀ (N : Nat) (cs : List Char), cs.length ≤ N → ∀ (p : Option Char),
      existsMatch (fun q ds => (matchGhpAt q ds).isSome) p cs = false →
      existsMatch (fun q ds => (matchGhpAt q ds).isSome) p (repGo m p 0 cs) = false :=
  repGo_preserves_generic (fun q ds => (matchGhpAt q ds).isSome) m hn
    ghpTok_placeholder
    (fun p c rest _ hno =>
      head_transfer_bnd (fun q ds => (matchGhpAt q ds).isSome)
        (fun p2 a z suf q hql hqw htok => by
          obtain ⟨n2, hn2⟩ := Option.isSome_iff_exists.mp htok
          exact matchGhpAt_stable p2 a z suf q n2 hql hqw hn2)
        m hn hbnd c rest p hno)
    hend

/-- The last stage preserves aws-secret-match-freeness. -/
theorem preserves_awsSecTok (m : Option Char → List Char → Option Nat)
    (hn : ∀ p cs k, m p cs = some k → 1 ≤ k)
    (hend : ∀ (p : Option Char) (cs : List Char) (k : Nat), m p cs = some k →
      (fun q ds => (matchAwsSecretAt q ds).isSome) (some ']') (cs.drop k) = true →
      ∃ q, cs[k - 1]? = some q ∧
        (fun q2 ds => (matchAwsSecretAt q2 ds).isSome) (some q) (cs.drop k) = true) :
    ∀ (N : Nat) (cs : List Char), cs.length ≤ N → ∀ (p : Option Char),
      existsMatch (fun q ds => (matchAwsSecretAt q ds).isSome) p cs = false →
      existsMatch (fun q ds => (matchAwsSecretAt q ds).isSome) p (repGo m p 0 cs) = false :=
  repGo_preserves_generic (fun q ds => (matchAwsSecretAt q ds).isSome) m hn
    awsSecTok_placeholder
    (fun p c rest _ hno =>
      head_transfer_mono (fun q ds => (matchAwsSecretAt q ds).isSome)
        (fun p2 a z suf htok => by
          obtain ⟨n2, hn2⟩ := Option.isSome_iff_exists.mp htok
          exact matchAwsSecretAt_stable p2 a z suf n2 hn2)
        m hn c rest p hno)
    hend


/-- The first-pass output contains no PEM-block match. -/
theorem nomatch_pem (cs : List Char) :
    existsMatch (fun q ds => (matchPemAt q ds).isSome) none
      (replaceAll matchSkAt (replaceAll matchAwsSecretAt (replaceAll matchAwsKeyAt
        (replaceAll matchGhpAt (replaceAll matchGoogleAt (replaceAll matchGenericAt
          (replaceAll matchPemAt cs))))))) = false :=
  preserves_pemTok matchSkAt matchSkAt_pos _ _ le_rfl none
    (preserves_pemTok matchAwsSecretAt matchAwsSecretAt_pos _ _ le_rfl none
      (preserves_pemTok matchAwsKeyAt matchAwsKeyAt_pos _ _ le_rfl none
        (preserves_pemTok matchGhpAt matchGhpAt_pos _ _ le_rfl none
          (preserves_pemTok matchGoogleAt matchGoogleAt_pos _ _ le_rfl none
            (preserves_pemTok matchGenericAt matchGenericAt_pos _ _ le_rfl none
              (repGo_kills_pem cs.length cs le_rfl none))))))

/-- The first-pass output contains no generic-assignment match. -/
theorem nomatch_gen (cs : List Char) :
    existsMatch (fun q ds => (matchGenericAt q ds).isSome) none
      (replaceAll matchSkAt (replaceAll matchAwsSecretAt (replaceAll matchAwsKeyAt
        (replaceAll matchGhpAt (replaceAll matchGoogleAt (replaceAll matchGenericAt
          (replaceAll matchPemAt cs))))))) = false :=
  preserves_genTok matchSkAt matchSkAt_pos _ _ le_rfl none
    (preserves_genTok matchAwsSecretAt matchAwsSecretAt_pos _ _ le_rfl none
      (preserves_genTok matchAwsKeyAt matchAwsKeyAt_pos _ _ le_rfl none
        (preserves_genTok matchGhpAt matchGhpAt_pos _ _ le_rfl none
          (preserves_genTok matchGoogleAt matchGoogleAt_pos _ _ le_rfl none
            (repGo_kills_gen (replaceAll matchPemAt cs).length _ le_rfl none)))))

/-- The first-pass output contains no Google-key match. -/
theorem nomatch_google (cs : List Char) :
    existsMatch (fun q ds => (matchGoogleAt q ds).isSome) none
      (replaceAll matchSkAt (replaceAll matchAwsSecretAt (replaceAll matchAwsKeyAt
        (replaceAll matchGhpAt (replaceAll matchGoogleAt (replaceAll matchGenericAt
          (replaceAll matchPemAt cs))))))) = false :=
  preserves_googleTok matchSkAt matchSkAt_pos matchSkAt_bnd
    (hend_vacuous (fun q ds => (matchGoogleAt q ds).isSome) matchSkAt
      (fun _ _ _ h => matchSkAt_end h)
      (fun p2 ds hh => matchGoogleAt_headword p2 ds hh)) _ _ le_rfl none
    (preserves_googleTok matchAwsSecretAt matchAwsSecretAt_pos matchAwsSecretAt_bnd
      (matchAwsSecretAt_hend_gen (fun q ds => (matchGoogleAt q ds).isSome)
        (fun p2 ds h => matchGoogleAt_headval p2 ds h)
        (fun q ds hq h => by
          obtain ⟨t, ht⟩ := Option.isSome_iff_exists.mp h
          exact Option.isSome_iff_exists.mpr ⟨t, matchGoogleAt_swap hq ds ht⟩)) _ _ le_rfl none
      (preserves_googleTok matchAwsKeyAt matchAwsKeyAt_pos matchAwsKeyAt_bnd
        (hend_vacuous (fun q ds => (matchGoogleAt q ds).isSome) matchAwsKeyAt
          (fun _ _ _ h => matchAwsKeyAt_end h)
          (fun p2 ds hh => matchGoogleAt_headword p2 ds hh)) _ _ le_rfl none
        (preserves_googleTok matchGhpAt matchGhpAt_pos matchGhpAt_bnd
          (hend_vacuous (fun q ds => (matchGoogleAt q ds).isSome) matchGhpAt
            (fun _ _ _ h => matchGhpAt_end h)
            (fun p2 ds hh => matchGoogleAt_headword p2 ds hh)) _ _ le_rfl none
          (repGo_kills_google
            (replaceAll matchGenericAt (replaceAll matchPemAt cs)).length _ le_rfl none))))

/-- The first-pass output contains no GitHub-token match. -/
theorem nomatch_ghp (cs : List Char) :
    existsMatch (fun q ds => (matchGhpAt q ds).isSome) none
      (replaceAll matchSkAt (replaceAll matchAwsSecretAt (replaceAll matchAwsKeyAt
        (replaceAll matchGhpAt (replaceAll matchGoogleAt (replaceAll matchGenericAt
          (replaceAll matchPemAt cs))))))) = false :=
  preserves_ghpTok matchSkAt matchSkAt_pos matchSkAt_bnd
    (hend_vacuous (fun q ds => (matchGhpAt q ds).isSome) matchSkAt
      (fun _ _ _ h => matchSkAt_end h)
      (fun p2 ds hh => matchGhpAt_headword p2 ds hh)) _ _ le_rfl none
    (preserves_ghpTok matchAwsSecretAt matchAwsSecretAt_pos matchAwsSecretAt_bnd
      (matchAwsSecretAt_hend_gen (fun q ds => (matchGhpAt q ds).isSome)
        (fun p2 ds h => matchGhpAt_headval p2 ds h)
        (fun q ds hq h => by
          obtain ⟨t, ht⟩ := Option.isSome_iff_exists.mp h
          exact Option.isSome_iff_exists.mpr ⟨t, matchGhpAt_swap hq ds ht⟩)) _ _ le_rfl none
      (preserves_ghpTok matchAwsKeyAt matchAwsKeyAt_pos matchAwsKeyAt_bnd
        (hend_vacuous (fun q ds => (matchGhpAt q ds).isSome) matchAwsKeyAt
          (fun _ _ _ h => matchAwsKeyAt_end h)
          (fun p2 ds hh => matchGhpAt_headword p2 ds hh)) _ _ le_rfl none
        (repGo_kills_ghp
          (replaceAll matchGoogleAt (replaceAll matchGenericAt
            (replaceAll matchPemAt cs))).length _ le_rfl none)))

/-- The first-pass output contains no AWS-access-key match. -/
theorem nomatch_awsKey (cs : List Char) :
    existsMatch (fun q ds => (matchAwsKeyAt q ds).isSome) none
      (replaceAll matchSkAt (replaceAll matchAwsSecretAt (replaceAll matchAwsKeyAt
        (replaceAll matchGhpAt (replaceAll matchGoogleAt (replaceAll matchGenericAt
          (replaceAll matchPemAt cs))))))) = false :=
  repGo_preserves_no_token matchSkAt matchSkAt_pos matchSkAt_bnd matchSkAt_hend
    _ _ le_rfl none
    (repGo_preserves_no_token matchAwsSecretAt matchAwsSecretAt_pos
      matchAwsSecretAt_bnd matchAwsSecretAt_hend _ _ le_rfl none
      (repGo_awsKey_no_token
        (replaceAll matchGhpAt (replaceAll matchGoogleAt (replaceAll matchGenericAt
          (replaceAll matchPemAt cs)))).length _ le_rfl none))

/-- The first-pass output contains no aws-secret-assignment match. -/
theorem nomatch_awsSec (cs : List Char) :
    existsMatch (fun q ds => (matchAwsSecretAt q ds).isSome) none
      (replaceAll matchSkAt (replaceAll matchAwsSecretAt (replaceAll matchAwsKeyAt
        (replaceAll matchGhpAt (replaceAll matchGoogleAt (replaceAll matchGenericAt
          (replaceAll matchPemAt cs))))))) = false :=
  preserves_awsSecTok matchSkAt matchSkAt_pos
    (hend_vacuous (fun q ds => (matchAwsSecretAt q ds).isSome) matchSkAt
      (fun _ _ _ h => matchSkAt_end h)
      (fun p2 ds hh => matchAwsSecretAt_headword p2 ds hh)) _ _ le_rfl none
    (repGo_kills_awsSec
      (replaceAll matchAwsKeyAt (replaceAll matchGhpAt (replaceAll matchGoogleAt
        (replaceAll matchGenericAt (replaceAll matchPemAt cs))))).length _ le_rfl none)

/-- The first-pass output contains no sk-token match. -/
theorem nomatch_sk (cs : List Char) :
    existsMatch (fun q ds => (matchSkAt q ds).isSome) none
      (replaceAll matchSkAt (replaceAll matchAwsSecretAt (replaceAll matchAwsKeyAt
        (replaceAll matchGhpAt (replaceAll matchGoogleAt (replaceAll matchGenericAt
          (replaceAll matchPemAt cs))))))) = false :=
  repGo_kills_sk
    (replaceAll matchAwsSecretAt (replaceAll matchAwsKeyAt (replaceAll matchGhpAt
      (replaceAll matchGoogleAt (replaceAll matchGenericAt
        (replaceAll matchPemAt cs)))))).length _ le_rfl none

set_option maxHeartbeats 2000000 in
/-- **C4**: `redact` is idempotent: for every string `x`,
`redact(redact(x)) = redact(x)`.  The output of the first pass contains no
match of any of the seven secret patterns — each stage removes its own
matches, and no later stage (nor the placeholder it writes) can create a
new one — so on the second pass every `replace` is the identity. -/
theorem redact_idempotent (s : String) : redact (redact s) = redact s := by
  have e1 : replaceAll matchPemAt (redact s).data = (redact s).data :=
    repGo_id_of_nomatch matchPemAt (redact s).data none (nomatch_pem s.data)
  have e2 : replaceAll matchGenericAt (redact s).data = (redact s).data :=
    repGo_id_of_nomatch matchGenericAt (redact s).data none (nomatch_gen s.data)
  have e3 : replaceAll matchGoogleAt (redact s).data = (redact s).data :=
    repGo_id_of_nomatch matchGoogleAt (redact s).data none (nomatch_google s.data)
  have e4 : replaceAll matchGhpAt (redact s).data = (redact s).data :=
    repGo_id_of_nomatch matchGhpAt (redact s).data none (nomatch_ghp s.data)
  have e5 : replaceAll matchAwsKeyAt (redact s).data = (redact s).data :=
    repGo_id_of_nomatch matchAwsKeyAt (redact s).data none (nomatch_awsKey s.data)
  have e6 : replaceAll matchAwsSecretAt (redact s).data = (redact s).data :=
    repGo_id_of_nomatch matchAwsSecretAt (redact s).data none (nomatch_awsSec s.data)
  have e7 : replaceAll matchSkAt (redact s).data = (redact s).data :=
    repGo_id_of_nomatch matchSkAt (redact s).data none (nomatch_sk s.data)
  show String.mk (replaceAll matchSkAt (replaceAll matchAwsSecretAt
      (replaceAll matchAwsKeyAt (replaceAll matchGhpAt (replaceAll matchGoogleAt
        (replaceAll matchGenericAt (replaceAll matchPemAt (redact s).data)))))))
    = redact s
  rw [e1, e2, e3, e4, e5, e6, e7]

end CodexReviewer
